import Mathlib

/-!
# Verification of the `vgc::vacomplex` topological-complex core

This file gives a shallow embedding, in Lean 4, of the data model and of the
mutating operations of the vector-animation-complex core of the repository
(`src/libs/vgc/vacomplex`, mainly `detail/operationsimpl.cpp` and
`complex.cpp`), and proves or refutes the frozen claims C1..C10 about it.

Modelling conventions:

* `core::Id` is a natural number.  The complex allocates ids monotonically
  (`nextId`); ids are never reused while the complex is alive.
* A `Node` owns its parent pointer, its ordered child list (bottom-most
  first, mirroring the intrusive sibling list of `Group`), its `boundary_`
  and `star_` arrays (ordered, duplicate-free arrays of raw cell pointers in
  C++, here lists of ids), and its kind-specific payload.
* The node map `Complex::nodes_` is an association list `List (Id × Node)`;
  well-formed states have duplicate-free keys.
* C++ raw pointers are ids; dereferencing a pointer becomes a lookup.  The
  C++ code only ever calls the helpers with valid pointers, so the model
  makes each helper a no-op when a looked-up id is absent.
* Geometry (`geometry::Vec2d`, strokes) is modelled exactly: positions are
  integer pairs and a stroke (`KeyEdgeData`) is its list of sample points.
  The files `keyedgedata.cpp` / `keyfacedata.cpp` are not part of the given
  sources, so these payload types and their slice/concat operations are
  modelled from the spec (see the individual doc comments).
* The double-valued winding-number heuristics (cycle containment tests used
  by `delete_`'s face repair and by `cutGlueFace`) are modelled by an
  oracle: a function parameter deciding each containment test.  Every
  theorem below is universally quantified over the oracle, so nothing
  depends on a particular geometric answer.
-/

namespace VGC

/-- `core::Id`: process-wide unique node identifier. -/
abbrev Id := Nat

/-- `geometry::Vec2d`, with exact (rational) coordinates. -/
structure Vec2 where
  x : Rat
  y : Rat
deriving DecidableEq, Repr

/-- `0.5 * (a + b)` on positions. -/
def Vec2.midpoint (a b : Vec2) : Vec2 :=
  ⟨(a.x + b.x) / 2, (a.y + b.y) / 2⟩

instance : Inhabited Vec2 := ⟨⟨0, 0⟩⟩

/-- Modelled from the spec: `KeyEdgeData` (file `keyedgedata.cpp` is not in
the given sources).  The spec says a key edge "holds geometric `KeyEdgeData`
(a stroke) separately from topology" and that "geometry slicing is exact, so
stroke data round-trips"; accordingly a stroke is modelled as its exact list
of sample points, and slicing/concatenation operate on that list sharing the
seam sample. -/
structure KeyEdgeData where
  points : List Vec2
deriving DecidableEq, Repr

/-- A curve parameter of an edge (`geometry::CurveParameter`), modelled as
the index of the corresponding stroke sample. -/
abbrev CurveParameter := Nat

/-- Modelled from the spec: the slice of a stroke from its start parameter
to parameter `p` ("exact stroke-slicing (`KeyEdgeData::fromSlice`) so
original and post-cut stroke samples coincide at the split point"). -/
def KeyEdgeData.sliceTo (d : KeyEdgeData) (p : CurveParameter) : KeyEdgeData :=
  ⟨d.points.take (p + 1)⟩

/-- Modelled from the spec: the slice of a stroke from parameter `p` to its
end parameter. -/
def KeyEdgeData.sliceFrom (d : KeyEdgeData) (p : CurveParameter) : KeyEdgeData :=
  ⟨d.points.drop p⟩

/-- Modelled from the spec: `KeyEdgeData::fromSlice` on a closed edge with
equal start and end parameters and one wrap: the stroke re-rooted at `p`. -/
def KeyEdgeData.sliceWrap (d : KeyEdgeData) (p : CurveParameter) : KeyEdgeData :=
  ⟨d.points.drop p ++ d.points.take (p + 1)⟩

/-- The stroke reversed (used when a halfedge traverses it backwards). -/
def KeyEdgeData.reversed (d : KeyEdgeData) : KeyEdgeData :=
  ⟨d.points.reverse⟩

/-- `d` oriented along direction `dir` (`true` = intrinsic direction). -/
def KeyEdgeData.oriented (d : KeyEdgeData) (dir : Bool) : KeyEdgeData :=
  if dir then d else d.reversed

/-- Modelled from the spec: `KeyEdgeData::fromConcatStep` concatenates two
directed strokes that share their seam sample ("merging stroke data"; the
spec states the result of slicing then concatenating is exact, so the seam
sample is not duplicated).  The `smoothJoin` flag controls tangent blending
at the seam, which leaves exact sample lists unchanged. -/
def KeyEdgeData.fromConcatStep (d1 d2 : KeyEdgeData) (dir1 dir2 : Bool)
    (_smoothJoin : Bool) : KeyEdgeData :=
  ⟨(d1.oriented dir1).points ++ ((d2.oriented dir2).points.drop 1)⟩

/-- Modelled from the spec: `KeyEdgeData::closeStroke` turns the stroke of
an open edge whose two endpoints coincide into a closed stroke; exact sample
lists are unchanged (the shared endpoint becomes the seam). -/
def KeyEdgeData.closeStroke (d : KeyEdgeData) (_smoothJoin : Bool) : KeyEdgeData := d

/-- Modelled from the spec: `KeyEdgeData::snapGeometry` snaps the two stroke
endpoints to the given positions. -/
def KeyEdgeData.snapGeometry (d : KeyEdgeData) (a b : Vec2) : KeyEdgeData :=
  ⟨a :: (d.points.drop 1).dropLast ++ [b]⟩

/-- The two stroke end positions (`AbstractStroke2d::endPositions`). -/
def KeyEdgeData.endPositions (d : KeyEdgeData) : Vec2 × Vec2 :=
  (d.points.headI, d.points.getLastI)

/-- Modelled from the spec: `KeyFaceData` — the face's style payload; the
spec only requires that merged faces get "concatenated face data"
(`KeyFaceData::assignFromConcatStep`), so the payload is a list of abstract
property tokens and concatenation appends them. -/
structure KeyFaceData where
  props : List Nat
deriving DecidableEq, Repr

/-- Modelled from the spec: `KeyFaceData::assignFromConcatStep`. -/
def KeyFaceData.concatStep (d1 d2 : KeyFaceData) : KeyFaceData :=
  ⟨d1.props ++ d2.props⟩

/-- `vacomplex::CellType`.  The enumerator order is the one listed by the
spec (`{KeyVertex, KeyEdge, KeyFace, InbetweenVertex, InbetweenEdge,
InbetweenFace}`); the header declaring the C++ enum is not in the given
sources, so the order is modelled from the spec. -/
inductive CellType where
  | keyVertex
  | keyEdge
  | keyFace
  | inbetweenVertex
  | inbetweenEdge
  | inbetweenFace
deriving DecidableEq, Repr

/-- The underlying integral value of a `CellType` enumerator, following the
declaration order. -/
def CellType.val : CellType → Nat
  | .keyVertex => 0
  | .keyEdge => 1
  | .keyFace => 2
  | .inbetweenVertex => 3
  | .inbetweenEdge => 4
  | .inbetweenFace => 5

/-- The topological dimension of a cell of this type. -/
def CellType.dim : CellType → Nat
  | .keyVertex => 0
  | .keyEdge => 1
  | .keyFace => 2
  | .inbetweenVertex => 0
  | .inbetweenEdge => 1
  | .inbetweenFace => 2

/-- `vacomplex::KeyHalfedge`: an edge id plus a traversal direction. -/
structure KeyHalfedge where
  edge : Id
  direction : Bool
deriving DecidableEq, Repr

/-- `KeyHalfedge::opposite`: same edge, flipped direction. -/
def KeyHalfedge.opposite (h : KeyHalfedge) : KeyHalfedge :=
  ⟨h.edge, !h.direction⟩

/-- `vacomplex::KeyCycle`: either a single Steiner vertex, or a closed walk
of halfedges. -/
inductive KeyCycle where
  | steiner (v : Id)
  | walk (halfedges : List KeyHalfedge)
deriving DecidableEq, Repr

/-- `KeyCycle::steinerVertex()` (null when the cycle is a walk). -/
def KeyCycle.steinerVertex : KeyCycle → Option Id
  | .steiner v => some v
  | .walk _ => none

/-- The halfedge list of a cycle (empty for a Steiner cycle). -/
def KeyCycle.halfedges : KeyCycle → List KeyHalfedge
  | .steiner _ => []
  | .walk hs => hs

/-- `KeyCycle::reversed()`: reverse the walk and flip every direction. -/
def KeyCycle.reversed : KeyCycle → KeyCycle
  | .steiner v => .steiner v
  | .walk hs => .walk ((hs.map KeyHalfedge.opposite).reverse)

/-- `vacomplex::KeyPath`: either a single vertex, or a list of consecutive
halfedges. -/
structure KeyPath where
  singleVertex : Option Id := none
  halfedges : List KeyHalfedge := []
deriving DecidableEq, Repr

/-- `KeyPath::append`. -/
def KeyPath.append (p : KeyPath) (h : KeyHalfedge) : KeyPath :=
  { p with singleVertex := none, halfedges := p.halfedges ++ [h] }

/-- `KeyPath::extend`. -/
def KeyPath.extend (p q : KeyPath) : KeyPath :=
  { p with halfedges := p.halfedges ++ q.halfedges }

/-- `KeyPath::extendReversed`: extend with the opposite halfedges of `q` in
reverse order. -/
def KeyPath.extendReversed (p q : KeyPath) : KeyPath :=
  { p with halfedges := p.halfedges ++ (q.halfedges.map KeyHalfedge.opposite).reverse }

/-- `KeyPath::isSingleVertex`. -/
def KeyPath.isSingleVertex (p : KeyPath) : Bool :=
  p.singleVertex.isSome

/-- Building a `KeyCycle` from a `KeyPath` (the `KeyCycle(KeyPath&&)`
constructor): a single-vertex path gives a Steiner cycle. -/
def KeyPath.toCycle (p : KeyPath) : KeyCycle :=
  match p.singleVertex with
  | some v => .steiner v
  | none => .walk p.halfedges

/-- The kind-specific payload of a node. -/
inductive NodeData where
  | group
  | keyVertex (position : Vec2)
  | keyEdge (startVertex endVertex : Option Id) (data : KeyEdgeData)
  | keyFace (cycles : List KeyCycle) (data : KeyFaceData)
  | inbetweenVertex
  | inbetweenEdge
  | inbetweenFace
deriving DecidableEq, Repr

/-- `Node::isCell()`. -/
def NodeData.isCell : NodeData → Bool
  | .group => false
  | _ => true

/-- `Cell::cellType()` (none for groups). -/
def NodeData.cellType : NodeData → Option CellType
  | .group => none
  | .keyVertex _ => some .keyVertex
  | .keyEdge _ _ _ => some .keyEdge
  | .keyFace _ _ => some .keyFace
  | .inbetweenVertex => some .inbetweenVertex
  | .inbetweenEdge => some .inbetweenEdge
  | .inbetweenFace => some .inbetweenFace

/-- `CellSpatialType::Vertex` test (`spatialType()` of a cell). -/
def NodeData.isVertexCell : NodeData → Bool
  | .keyVertex _ => true
  | .inbetweenVertex => true
  | _ => false

/-- A node of the complex: identity is the id key in the node map; this
record carries the tree links, the incidence arrays and the payload. -/
structure Node where
  parent : Option Id := none
  children : List Id := []
  boundary : List Id := []
  star : List Id := []
  data : NodeData
deriving DecidableEq, Repr

/-- `vacomplex::Complex`: the node map, the root group, the version counter
and the id allocator. -/
structure Complex where
  nodes : List (Id × Node) := []
  root : Option Id := none
  version : Nat := 0
  nextId : Id := 0
deriving DecidableEq, Repr

namespace Complex

/-- `Complex::find`. -/
def find? (s : Complex) (i : Id) : Option Node :=
  (s.nodes.find? (fun p => p.1 = i)).map (·.2)

/-- `Complex::containsNode`. -/
def containsNode (s : Complex) (i : Id) : Bool :=
  (s.find? i).isSome

/-- Rewrite the node stored at id `i` (no-op if absent). -/
def modifyNode (s : Complex) (i : Id) (f : Node → Node) : Complex :=
  { s with nodes := s.nodes.map (fun p => if p.1 = i then (p.1, f p.2) else p) }

/-- Rewrite only the payload of the node stored at id `i`. -/
def modifyData (s : Complex) (i : Id) (f : NodeData → NodeData) : Complex :=
  s.modifyNode i (fun n => { n with data := f n.data })

/-- Remove a set of nodes from the node map. -/
def eraseNodes (s : Complex) (ids : List Id) : Complex :=
  { s with nodes := s.nodes.filter (fun p => !ids.contains p.1) }

/-- The boundary array of the node at `i` (empty if absent). -/
def boundaryOf (s : Complex) (i : Id) : List Id :=
  ((s.find? i).map Node.boundary).getD []

/-- The star array of the node at `i` (empty if absent). -/
def starOf (s : Complex) (i : Id) : List Id :=
  ((s.find? i).map Node.star).getD []

/-- The child list of the node at `i` (empty if absent). -/
def childrenOf (s : Complex) (i : Id) : List Id :=
  ((s.find? i).map Node.children).getD []

/-- The payload of the node at `i` (none if absent). -/
def dataOf (s : Complex) (i : Id) : Option NodeData :=
  (s.find? i).map Node.data

/-- The parent group of the node at `i`. -/
def parentOf (s : Complex) (i : Id) : Option Id :=
  ((s.find? i).map Node.parent).getD none

/-- True iff the node at `i` exists and is a cell. -/
def isCell (s : Complex) (i : Id) : Bool :=
  ((s.dataOf i).map NodeData.isCell).getD false

/-- The cell type of the node at `i`. -/
def cellTypeOf (s : Complex) (i : Id) : Option CellType :=
  (s.dataOf i).bind NodeData.cellType

/-- The cycles of the key face at `i` (empty if absent or not a face). -/
def cyclesOf (s : Complex) (i : Id) : List KeyCycle :=
  match s.dataOf i with
  | some (.keyFace cycles _) => cycles
  | _ => []

/-- The start vertex of the key edge at `i`. -/
def startVertexOf (s : Complex) (i : Id) : Option Id :=
  match s.dataOf i with
  | some (.keyEdge sv _ _) => sv
  | _ => none

/-- The end vertex of the key edge at `i`. -/
def endVertexOf (s : Complex) (i : Id) : Option Id :=
  match s.dataOf i with
  | some (.keyEdge _ ev _) => ev
  | _ => none

/-- The stroke data of the key edge at `i`. -/
def edgeDataOf (s : Complex) (i : Id) : Option KeyEdgeData :=
  match s.dataOf i with
  | some (.keyEdge _ _ d) => some d
  | _ => none

/-- `KeyEdge::isClosed()`: a key edge is closed iff it has no start vertex. -/
def isClosedEdge (s : Complex) (i : Id) : Bool :=
  match s.dataOf i with
  | some (.keyEdge none _ _) => true
  | _ => false

/-- `KeyEdge::isStartVertex(v)`. -/
def isStartVertex (s : Complex) (e v : Id) : Bool :=
  s.startVertexOf e == some v

/-- `KeyEdge::isEndVertex(v)`. -/
def isEndVertex (s : Complex) (e v : Id) : Bool :=
  s.endVertexOf e == some v

end Complex

/-- `KeyHalfedge::startVertex()`: start of the edge if the direction is
intrinsic, end otherwise. -/
def KeyHalfedge.startVertexIn (s : Complex) (h : KeyHalfedge) : Option Id :=
  if h.direction then s.startVertexOf h.edge else s.endVertexOf h.edge

/-- `KeyHalfedge::endVertex()`. -/
def KeyHalfedge.endVertexIn (s : Complex) (h : KeyHalfedge) : Option Id :=
  if h.direction then s.endVertexOf h.edge else s.startVertexOf h.edge

/-- `KeyHalfedge::isClosed()`. -/
def KeyHalfedge.isClosedIn (s : Complex) (h : KeyHalfedge) : Bool :=
  s.isClosedEdge h.edge

/-- `KeyCycle::isValid()`: a Steiner cycle is valid; a walk is valid iff it
is non-empty and either consists of a closed edge's halfedges, or is a
closed chain of open-edge halfedges where consecutive halfedges share a
vertex. -/
def KeyCycle.isValidIn (s : Complex) : KeyCycle → Bool
  | .steiner _ => true
  | .walk [] => false
  | .walk (h :: hs) =>
    if h.isClosedIn s then
      (h :: hs).all (fun k => k == h || k == h.opposite)
    else
      ((h :: hs).zip (hs ++ [h])).all
        (fun p => !(p.1.isClosedIn s) && p.1.endVertexIn s == p.2.startVertexIn s
          && (p.1.endVertexIn s).isSome)

namespace Operations

open Complex

/-! ## The mutation kernel

Every state change performed by `detail::Operations` is one of the following
primitive transformers (or a pure payload/tree-link rewrite).  They are
translated from `operationsimpl.cpp`. -/

/-- `Operations::addToBoundary_(boundedCell, boundingCell)` (lines
2775-2782): append `bounding` to `bounded`'s boundary and `bounded` to
`bounding`'s star, iff not already present.  The C++ code is only called
with valid cell pointers; the model is a no-op when an id is absent. -/
def addToBoundary (s : Complex) (bounded bounding : Id) : Complex :=
  match s.find? bounded, s.find? bounding with
  | some bn, some _ =>
    if bn.boundary.contains bounding then s
    else
      (s.modifyNode bounded (fun n => { n with boundary := n.boundary ++ [bounding] }))
        |>.modifyNode bounding (fun n => { n with star := n.star ++ [bounded] })
  | _, _ => s

/-- `Operations::removeFromBoundary_(boundedCell, boundingCell)` (lines
2784-2791): the exact inverse, also idempotent. -/
def removeFromBoundary (s : Complex) (bounded bounding : Id) : Complex :=
  match s.find? bounded, s.find? bounding with
  | some bn, some _ =>
    if bn.boundary.contains bounding then
      (s.modifyNode bounded (fun n => { n with boundary := n.boundary.erase bounding }))
        |>.modifyNode bounding (fun n => { n with star := n.star.erase bounded })
    else s
  | _, _ => s

/-- The cells referenced by one cycle, in the traversal order of
`Operations::addToBoundary_(FaceCell*, const KeyCycle&)` (lines 2801-2817):
a Steiner cycle contributes its vertex; a simple cycle (closed first
halfedge) contributes just the edge; a general cycle contributes every
halfedge's edge and end vertex. -/
def KeyCycle.boundaryCells (s : Complex) (c : VGC.KeyCycle) : List Id :=
  match c.steinerVertex with
  | some v => [v]
  | none =>
    match c.halfedges with
    | [] => []
    | h :: _ =>
      if h.isClosedIn s then [h.edge]
      else c.halfedges.flatMap (fun k => k.edge :: (k.endVertexIn s).toList)

/-- `Operations::addToBoundary_(FaceCell*, const KeyCycle&)`. -/
def addCycleToBoundary (s : Complex) (face : Id) (c : VGC.KeyCycle) : Complex :=
  (KeyCycle.boundaryCells s c).foldl (fun t i => addToBoundary t face i) s

/-- Insert `c` just before `sib` in a child list (at the end when `sib` is
absent): the effect of `Group::insertChildUnchecked(nextSibling, node)`. -/
def insertBefore (l : List Id) (sib c : Id) : List Id :=
  match l with
  | [] => [c]
  | x :: xs => if x = sib then c :: x :: xs else x :: insertBefore xs sib c

/-- Attach node `c` as a child of `parent`, before `nextSibling` when given,
as last child otherwise. -/
def attachChild (s : Complex) (parent : Id) (nextSibling : Option Id) (c : Id) :
    Complex :=
  s.modifyNode parent (fun n =>
    { n with children :=
        match nextSibling with
        | some sib => insertBefore n.children sib c
        | none => n.children ++ [c] })

/-- Detach node `c` from its parent's child list (`Node::unparent()`). -/
def detachChild (s : Complex) (c : Id) : Complex :=
  match s.parentOf c with
  | some p => s.modifyNode p (fun n => { n with children := n.children.erase c })
  | none => s

/-- `Operations::createNodeAt_<T>`: allocate a fresh id, store a node with
the given payload, and insert it as a child of `parentGroup` before
`nextSibling` (or as last child).  Returns the new state and the new id. -/
def createNodeAt (s : Complex) (parent : Id) (nextSibling : Option Id)
    (data : NodeData) : Complex × Id :=
  let i := s.nextId
  let node : Node := { parent := some parent, data := data }
  let s1 : Complex := { s with nodes := s.nodes ++ [(i, node)], nextId := i + 1 }
  (attachChild s1 parent nextSibling i, i)

/-- `Operations::createNode_<Group>` for the root group: a fresh node with
no parent. -/
def createRootGroupNode (s : Complex) : Complex × Id :=
  let i := s.nextId
  let node : Node := { data := .group }
  ({ s with nodes := s.nodes ++ [(i, node)], nextId := i + 1 }, i)

end Operations

/-! ## The boundary/star invariant (claim C1's property) -/

namespace Complex

/-- Boundary/star symmetry for all live pairs outside the set `D` of nodes
being deleted: `A ∈ B.boundary()` iff `B ∈ A.star()`. -/
def SymmExcept (D : List Id) (s : Complex) : Prop :=
  ∀ p ∈ s.nodes, ∀ q ∈ s.nodes, p.1 ∉ D → q.1 ∉ D →
    (p.1 ∈ q.2.boundary ↔ q.1 ∈ p.2.star)

/-- The structural invariant maintained across operations, relative to a set
`D` of nodes flagged as being deleted (`isBeingDeleted_`): boundary/star
symmetry outside `D`, duplicate-freedom of the incidence arrays and of the
node-map keys, and freshness of the id allocator. -/
structure InvD (D : List Id) (s : Complex) : Prop where
  symm : SymmExcept D s
  bNodup : ∀ p ∈ s.nodes, p.1 ∉ D → p.2.boundary.Nodup
  sNodup : ∀ p ∈ s.nodes, p.1 ∉ D → p.2.star.Nodup
  keysNodup : (s.nodes.map Prod.fst).Nodup
  keysLt : ∀ p ∈ s.nodes, p.1 < s.nextId
  refsLt : ∀ p ∈ s.nodes, ∀ j, j ∈ p.2.boundary ++ p.2.star → j < s.nextId

/-- The observable invariant: no deletion in progress. -/
def Inv (s : Complex) : Prop := InvD [] s

theorem InvD.mono {D D' : List Id} {s : Complex} (h : InvD D s)
    (hsub : ∀ d ∈ D, d ∈ D') : InvD D' s where
  symm := fun p hp q hq hpD hqD =>
    h.symm p hp q hq (fun hc => hpD (hsub _ hc)) (fun hc => hqD (hsub _ hc))
  bNodup := fun p hp hpD => h.bNodup p hp (fun hc => hpD (hsub _ hc))
  sNodup := fun p hp hpD => h.sNodup p hp (fun hc => hpD (hsub _ hc))
  keysNodup := h.keysNodup
  keysLt := h.keysLt
  refsLt := h.refsLt

theorem Inv.toInvD {s : Complex} (h : Inv s) (D : List Id) : InvD D s :=
  h.mono (by simp)

end Complex

/-! ## Lookup lemmas for the kernel -/

namespace Complex

theorem list_find?_map_keyed (l : List (Id × Node)) (g : (Id × Node) → (Id × Node))
    (hg : ∀ p, (g p).1 = p.1) (j : Id) :
    (l.map g).find? (fun p => p.1 = j) = (l.find? (fun p => p.1 = j)).map g := by
  induction l with
  | nil => rfl
  | cons p l ih =>
    by_cases h : p.1 = j
    · simp [List.find?_cons, hg, h]
    · simp [List.find?_cons, hg, h, ih]

theorem find?_modifyNode (s : Complex) (i : Id) (f : Node → Node) (j : Id) :
    (s.modifyNode i f).find? j =
      if j = i then (s.find? i).map f else s.find? j := by
  unfold modifyNode find?
  rw [list_find?_map_keyed]
  · by_cases hji : j = i
    · subst hji
      cases h : s.nodes.find? (fun p => p.1 = j) with
      | none => simp
      | some p =>
        have hp : p.1 = j := by simpa using List.find?_some h
        simp [hp]
    · cases h : s.nodes.find? (fun p => p.1 = j) with
      | none => simp [hji]
      | some p =>
        have hp : p.1 = j := by simpa using List.find?_some h
        simp [hp, hji]
  · intro p
    split <;> rfl

theorem nodes_map_fst_modifyNode (s : Complex) (i : Id) (f : Node → Node) :
    (s.modifyNode i f).nodes.map Prod.fst = s.nodes.map Prod.fst := by
  unfold modifyNode
  simp only [List.map_map]
  congr 1
  funext p
  simp only [Function.comp_apply]
  split <;> rfl

theorem find?_eraseNodes (s : Complex) (ids : List Id) (j : Id) :
    (s.eraseNodes ids).find? j = if j ∈ ids then none else s.find? j := by
  unfold eraseNodes find?
  by_cases hj : j ∈ ids
  · simp only [hj, if_pos]
    rw [List.find?_eq_none.2]
    · rfl
    · intro p hp
      have hkeep := (List.mem_filter.1 hp).2
      simp only [Bool.not_eq_true', List.elem_iff] at hkeep
      intro hpj
      have hp1 : p.1 = j := by simpa using hpj
      rw [hp1] at hkeep
      simp [List.elem_iff, hj] at hkeep
  · simp only [hj, if_neg, not_false_iff]
    induction s.nodes with
    | nil => rfl
    | cons p l ih =>
      by_cases hpj : p.1 = j
      · have hnp : (!ids.contains p.1) = true := by
          rw [hpj]
          simp [List.elem_iff, hj]
        rw [List.filter_cons, if_pos hnp]
        simp [List.find?_cons, hpj]
      · by_cases hpk : p.1 ∈ ids
        · simpa [List.filter_cons, List.elem_iff, hpk, List.find?_cons, hpj] using ih
        · simpa [List.filter_cons, List.elem_iff, hpk, List.find?_cons, hpj] using ih

theorem list_find?_append_one (i : Id) (n : Node) (j : Id) :
    ∀ (l : List (Id × Node)), (∀ p ∈ l, p.1 ≠ i) →
      (l ++ [(i, n)]).find? (fun p => p.1 = j) =
        if j = i then some (i, n) else l.find? (fun p => p.1 = j) := by
  intro l
  induction l with
  | nil =>
    intro _
    by_cases hji : j = i
    · subst hji
      simp [List.find?_cons]
    · have hij : i ≠ j := Ne.symm hji
      simp [List.find?_cons, hji, hij]
  | cons p l ih =>
    intro hfresh
    have hrec := ih (fun q hq => hfresh q (List.mem_cons_of_mem _ hq))
    by_cases hpj : p.1 = j
    · have hji : ¬ j = i := by
        intro hj
        exact hfresh p (List.mem_cons_self _ _) (hpj.trans hj)
      simp [List.find?_cons, hpj, hji]
    · simpa [List.find?_cons, hpj] using hrec

theorem find?_append_one (s : Complex) (i : Id) (n : Node)
    (hfresh : ∀ p ∈ s.nodes, p.1 ≠ i) (j : Id) :
    ({ s with nodes := s.nodes ++ [(i, n)] } : Complex).find? j =
      if j = i then some n else s.find? j := by
  unfold find?
  simp only
  rw [list_find?_append_one i n j s.nodes hfresh]
  by_cases hji : j = i <;> simp [hji]

theorem find?_mem {s : Complex} {i : Id} {n : Node} (h : s.find? i = some n) :
    (i, n) ∈ s.nodes := by
  unfold find? at h
  cases hf : s.nodes.find? (fun p => p.1 = i) with
  | none => rw [hf] at h; exact absurd h (by simp)
  | some p =>
    rw [hf] at h
    have hp1 : p.1 = i := by simpa using List.find?_some hf
    have hp2 : p.2 = n := by simpa using h
    have hpm := List.mem_of_find?_eq_some hf
    have : p = (i, n) := Prod.ext hp1 hp2
    rwa [this] at hpm

theorem list_find?_keyed_of_mem {l : List (Id × Node)} {i : Id} {n : Node}
    (hnd : (l.map Prod.fst).Nodup) (hm : (i, n) ∈ l) :
    l.find? (fun p => p.1 = i) = some (i, n) := by
  induction l with
  | nil => cases hm
  | cons p l ih =>
    rcases List.mem_cons.1 hm with hm | hm
    · rw [← hm]
      simp [List.find?_cons]
    · have hne : ¬ p.1 = i := by
        intro hpi
        have hkeys : i ∈ l.map Prod.fst := List.mem_map.2 ⟨(i, n), hm, rfl⟩
        rw [List.map_cons] at hnd
        exact (List.nodup_cons.1 hnd).1 (hpi ▸ hkeys)
      have hrec := ih (by rw [List.map_cons] at hnd; exact (List.nodup_cons.1 hnd).2) hm
      simp [List.find?_cons, hne, hrec]

theorem find?_of_mem {s : Complex} {i : Id} {n : Node}
    (hnd : (s.nodes.map Prod.fst).Nodup) (hm : (i, n) ∈ s.nodes) :
    s.find? i = some n := by
  unfold find?
  rw [list_find?_keyed_of_mem hnd hm]
  rfl

theorem keyed_unique {s : Complex} (hnd : (s.nodes.map Prod.fst).Nodup)
    {i : Id} {n1 n2 : Node} (h1 : (i, n1) ∈ s.nodes) (h2 : (i, n2) ∈ s.nodes) :
    n1 = n2 := by
  have e1 := find?_of_mem hnd h1
  have e2 := find?_of_mem hnd h2
  rw [e1] at e2
  exact (Option.some.injEq _ _ ▸ e2).symm ▸ rfl

end Complex

/-! ## Invariant preservation by the mutation kernel -/

namespace Operations

open Complex

/-- Direct star-array surgery from `delete_` (line 2662):
`boundaryCell->star_.removeOne(cell)`. -/
def starEraseRaw (s : Complex) (b c : Id) : Complex :=
  s.modifyNode b (fun n => { n with star := n.star.erase c })

/-- Direct star-array surgery from `delete_` (line 2666): `cell->star_.clear()`. -/
def starClearRaw (s : Complex) (c : Id) : Complex :=
  s.modifyNode c (fun n => { n with star := [] })

theorem modifyNode_invD_of_preserve {D : List Id} {s : Complex} {i : Id}
    {f : Node → Node}
    (hf : ∀ n, (f n).boundary = n.boundary ∧ (f n).star = n.star)
    (h : s.InvD D) : (s.modifyNode i f).InvD D := by
  have hmem : ∀ p', p' ∈ (s.modifyNode i f).nodes →
      ∃ p ∈ s.nodes, p'.1 = p.1 ∧ p'.2.boundary = p.2.boundary ∧
        p'.2.star = p.2.star := by
    intro p' hp'
    obtain ⟨p, hp, rfl⟩ := List.mem_map.1 hp'
    refine ⟨p, hp, ?_, ?_, ?_⟩ <;> by_cases hpi : p.1 = i <;>
      simp [hpi, (hf p.2).1, (hf p.2).2]
  refine ⟨?_, ?_, ?_, ?_, ?_, ?_⟩
  · intro p' hp' q' hq' hpD hqD
    obtain ⟨p, hp, e1, e2, e3⟩ := hmem p' hp'
    obtain ⟨q, hq, f1, f2, f3⟩ := hmem q' hq'
    rw [e1, e3, f1, f2]
    exact h.symm p hp q hq (e1 ▸ hpD) (f1 ▸ hqD)
  · intro p' hp' hpD
    obtain ⟨p, hp, e1, e2, _⟩ := hmem p' hp'
    rw [e2]; exact h.bNodup p hp (e1 ▸ hpD)
  · intro p' hp' hpD
    obtain ⟨p, hp, e1, _, e3⟩ := hmem p' hp'
    rw [e3]; exact h.sNodup p hp (e1 ▸ hpD)
  · rw [nodes_map_fst_modifyNode]; exact h.keysNodup
  · intro p' hp'
    obtain ⟨p, hp, e1, _, _⟩ := hmem p' hp'
    rw [e1]
    exact h.keysLt p hp
  · intro p' hp' j hj
    obtain ⟨p, hp, e1, e2, e3⟩ := hmem p' hp'
    rw [e2, e3] at hj
    exact h.refsLt p hp j hj

theorem modifyData_invD {D : List Id} {s : Complex} {i : Id}
    {f : NodeData → NodeData} (h : s.InvD D) : (s.modifyData i f).InvD D :=
  modifyNode_invD_of_preserve (fun _ => ⟨rfl, rfl⟩) h

theorem attachChild_invD {D : List Id} {s : Complex} {parent : Id}
    {sib : Option Id} {c : Id} (h : s.InvD D) :
    (attachChild s parent sib c).InvD D :=
  modifyNode_invD_of_preserve (fun _ => ⟨rfl, rfl⟩) h

theorem detachChild_invD {D : List Id} {s : Complex} {c : Id} (h : s.InvD D) :
    (detachChild s c).InvD D := by
  unfold detachChild
  cases s.parentOf c with
  | none => exact h
  | some p => exact modifyNode_invD_of_preserve (fun _ => ⟨rfl, rfl⟩) h

theorem starEraseRaw_invD {D : List Id} {s : Complex} {b c : Id} (hc : c ∈ D)
    (h : s.InvD D) : (starEraseRaw s b c).InvD D := by
  have hmem : ∀ p', p' ∈ (starEraseRaw s b c).nodes →
      ∃ p ∈ s.nodes, p'.1 = p.1 ∧ p'.2.boundary = p.2.boundary ∧
        p'.2.star = (if p.1 = b then p.2.star.erase c else p.2.star) := by
    intro p' hp'
    obtain ⟨p, hp, rfl⟩ := List.mem_map.1 hp'
    refine ⟨p, hp, ?_, ?_, ?_⟩ <;> by_cases hpb : p.1 = b <;> simp [hpb]
  refine ⟨?_, ?_, ?_, ?_, ?_, ?_⟩
  · intro p' hp' q' hq' hpD hqD
    obtain ⟨p, hp, e1, e2, e3⟩ := hmem p' hp'
    obtain ⟨q, hq, f1, f2, f3⟩ := hmem q' hq'
    rw [e1, e3, f1, f2]
    have hbase := h.symm p hp q hq (e1 ▸ hpD) (f1 ▸ hqD)
    by_cases hpb : p.1 = b
    · have hqc : q.1 ≠ c := fun hqc => (f1 ▸ hqD) (hqc ▸ hc)
      rw [if_pos hpb, List.mem_erase_of_ne hqc]
      exact hbase
    · simpa [hpb] using hbase
  · intro p' hp' hpD
    obtain ⟨p, hp, e1, e2, _⟩ := hmem p' hp'
    rw [e2]; exact h.bNodup p hp (e1 ▸ hpD)
  · intro p' hp' hpD
    obtain ⟨p, hp, e1, _, e3⟩ := hmem p' hp'
    rw [e3]
    have := h.sNodup p hp (e1 ▸ hpD)
    split <;> [exact this.erase c; exact this]
  · rw [starEraseRaw, nodes_map_fst_modifyNode]; exact h.keysNodup
  · intro p' hp'
    obtain ⟨p, hp, e1, _, _⟩ := hmem p' hp'
    rw [e1]; exact h.keysLt p hp
  · intro p' hp' j hj
    obtain ⟨p, hp, e1, e2, e3⟩ := hmem p' hp'
    rw [e2, e3] at hj
    refine h.refsLt p hp j ?_
    rcases List.mem_append.1 hj with hj | hj
    · exact List.mem_append.2 (Or.inl hj)
    · refine List.mem_append.2 (Or.inr ?_)
      split at hj
      · exact List.mem_of_mem_erase hj
      · exact hj

theorem starClearRaw_invD {D : List Id} {s : Complex} {c : Id} (hc : c ∈ D)
    (h : s.InvD D) : (starClearRaw s c).InvD D := by
  have hmem : ∀ p', p' ∈ (starClearRaw s c).nodes →
      ∃ p ∈ s.nodes, p'.1 = p.1 ∧ p'.2.boundary = p.2.boundary ∧
        p'.2.star = (if p.1 = c then [] else p.2.star) := by
    intro p' hp'
    obtain ⟨p, hp, rfl⟩ := List.mem_map.1 hp'
    refine ⟨p, hp, ?_, ?_, ?_⟩ <;> by_cases hpc : p.1 = c <;> simp [hpc]
  refine ⟨?_, ?_, ?_, ?_, ?_, ?_⟩
  · intro p' hp' q' hq' hpD hqD
    obtain ⟨p, hp, e1, e2, e3⟩ := hmem p' hp'
    obtain ⟨q, hq, f1, f2, f3⟩ := hmem q' hq'
    rw [e1, e3, f1, f2]
    have hpc : p.1 ≠ c := fun hpc => (e1 ▸ hpD) (hpc ▸ hc)
    rw [if_neg hpc]
    exact h.symm p hp q hq (e1 ▸ hpD) (f1 ▸ hqD)
  · intro p' hp' hpD
    obtain ⟨p, hp, e1, e2, _⟩ := hmem p' hp'
    rw [e2]; exact h.bNodup p hp (e1 ▸ hpD)
  · intro p' hp' hpD
    obtain ⟨p, hp, e1, _, e3⟩ := hmem p' hp'
    rw [e3]
    split
    · exact List.nodup_nil
    · exact h.sNodup p hp (e1 ▸ hpD)
  · rw [starClearRaw, nodes_map_fst_modifyNode]; exact h.keysNodup
  · intro p' hp'
    obtain ⟨p, hp, e1, _, _⟩ := hmem p' hp'
    rw [e1]; exact h.keysLt p hp
  · intro p' hp' j hj
    obtain ⟨p, hp, e1, e2, e3⟩ := hmem p' hp'
    rw [e2, e3] at hj
    refine h.refsLt p hp j ?_
    rcases List.mem_append.1 hj with hj | hj
    · exact List.mem_append.2 (Or.inl hj)
    · refine List.mem_append.2 (Or.inr ?_)
      split at hj
      · cases hj
      · exact hj

theorem nodup_append_singleton {α : Type _} {l : List α} {x : α}
    (hl : l.Nodup) (hx : x ∉ l) : (l ++ [x]).Nodup := by
  rw [List.nodup_append]
  refine ⟨hl, List.nodup_singleton x, ?_⟩
  intro a ha hb
  rw [List.mem_singleton] at hb
  exact hx (hb ▸ ha)

theorem addToBoundary_invD {D : List Id} {s : Complex} (a b : Id) (haD : a ∉ D)
    (h : s.InvD D) : (addToBoundary s a b).InvD D := by
  unfold addToBoundary
  cases hfa : s.find? a with
  | none => simpa [hfa] using h
  | some na =>
    cases hfb : s.find? b with
    | none => simpa [hfa, hfb] using h
    | some nb =>
      by_cases hcon : na.boundary.contains b
      · have hmm : b ∈ na.boundary := List.elem_iff.1 hcon
        simpa [hfa, hfb, hmm] using h
      · have hbmem : b ∉ na.boundary := by simpa [List.elem_iff] using hcon
        have haMem : (a, na) ∈ s.nodes := find?_mem hfa
        have hbMem : (b, nb) ∈ s.nodes := find?_mem hfb
        simp only [hfa, hfb, hbmem, if_neg, not_false_iff, List.elem_iff]
        have hmem : ∀ p', p' ∈
            ((s.modifyNode a (fun n => { n with boundary := n.boundary ++ [b] })).modifyNode
                b (fun n => { n with star := n.star ++ [a] })).nodes →
            ∃ p ∈ s.nodes, p'.1 = p.1 ∧
              p'.2.boundary = (if p.1 = a then p.2.boundary ++ [b] else p.2.boundary) ∧
              p'.2.star = (if p.1 = b then p.2.star ++ [a] else p.2.star) := by
          intro p' hp'
          obtain ⟨q, hq, rfl⟩ := List.mem_map.1 hp'
          obtain ⟨p, hp, rfl⟩ := List.mem_map.1 hq
          by_cases hpa : p.1 = a <;> by_cases hpb : p.1 = b
          · have hab : a = b := hpa.symm.trans hpb
            subst hab
            exact ⟨p, hp, by simp [hpa], by simp [hpa], by simp [hpa]⟩
          · have hab : ¬ a = b := by rw [← hpa]; exact hpb
            exact ⟨p, hp, by simp [hpa, hpb, hab], by simp [hpa, hpb, hab],
              by simp [hpa, hpb, hab]⟩
          · have hba : ¬ b = a := by rw [← hpb]; exact fun hc => hpa hc
            exact ⟨p, hp, by simp [hpa, hpb, hba], by simp [hpa, hpb, hba],
              by simp [hpa, hpb, hba]⟩
          · exact ⟨p, hp, by simp [hpa, hpb], by simp [hpa, hpb], by simp [hpa, hpb]⟩
        refine ⟨?_, ?_, ?_, ?_, ?_, ?_⟩
        · intro p' hp' q' hq' hpD hqD
          obtain ⟨p, hp, e1, e2, e3⟩ := hmem p' hp'
          obtain ⟨q, hq, f1, f2, f3⟩ := hmem q' hq'
          rw [e1, e3, f1, f2]
          have hbase := h.symm p hp q hq (e1 ▸ hpD) (f1 ▸ hqD)
          by_cases hqa : q.1 = a <;> by_cases hpb : p.1 = b
          · rw [if_pos hqa, if_pos hpb]
            constructor
            · intro _; exact List.mem_append.2 (Or.inr (by simp [hqa]))
            · intro _; exact List.mem_append.2 (Or.inr (by simp [hpb]))
          · rw [if_pos hqa, if_neg hpb]
            constructor
            · intro hx
              rcases List.mem_append.1 hx with hx | hx
              · exact hbase.1 hx
              · exact absurd (by simpa using hx) hpb
            · intro hx; exact List.mem_append.2 (Or.inl (hbase.2 hx))
          · rw [if_neg hqa, if_pos hpb]
            constructor
            · intro hx; exact List.mem_append.2 (Or.inl (hbase.1 hx))
            · intro hx
              rcases List.mem_append.1 hx with hx | hx
              · exact hbase.2 hx
              · exact absurd (by simpa using hx) hqa
          · rw [if_neg hqa, if_neg hpb]
            exact hbase
        · intro p' hp' hpD
          obtain ⟨p, hp, e1, e2, _⟩ := hmem p' hp'
          rw [e2]
          by_cases hpa : p.1 = a
          · rw [if_pos hpa]
            have hpna : p.2 = na := by
              have hma : ((a : Id), p.2) ∈ s.nodes := by
                have he : p = (a, p.2) := Prod.ext hpa rfl
                rwa [← he]
              exact keyed_unique h.keysNodup hma haMem
            rw [hpna]
            exact nodup_append_singleton
              (by rw [← hpna]; exact h.bNodup p hp (e1 ▸ hpD)) hbmem
          · rw [if_neg hpa]
            exact h.bNodup p hp (e1 ▸ hpD)
        · intro p' hp' hpD
          obtain ⟨p, hp, e1, _, e3⟩ := hmem p' hp'
          rw [e3]
          by_cases hpb : p.1 = b
          · rw [if_pos hpb]
            have hpnb : p.2 = nb := by
              have hmb : ((b : Id), p.2) ∈ s.nodes := by
                have he : p = (b, p.2) := Prod.ext hpb rfl
                rwa [← he]
              exact keyed_unique h.keysNodup hmb hbMem
            have hanotin : a ∉ nb.star := by
              intro hmem2
              exact hbmem
                ((h.symm (b, nb) hbMem (a, na) haMem (hpb ▸ e1 ▸ hpD) haD).2 hmem2)
            rw [hpnb]
            exact nodup_append_singleton
              (by rw [← hpnb]; exact h.sNodup p hp (e1 ▸ hpD)) hanotin
          · rw [if_neg hpb]
            exact h.sNodup p hp (e1 ▸ hpD)
        · rw [nodes_map_fst_modifyNode, nodes_map_fst_modifyNode]
          exact h.keysNodup
        · intro p' hp'
          obtain ⟨p, hp, e1, _, _⟩ := hmem p' hp'
          rw [e1]
          exact h.keysLt p hp
        · intro p' hp' j hj
          obtain ⟨p, hp, e1, e2, e3⟩ := hmem p' hp'
          rw [e2, e3] at hj
          rcases List.mem_append.1 hj with hj | hj
          · split at hj
            · rcases List.mem_append.1 hj with hj | hj
              · exact h.refsLt p hp j (List.mem_append.2 (Or.inl hj))
              · rw [List.mem_singleton] at hj
                exact hj ▸ h.keysLt (b, nb) hbMem
            · exact h.refsLt p hp j (List.mem_append.2 (Or.inl hj))
          · split at hj
            · rcases List.mem_append.1 hj with hj | hj
              · exact h.refsLt p hp j (List.mem_append.2 (Or.inr hj))
              · rw [List.mem_singleton] at hj
                exact hj ▸ h.keysLt (a, na) haMem
            · exact h.refsLt p hp j (List.mem_append.2 (Or.inr hj))

theorem removeFromBoundary_invD {D : List Id} {s : Complex} (a b : Id) (haD : a ∉ D)
    (h : s.InvD D) : (removeFromBoundary s a b).InvD D := by
  unfold removeFromBoundary
  cases hfa : s.find? a with
  | none => simpa [hfa] using h
  | some na =>
    cases hfb : s.find? b with
    | none => simpa [hfa, hfb] using h
    | some nb =>
      by_cases hcon : na.boundary.contains b
      · have hmm : b ∈ na.boundary := List.elem_iff.1 hcon
        simp only [hfa, hfb, hmm, if_pos, List.elem_iff]
        have hmem : ∀ p', p' ∈
            ((s.modifyNode a (fun n => { n with boundary := n.boundary.erase b })).modifyNode
                b (fun n => { n with star := n.star.erase a })).nodes →
            ∃ p ∈ s.nodes, p'.1 = p.1 ∧
              p'.2.boundary = (if p.1 = a then p.2.boundary.erase b else p.2.boundary) ∧
              p'.2.star = (if p.1 = b then p.2.star.erase a else p.2.star) := by
          intro p' hp'
          obtain ⟨q, hq, rfl⟩ := List.mem_map.1 hp'
          obtain ⟨p, hp, rfl⟩ := List.mem_map.1 hq
          by_cases hpa : p.1 = a <;> by_cases hpb : p.1 = b
          · have hab : a = b := hpa.symm.trans hpb
            subst hab
            exact ⟨p, hp, by simp [hpa], by simp [hpa], by simp [hpa]⟩
          · have hab : ¬ a = b := by rw [← hpa]; exact hpb
            exact ⟨p, hp, by simp [hpa, hpb, hab], by simp [hpa, hpb, hab],
              by simp [hpa, hpb, hab]⟩
          · have hba : ¬ b = a := by rw [← hpb]; exact fun hc => hpa hc
            exact ⟨p, hp, by simp [hpa, hpb, hba], by simp [hpa, hpb, hba],
              by simp [hpa, hpb, hba]⟩
          · exact ⟨p, hp, by simp [hpa, hpb], by simp [hpa, hpb], by simp [hpa, hpb]⟩
        refine ⟨?_, ?_, ?_, ?_, ?_, ?_⟩
        · intro p' hp' q' hq' hpD hqD
          obtain ⟨p, hp, e1, e2, e3⟩ := hmem p' hp'
          obtain ⟨q, hq, f1, f2, f3⟩ := hmem q' hq'
          rw [e1, e3, f1, f2]
          have hbase := h.symm p hp q hq (e1 ▸ hpD) (f1 ▸ hqD)
          by_cases hqa : q.1 = a <;> by_cases hpb : p.1 = b
          · rw [if_pos hqa, if_pos hpb]
            have hqnd : q.2.boundary.Nodup := h.bNodup q hq (f1 ▸ hqD)
            have hpnd : p.2.star.Nodup := h.sNodup p hp (e1 ▸ hpD)
            constructor
            · intro hx
              rcases (hqnd.mem_erase_iff).1 hx with ⟨hne, _⟩
              exact absurd hpb (by simpa using hne)
            · intro hx
              rcases (hpnd.mem_erase_iff).1 hx with ⟨hne, _⟩
              exact absurd hqa (by simpa using hne)
          · rw [if_pos hqa, if_neg hpb]
            rw [List.mem_erase_of_ne hpb]
            exact hbase
          · rw [if_neg hqa, if_pos hpb]
            rw [List.mem_erase_of_ne hqa]
            exact hbase
          · rw [if_neg hqa, if_neg hpb]
            exact hbase
        · intro p' hp' hpD
          obtain ⟨p, hp, e1, e2, _⟩ := hmem p' hp'
          rw [e2]
          have hnd := h.bNodup p hp (e1 ▸ hpD)
          split
          · exact hnd.erase b
          · exact hnd
        · intro p' hp' hpD
          obtain ⟨p, hp, e1, _, e3⟩ := hmem p' hp'
          rw [e3]
          have hnd := h.sNodup p hp (e1 ▸ hpD)
          split
          · exact hnd.erase a
          · exact hnd
        · rw [nodes_map_fst_modifyNode, nodes_map_fst_modifyNode]
          exact h.keysNodup
        · intro p' hp'
          obtain ⟨p, hp, e1, _, _⟩ := hmem p' hp'
          rw [e1]
          exact h.keysLt p hp
        · intro p' hp' j hj
          obtain ⟨p, hp, e1, e2, e3⟩ := hmem p' hp'
          rw [e2, e3] at hj
          refine h.refsLt p hp j ?_
          rcases List.mem_append.1 hj with hj | hj
          · refine List.mem_append.2 (Or.inl ?_)
            split at hj
            · exact List.mem_of_mem_erase hj
            · exact hj
          · refine List.mem_append.2 (Or.inr ?_)
            split at hj
            · exact List.mem_of_mem_erase hj
            · exact hj
      · simp only [hfa, hfb]
        have hbmem : ¬ b ∈ na.boundary := by simpa [List.elem_iff] using hcon
        simpa [List.elem_iff, hbmem] using h

theorem appendFresh_invD {D : List Id} {s : Complex} (node : Node)
    (hb : node.boundary = []) (hs : node.star = []) (h : s.InvD D) :
    ({ s with nodes := s.nodes ++ [(s.nextId, node)], nextId := s.nextId + 1 } :
      Complex).InvD D := by
  have hfst : ∀ p ∈ s.nodes, p.1 ≠ s.nextId :=
    fun p hp => Nat.ne_of_lt (h.keysLt p hp)
  refine ⟨?_, ?_, ?_, ?_, ?_, ?_⟩
  · intro p' hp' q' hq' hpD hqD
    rcases List.mem_append.1 hp' with hp | hp <;>
      rcases List.mem_append.1 hq' with hq | hq
    · exact h.symm p' hp q' hq hpD hqD
    · rw [List.mem_singleton] at hq
      subst hq
      simp only [hb]
      constructor
      · intro hx
        exact absurd (Nat.lt_irrefl s.nextId)
          (fun _ => nomatch hx)
      · intro hx
        exact absurd (h.refsLt p' hp s.nextId (List.mem_append.2 (Or.inr hx)))
          (Nat.lt_irrefl s.nextId)
    · rw [List.mem_singleton] at hp
      subst hp
      simp only [hs]
      constructor
      · intro hx
        exact absurd (h.refsLt q' hq s.nextId (List.mem_append.2 (Or.inl hx)))
          (Nat.lt_irrefl s.nextId)
      · intro hx
        exact nomatch hx
    · rw [List.mem_singleton] at hp hq
      subst hp
      subst hq
      simp [hb, hs]
  · intro p' hp' hpD
    rcases List.mem_append.1 hp' with hp | hp
    · exact h.bNodup p' hp hpD
    · rw [List.mem_singleton] at hp
      subst hp
      simp [hb]
  · intro p' hp' hpD
    rcases List.mem_append.1 hp' with hp | hp
    · exact h.sNodup p' hp hpD
    · rw [List.mem_singleton] at hp
      subst hp
      simp [hs]
  · simp only [List.map_append, List.map_cons, List.map_nil]
    exact nodup_append_singleton h.keysNodup
      (fun hc => by
        obtain ⟨p, hp, he⟩ := List.mem_map.1 hc
        exact hfst p hp he)
  · intro p' hp'
    rcases List.mem_append.1 hp' with hp | hp
    · exact Nat.lt_succ_of_lt (h.keysLt p' hp)
    · rw [List.mem_singleton] at hp
      subst hp
      exact Nat.lt_succ_self _
  · intro p' hp' j hj
    rcases List.mem_append.1 hp' with hp | hp
    · exact Nat.lt_succ_of_lt (h.refsLt p' hp j hj)
    · rw [List.mem_singleton] at hp
      subst hp
      simp only [hb, hs] at hj
      exact nomatch hj

theorem createNodeAt_invD {D : List Id} {s : Complex} {parent : Id}
    {sib : Option Id} {data : NodeData} (h : s.InvD D) :
    (createNodeAt s parent sib data).1.InvD D := by
  unfold createNodeAt
  exact attachChild_invD (appendFresh_invD _ rfl rfl h)

theorem createRootGroupNode_invD {D : List Id} {s : Complex} (h : s.InvD D) :
    (createRootGroupNode s).1.InvD D := by
  unfold createRootGroupNode
  exact appendFresh_invD _ rfl rfl h

theorem eraseNodes_inv {D : List Id} {s : Complex} {ids : List Id}
    (hsub : ∀ d ∈ D, d ∈ ids) (h : s.InvD D) : (s.eraseNodes ids).Inv := by
  have hmem : ∀ p, p ∈ (s.eraseNodes ids).nodes → p ∈ s.nodes ∧ p.1 ∉ D := by
    intro p hp
    have h2 := List.mem_filter.1 hp
    refine ⟨h2.1, fun hd => ?_⟩
    have h3 := h2.2
    rw [Bool.not_eq_true'] at h3
    have h4 : p.1 ∉ ids := by simpa [List.elem_iff] using h3
    exact h4 (hsub _ hd)
  refine ⟨?_, ?_, ?_, ?_, ?_, ?_⟩
  · intro p hp q hq _ _
    obtain ⟨hp1, hp2⟩ := hmem p hp
    obtain ⟨hq1, hq2⟩ := hmem q hq
    exact h.symm p hp1 q hq1 hp2 hq2
  · intro p hp _
    obtain ⟨hp1, hp2⟩ := hmem p hp
    exact h.bNodup p hp1 hp2
  · intro p hp _
    obtain ⟨hp1, hp2⟩ := hmem p hp
    exact h.sNodup p hp1 hp2
  · exact List.Nodup.sublist (List.Sublist.map _ (List.filter_sublist _)) h.keysNodup
  · intro p hp
    exact h.keysLt p (hmem p hp).1
  · intro p hp j hj
    exact h.refsLt p (hmem p hp).1 j hj

theorem eraseNodes_inv_of_inv {s : Complex} {ids : List Id} (h : s.Inv) :
    (s.eraseNodes ids).Inv :=
  eraseNodes_inv (by simp) h

theorem invD_foldl {α : Type _} {D : List Id} {f : Complex → α → Complex}
    {l : List α} (hf : ∀ t x, x ∈ l → t.InvD D → (f t x).InvD D) :
    ∀ {s : Complex}, s.InvD D → (l.foldl f s).InvD D := by
  induction l with
  | nil => intro s hs; exact hs
  | cons x l ih =>
    intro s hs
    exact ih (fun t y hy => hf t y (List.mem_cons_of_mem _ hy))
      (hf s x (List.mem_cons_self _ _) hs)

theorem addCycleToBoundary_invD {D : List Id} {s : Complex} {face : Id}
    {c : KeyCycle} (hface : face ∉ D) (h : s.InvD D) :
    (addCycleToBoundary s face c).InvD D :=
  invD_foldl (fun t x _ ht => addToBoundary_invD face x hface ht) h

end Operations

/-! ## The `Operations` scope machine (claim C2)

Projection of the complex state touched by the `Operations` constructor
(lines 37-49) and destructor (lines 51-112) of `operationsimpl.cpp`:
the scope reference count `numOperationsInProgress_`, the `version_`
counter, and the number of `nodesChanged()` emissions performed. -/

namespace ScopeModel

structure S where
  numOperationsInProgress : Nat
  version : Nat
  emitted : Nat
deriving DecidableEq, Repr

/-- `Operations::Operations(Complex*)`: `if (++numOperationsInProgress == 1)
version += 1;`. -/
def enter (s : S) : S :=
  { s with
    numOperationsInProgress := s.numOperationsInProgress + 1,
    version :=
      if s.numOperationsInProgress + 1 = 1 then s.version + 1 else s.version }

/-- `Operations::~Operations()`: `if (--numOperationsInProgress == 0)` then
run the geometry/finalize passes (which touch none of these fields) and emit
the accumulated `ComplexDiff` once via `nodesChanged().emit(...)`. -/
def leave (s : S) : S :=
  { s with
    numOperationsInProgress := s.numOperationsInProgress - 1,
    emitted :=
      if s.numOperationsInProgress - 1 = 0 then s.emitted + 1 else s.emitted }

mutual

/-- The body of an `Operations` scope: a mix of plain mutating calls (which
only append to `opDiff_`, touching none of the three fields modelled here)
and nested `Operations` scopes. -/
inductive ScopeItem where
  | call
  | scope (body : ScopeBody)

inductive ScopeBody where
  | nil
  | cons (t : ScopeItem) (rest : ScopeBody)

end

mutual

/-- Execute one body item: a plain call leaves the modelled fields
unchanged; a nested scope runs its constructor, body, and destructor. -/
def ScopeItem.run : ScopeItem → S → S
  | .call, s => s
  | .scope body, s => leave (body.run (enter s))

/-- Execute a scope body in order. -/
def ScopeBody.run : ScopeBody → S → S
  | .nil, s => s
  | .cons t rest, s => rest.run (t.run s)

end

mutual

theorem ScopeItem.run_inner (t : ScopeItem) (s : S)
    (h : 1 ≤ s.numOperationsInProgress) : t.run s = s :=
  match t with
  | .call => rfl
  | .scope body => by
    unfold ScopeItem.run
    have h1 : (enter s).numOperationsInProgress = s.numOperationsInProgress + 1 :=
      rfl
    have hb := ScopeBody.run_inner_body body (enter s)
      (by rw [h1]; exact Nat.le_succ_of_le h)
    have h2 : body.run (enter s) = enter s := hb
    rw [h2]
    unfold leave enter
    have hne1 : ¬ s.numOperationsInProgress + 1 = 1 := by omega
    have hne0 : ¬ s.numOperationsInProgress + 1 - 1 = 0 := by omega
    simp only [hne1, hne0, if_neg, not_false_iff]
    cases s with
    | mk n v e => simp

theorem ScopeBody.run_inner_body (b : ScopeBody) (s : S)
    (h : 1 ≤ s.numOperationsInProgress) : b.run s = s :=
  match b with
  | .nil => rfl
  | .cons t rest => by
    unfold ScopeBody.run
    rw [ScopeItem.run_inner t s h, ScopeBody.run_inner_body rest s h]

end

end ScopeModel

/-! ## The destructor's geometry pass (claim C8)

Model of lines 56-78 of `operationsimpl.cpp`: on destruction of the
outermost scope, collect every modified node flagged
`BoundaryGeometryChanged` that is a cell, sort by `cellType()` with
`core::sort` and the comparator `c1->cellType() < c2->cellType()`, and call
`updateGeometryFromBoundary()` on each in that order.  `core::sort` is an
unstable comparison sort; it is modelled by insertion sort (any sorted
permutation is a faithful refinement of `std::sort`). -/

namespace GeometryPass

/-- One entry of `ComplexDiff::modifiedNodes_`, with the data the geometry
pass inspects: the node id, its cell type (`none` for a `Group`), and
whether its flags contain `NodeModificationFlag::BoundaryGeometryChanged`. -/
structure ModifiedNodeInfo where
  id : Id
  cellType : Option CellType
  boundaryGeometryChanged : Bool
deriving DecidableEq, Repr

/-- The comparator of the `core::sort` call, lifted to the collected
entries: `c1->cellType() < c2->cellType()` as a non-strict order for the
model sort. -/
def ctLe (a b : Id × CellType) : Prop := a.2.val ≤ b.2.val

instance : DecidableRel ctLe := fun a b => Nat.decLe _ _

/-- The filtered entries (in diff order): cells flagged
`BoundaryGeometryChanged`. -/
def flaggedCells (infos : List ModifiedNodeInfo) : List (Id × CellType) :=
  infos.filterMap (fun i =>
    if i.boundaryGeometryChanged then
      match i.cellType with
      | some ct => some (i.id, ct)
      | none => none
    else none)

/-- The order in which `updateGeometryFromBoundary()` is invoked by the
destructor: the flagged cells sorted by the `cellType()` comparator. -/
def updateOrder (infos : List ModifiedNodeInfo) : List (Id × CellType) :=
  (flaggedCells infos).insertionSort ctLe

end GeometryPass

/-! ## Node creation, substitution and tree moves -/

namespace Operations

open Complex

/-- The element after `i` in a list (used for `Node::nextSibling()`). -/
def listNextAfter (l : List Id) (i : Id) : Option Id :=
  match l with
  | [] => none
  | [_] => none
  | x :: y :: rest => if x = i then some y else listNextAfter (y :: rest) i

/-- `Node::nextSibling()`: the next entry of the parent's child list. -/
def nextSiblingOf (s : Complex) (i : Id) : Option Id :=
  match s.parentOf i with
  | none => none
  | some p => listNextAfter (s.childrenOf p) i

/-- `Operations::findTopMost` (lines 2381-2397): walk the first node's
parent's children from the last child (top-most) down, returning the first
one contained in `nodes`. -/
def findTopMost (s : Complex) (nodes : List Id) : Option Id :=
  match nodes with
  | [] => none
  | n0 :: _ =>
    match s.parentOf n0 with
    | none => none
    | some p => (s.childrenOf p).reverse.find? (fun c => nodes.contains c)

/-- `Operations::findBottomMost` (lines 2399-2415). -/
def findBottomMost (s : Complex) (nodes : List Id) : Option Id :=
  match nodes with
  | [] => none
  | n0 :: _ =>
    match s.parentOf n0 with
    | none => none
    | some p => (s.childrenOf p).find? (fun c => nodes.contains c)

/-- `Operations::createKeyVertex` (lines 124-139). -/
def createKeyVertex (s : Complex) (position : Vec2) (parentGroup : Id)
    (nextSibling : Option Id) : Complex × Id :=
  createNodeAt s parentGroup nextSibling (.keyVertex position)

/-- `Operations::createKeyOpenEdge` (lines 141-160): allocate the edge, set
its end vertices, add both to its boundary (idempotently, so a loop adds its
vertex once), and move in the stroke data. -/
def createKeyOpenEdge (s : Complex) (startVertex endVertex : Id)
    (data : KeyEdgeData) (parentGroup : Id) (nextSibling : Option Id) :
    Complex × Id :=
  let r := createNodeAt s parentGroup nextSibling
    (.keyEdge (some startVertex) (some endVertex) data)
  let s1 := addToBoundary r.1 r.2 startVertex
  let s2 := addToBoundary s1 r.2 endVertex
  (s2, r.2)

/-- `Operations::createKeyClosedEdge` (lines 162-177). -/
def createKeyClosedEdge (s : Complex) (data : KeyEdgeData) (parentGroup : Id)
    (nextSibling : Option Id) : Complex × Id :=
  createNodeAt s parentGroup nextSibling (.keyEdge none none data)

/-- `Operations::createKeyFace` (lines 181-199): allocate the face with the
given cycles and add every cell referenced by each cycle to its boundary. -/
def createKeyFace (s : Complex) (cycles : List KeyCycle) (faceData : KeyFaceData)
    (parentGroup : Id) (nextSibling : Option Id) : Complex × Id :=
  let r := createNodeAt s parentGroup nextSibling (.keyFace cycles faceData)
  (cycles.foldl (fun t c => addCycleToBoundary t r.2 c) r.1, r.2)

/-- `Operations::addCycleToFace` (lines 204-210). -/
def addCycleToFace (s : Complex) (kf : Id) (c : KeyCycle) : Complex :=
  let s1 := s.modifyData kf (fun d =>
    match d with
    | .keyFace cycles fd => .keyFace (cycles ++ [c]) fd
    | d => d)
  addCycleToBoundary s1 kf c

/-- `Operations::setKeyVertexPosition` (lines 2314-2323); the
`onGeometryChanged_` diff bookkeeping is not part of this state model. -/
def setKeyVertexPosition (s : Complex) (kv : Id) (pos : Vec2) : Complex :=
  s.modifyData kv (fun d =>
    match d with
    | .keyVertex _ => .keyVertex pos
    | d => d)

/-- Modelled from the spec: `KeyEdge::substituteKeyVertex_` (the
`keyedge.cpp` override is not in the given sources; the spec says
`substituteVertex_` "rewrites every star cell's references"): replace each
end vertex equal to `old` by `new`. -/
def substituteKeyVertexInData (old new_ : Id) : NodeData → NodeData
  | .keyEdge sv ev d =>
    .keyEdge (if sv = some old then some new_ else sv)
      (if ev = some old then some new_ else ev) d
  | .keyFace cycles fd =>
    .keyFace (cycles.map (fun c =>
      match c with
      | .steiner v => if v = old then .steiner new_ else .steiner v
      | .walk hs => .walk hs)) fd
  | d => d

/-- Modelled from the spec: `KeyFace::substituteKeyEdge_` (the
`keyface.cpp` override is not in the given sources): replace each occurrence
of the old halfedge by the new one and each occurrence of its opposite by
the new one's opposite. -/
def substituteKeyEdgeInData (oldKhe newKhe : KeyHalfedge) : NodeData → NodeData
  | .keyFace cycles fd =>
    .keyFace (cycles.map (fun c =>
      match c with
      | .steiner v => .steiner v
      | .walk hs => .walk (hs.map (fun h =>
          if h.edge = oldKhe.edge then
            ⟨newKhe.edge,
              if h.direction = oldKhe.direction then newKhe.direction
              else !newKhe.direction⟩
          else h)))) fd
  | d => d

/-- `Operations::substituteVertex_` (lines 2819-2828): for each cell of the
old vertex's star (copied), rewrite its references and swap the boundary
link from the old to the new vertex. -/
def substituteVertex (s : Complex) (old new_ : Id) : Complex :=
  if new_ = old then s
  else
    (s.starOf old).foldl (fun t c =>
      let t1 := t.modifyData c (substituteKeyVertexInData old new_)
      let t2 := removeFromBoundary t1 c old
      addToBoundary t2 c new_) s

/-- `Operations::substituteEdge_` (lines 2831-2842); assumes the end
vertices of both halfedges agree. -/
def substituteEdge (s : Complex) (oldKhe newKhe : KeyHalfedge) : Complex :=
  if oldKhe = newKhe then s
  else
    (s.starOf oldKhe.edge).foldl (fun t c =>
      let t1 := t.modifyData c (substituteKeyEdgeInData oldKhe newKhe)
      let t2 := removeFromBoundary t1 c oldKhe.edge
      addToBoundary t2 c newKhe.edge) s

/-- `Operations::moveToGroup` (lines 2258-2265), via
`insertNodeBeforeSibling_` / `insertNodeAsLastChild_`: detach the node from
its old parent and insert it at the requested position. -/
def moveToGroup (s : Complex) (node : Id) (parentGroup : Id)
    (nextSibling : Option Id) : Complex :=
  let s1 := detachChild s node
  let s2 := attachChild s1 parentGroup nextSibling node
  s2.modifyNode node (fun n => { n with parent := some parentGroup })

/-- `Operations::moveBelowBoundary` (lines 2267-2310): move a cell just
below its bottom-most boundary cell within its parent group (no-op for
groups or cells with empty boundary). -/
def moveBelowBoundary (s : Complex) (node : Id) : Complex :=
  if !s.isCell node then s
  else
    let boundary := s.boundaryOf node
    if boundary.isEmpty then s
    else
      match s.parentOf node with
      | none => s
      | some parent =>
        let nextSibling := (s.childrenOf parent).find? (fun c => boundary.contains c)
        moveToGroup s node parent nextSibling

end Operations

/-! ## Deletion (`deleteWithDependents_` / `delete_`, lines 2417-2751) -/

namespace Operations

open Complex

/-- Insert into a list modelling a `std::unordered_set` (membership test,
append if absent). -/
def insertNew (l : List Id) (x : Id) : List Id :=
  if x ∈ l then l else l ++ [x]

/-- Modelled from the spec: `Node::descendants()` (its declaration is not in
the given sources; `deleteWithDependents_` inserts a node's descendants and
then the node itself, so `descendants()` is the proper descendants): all
nodes reachable through child lists.  The recursion is fuelled by the node
count, which bounds the depth of any parent/child tree. -/
def descendantsAux (s : Complex) : Nat → Id → List Id
  | 0, _ => []
  | fuel + 1, i => (s.childrenOf i).flatMap (fun c => c :: descendantsAux s fuel c)

/-- `Node::descendants()`: proper descendants of `i`. -/
def properDescendants (s : Complex) (i : Id) : List Id :=
  descendantsAux s s.nodes.length i

/-- The geometric containment tests of `delete_`'s face-repair step
(winding-number sampling with `WindingRule::Odd`,
`numSamplesPerContainTest = 20`, `ratioThreshold = 0.5`): these evaluate
double-precision winding numbers of sampled stroke geometry, which the model
keeps abstract as an oracle answering each test. -/
structure GeomOracle where
  /-- `originalCycle.interiorContains(pos, windingRule)` where `pos` is a
  Steiner vertex's position (identified by the vertex id). -/
  containsPoint : KeyCycle → Id → Bool
  /-- `cycle.interiorContainedRatio(samples, windingRule) > ratioThreshold`
  where `samples` are 20 uniform samples of the second cycle. -/
  fracGT : KeyCycle → KeyCycle → Bool
  /-- The comparison `r1 >= r2` of the two containment measures computed by
  the one-cycle `Disk` cut of `cutGlueFace` (lines 1540-1544) for an
  existing cycle against the two new cycles. -/
  fracGE2 : KeyCycle → KeyCycle → KeyCycle → Bool

/-- One entry of `delete_`'s `repairedCycles` array. -/
structure RepairedCycle where
  cycle : KeyCycle
  originalIndex : Nat
  isUnchanged : Bool
deriving DecidableEq, Repr

/-- The "keep" decision of the repair pruning loop for a Steiner repaired
cycle (lines 2529-2552). -/
def keepSteiner (o : GeomOracle) (originalCycles : List KeyCycle)
    (rcs : List RepairedCycle) (sv : Id) : Bool :=
  (List.range originalCycles.length).all (fun i =>
    let originalCycle := originalCycles.getD i (.walk [])
    let rc := rcs.find? (fun rc => rc.originalIndex = i)
    match rc with
    | some rc =>
      if rc.isUnchanged then true
      else if o.containsPoint originalCycle sv then o.containsPoint rc.cycle sv
      else true
    | none => !o.containsPoint originalCycle sv)

/-- The "keep" decision of the repair pruning loop for a non-Steiner
repaired cycle (lines 2554-2589). -/
def keepWalk (o : GeomOracle) (originalCycles : List KeyCycle)
    (rcs : List RepairedCycle) (c : KeyCycle) : Bool :=
  (List.range originalCycles.length).all (fun i =>
    let originalCycle := originalCycles.getD i (.walk [])
    let rc := rcs.find? (fun rc => rc.originalIndex = i)
    match rc with
    | some rc =>
      if rc.isUnchanged then true
      else if o.fracGT originalCycle c then o.fracGT rc.cycle c
      else true
    | none => !o.fracGT originalCycle c)

/-- The pruning loop over `repairedCycles` (lines 2527-2590): a rejected
Steiner cycle is erased and iteration continues at the same position; a
rejected walk cycle is erased and iteration restarts from the beginning. -/
def pruneRepaired (o : GeomOracle) (originalCycles : List KeyCycle) :
    Nat → List RepairedCycle → Nat → List RepairedCycle
  | 0, rcs, _ => rcs
  | fuel + 1, rcs, k =>
    match rcs[k]? with
    | none => rcs
    | some rc =>
      match rc.cycle.steinerVertex with
      | some sv =>
        if keepSteiner o originalCycles rcs sv then
          pruneRepaired o originalCycles fuel rcs (k + 1)
        else
          pruneRepaired o originalCycles fuel (rcs.eraseIdx k) k
      | none =>
        if keepWalk o originalCycles rcs rc.cycle then
          pruneRepaired o originalCycles fuel rcs (k + 1)
        else
          pruneRepaired o originalCycles fuel (rcs.eraseIdx k) 0

/-- The repaired-cycle computation of `delete_` (lines 2508-2524): keep a
Steiner cycle iff its vertex is not doomed; drop the halfedges of doomed
edges from a walk cycle and keep it if unchanged or still valid. -/
def repairedCyclesOf (s : Complex) (doomed : List Id) (cycles : List KeyCycle) :
    List RepairedCycle :=
  (List.range cycles.length).filterMap (fun i =>
    match cycles.getD i (.walk []) with
    | .steiner sv =>
      if sv ∈ doomed then none else some ⟨.steiner sv, i, true⟩
    | .walk hs =>
      let tmp := hs.filter (fun h => !doomed.contains h.edge)
      let isUnchanged := tmp.length = hs.length
      if isUnchanged || (KeyCycle.walk tmp).isValidIn s then
        some ⟨.walk tmp, i, isUnchanged⟩
      else none)

/-- Does cell `c`'s star become empty once every cell in `doomed` is deleted
(`hasEmptyStar`, lines 2611-2620)? -/
def hasEmptyStar (s : Complex) (doomed : List Id) (c : Id) : Bool :=
  (s.starOf c).all (fun sc => doomed.contains sc)

/-- Phase 1 of `delete_` (lines 2449-2483): collect the star of the doomed
cells — faces are set aside for repair, every other star cell is doomed
directly.  (The star arrays of a well-formed complex contain only cells;
a group id in a star array would be skipped.)  Returns the extended doomed
set and the collected faces. -/
def collectStar (s : Complex) (descendants : List Id) :
    List Id × List Id :=
  descendants.foldl (fun (acc : List Id × List Id) d =>
    if s.isCell d then
      (s.starOf d).foldl (fun (acc : List Id × List Id) sc =>
        match s.dataOf sc with
        | some (.keyFace _ _) => (acc.1, insertNew acc.2 sc)
        | some .group => acc
        | none => acc
        | some _ => (insertNew acc.1 sc, acc.2)) acc
    else acc) (descendants, [])

/-- Phase 2 of `delete_` (lines 2490-2606): for each collected star face
that is not already doomed, either doom it (`tryRepairingStarCells` false),
or repair its cycles, doom it when nothing survives, and otherwise rebuild
its boundary from the surviving cycles. -/
def repairFaces (o : GeomOracle) (trsc : Bool) :
    List Id → Complex × List Id → Complex × List Id
  | [], acc => acc
  | kf :: rest, (s, doomed) =>
    if kf ∈ doomed then repairFaces o trsc rest (s, doomed)
    else if !trsc then repairFaces o trsc rest (s, doomed ++ [kf])
    else
      let cycles := s.cyclesOf kf
      let rcs := repairedCyclesOf s doomed cycles
      let pruned := pruneRepaired o cycles ((rcs.length + 1) * (rcs.length + 2)) rcs 0
      if pruned.isEmpty then repairFaces o trsc rest (s, doomed ++ [kf])
      else
        let s1 := (s.boundaryOf kf).foldl (fun t b => removeFromBoundary t kf b) s
        let s2 := s1.modifyData kf (fun d =>
          match d with
          | .keyFace _ fd => .keyFace (pruned.map (·.cycle)) fd
          | d => d)
        let s3 := pruned.foldl (fun t rc => addCycleToBoundary t kf rc.cycle) s2
        repairFaces o trsc rest (s3, doomed)

/-- Phase 3 of `delete_` (lines 2636-2668): for each doomed cell, detach it
from the stars of its live boundary cells, detecting isolated vertices when
requested; finally clear the doomed cell's own star.  The accumulator
carries the state, the flagged set, and the isolated key-vertex and
inbetween-vertex sets. -/
def cleanupBoundary (div : Bool) :
    List Id → Complex × List Id × List Id × List Id →
    Complex × List Id × List Id × List Id
  | [], acc => acc
  | c :: rest, (s, flagged, isoKV, isoIV) =>
    if s.isCell c then
      let step := (s.boundaryOf c).foldl
        (fun (acc : Complex × List Id × List Id × List Id) b =>
          let (t, fl, kvs, ivs) := acc
          if b ∈ fl then acc
          else if div && t.isCell b &&
              ((t.dataOf b).map NodeData.isVertexCell).getD false &&
              hasEmptyStar t fl b then
            match t.dataOf b with
            | some (.keyVertex _) => (t, fl ++ [b], insertNew kvs b, ivs)
            | some .inbetweenVertex => (t, fl ++ [b], kvs, insertNew ivs b)
            | _ => (t, fl ++ [b], kvs, ivs)
          else
            (starEraseRaw t b c, fl, kvs, ivs)) (s, flagged, isoKV, isoIV)
      cleanupBoundary div rest (starClearRaw step.1 c, step.2.1, step.2.2.1, step.2.2.2)
    else cleanupBoundary div rest (s, flagged, isoKV, isoIV)

/-- Phase 4 of `delete_` (lines 2685-2701): deleting isolated inbetween
vertices can isolate key vertices, detected in a second pass. -/
def cleanupInbetween :
    List Id → Complex × List Id × List Id → Complex × List Id × List Id
  | [], acc => acc
  | iv :: rest, (s, flagged, isoKV) =>
    let step := (s.boundaryOf iv).foldl
      (fun (acc : Complex × List Id × List Id) kv =>
        let (t, fl, kvs) := acc
        if kv ∈ fl then acc
        else if hasEmptyStar t fl kv then (t, fl ++ [kv], insertNew kvs kv)
        else (starEraseRaw t kv iv, fl, kvs)) (s, flagged, isoKV)
    cleanupInbetween rest step

/-- `Operations::destroyNodes_` (lines 2730-2751): unparent every node, then
erase them all from the node map. -/
def destroyNodes (s : Complex) (ids : List Id) : Complex :=
  (ids.foldl (fun t i => detachChild t i) s).eraseNodes ids

/-- `Operations::delete_` (lines 2444-2708). -/
def deleteCore (o : GeomOracle) (s : Complex) (descendants : List Id)
    (div trsc : Bool) : Complex :=
  let c1 := collectStar s descendants
  let r2 := repairFaces o trsc c1.2 (s, c1.1)
  let r3 := cleanupBoundary div r2.2 (r2.1, r2.2, [], [])
  let r4 :=
    if div then
      let r := cleanupInbetween r3.2.2.2 (r3.1, r3.2.1, r3.2.2.1)
      (r.1, r.2.1)
    else (r3.1, r3.2.1)
  destroyNodes r4.1 r4.2

/-- `Operations::deleteWithDependents_` (lines 2417-2442): collect each
node's proper descendants plus the node itself — except the root group,
which is always preserved — then run `delete_`. -/
def deleteWithDependents (o : GeomOracle) (s : Complex) (nodes : List Id)
    (div trsc : Bool) : Complex :=
  let rootGroup := s.root
  let descendants := nodes.foldl (fun acc n =>
    let acc1 := (properDescendants s n).foldl insertNew acc
    if some n = rootGroup then acc1 else insertNew acc1 n) []
  deleteCore o s descendants div trsc

/-- `Operations::hardDelete(Node*, bool)` (lines 217-220).  The
`deleteIsolatedVertices` default (`false`) comes from the `Operations` class
declaration, which is not in the given sources; it is the only default
consistent with the call sites (e.g. `uncutAtKeyVertex` hard-deletes an edge
and then still dereferences its vertex). -/
def hardDelete (o : GeomOracle) (s : Complex) (node : Id)
    (div : Bool := false) : Complex :=
  deleteWithDependents o s [node] div false

/-- `Operations::hardDelete(core::ConstSpan<Node*>, bool)` (lines 212-215). -/
def hardDeleteMany (o : GeomOracle) (s : Complex) (nodes : List Id)
    (div : Bool) : Complex :=
  deleteWithDependents o s nodes div false

/-- `Operations::destroyChildlessNode_` (lines 2712-2727): unparent the node
and erase it from the node map (the `temporaryCellSet_` bookkeeping is not
part of this state model). -/
def destroyChildlessNode (s : Complex) (n : Id) : Complex :=
  (detachChild s n).eraseNodes [n]

end Operations

/-! ## Complex lifecycle (`complex.cpp`) -/

namespace Complex

/-- `Complex::clear()` (complex.cpp lines 41-59): drop all nodes (emitting
one destruction diff, outside this state model), null the root, and bump the
version. -/
def clear (s : Complex) : Complex :=
  { nodes := [], root := none, version := s.version + 1, nextId := s.nextId }

/-- `Complex::resetRoot()` (complex.cpp lines 61-69): clear, then create a
fresh root group inside an `Operations` scope. -/
def resetRoot (s : Complex) : Complex × Id :=
  let s1 := s.clear
  let r := Operations.createRootGroupNode s1
  ({ r.1 with root := some r.2 }, r.2)

/-- A freshly constructed `Complex` (its constructor calls `resetRoot()`). -/
def fresh : Complex :=
  (resetRoot {}).1

end Complex

/-! ## Glue and unglue (`operationsimpl.cpp` lines 631-1208) -/

namespace Operations

open Complex

/-- `Operations::countUses_(KeyEdge*)` (lines 3233-3252): the number of
face-cycle halfedge slots referencing the edge, over the faces of its star. -/
def countUsesEdge (s : Complex) (ke : Id) : Nat :=
  ((s.starOf ke).map (fun sc =>
    match s.dataOf sc with
    | some (.keyFace cycles _) =>
      (cycles.map (fun c =>
        match c with
        | .steiner _ => 0
        | .walk hs => (hs.filter (fun h => h.edge = ke)).length)).sum
    | _ => 0)).sum

/-- `Operations::countUses_(KeyVertex*)` (lines 3186-3231): edge-endpoint
uses count only for edges with no face in their star; face uses count
Steiner slots and cycle corners. -/
def countUsesVertex (s : Complex) (kv : Id) : Nat :=
  ((s.starOf kv).map (fun sc =>
    match s.dataOf sc with
    | some (.keyEdge sv ev _) =>
      let hasFaceInStar := (s.starOf sc).any (fun c =>
        match s.dataOf c with
        | some (.keyFace _ _) => true
        | _ => false)
      if hasFaceInStar then 0
      else (if sv = some kv then 1 else 0) + (if ev = some kv then 1 else 0)
    | some (.keyFace cycles _) =>
      (cycles.map (fun c =>
        match c with
        | .steiner v => if v = kv then 1 else 0
        | .walk hs =>
          (hs.filter (fun h => h.startVertexIn s = some kv)).length)).sum
    | _ => 0)).sum

/-- `Operations::glueKeyVertices` (lines 631-673): merge the distinct input
vertices into one fresh vertex at `position`, created at the top-most input
vertex's place; when all inputs are the same vertex, just set its position.
Returns the resulting vertex (`none` for an empty span, or when a node
lookup that C++ would have dereferenced is absent). -/
def glueKeyVertices (o : GeomOracle) (s : Complex) (kvs : List Id)
    (position : Vec2) : Complex × Option Id :=
  match kvs with
  | [] => (s, none)
  | kv0 :: rest =>
    let hasDifferentKvs := rest.any (fun kv => kv ≠ kv0)
    if !hasDifferentKvs then (setKeyVertexPosition s kv0 position, some kv0)
    else
      match findTopMost s kvs with
      | none => (s, none)
      | some topMost =>
        match s.parentOf topMost with
        | none => (s, none)
        | some parentGroup =>
          let r := createKeyVertex s position parentGroup (nextSiblingOf s topMost)
          let newKv := r.2
          let final := kvs.foldl
            (fun (acc : Complex × List Id) kv =>
              if kv ∈ acc.2 then acc
              else (hardDelete o (substituteVertex acc.1 kv newKv) kv, acc.2 ++ [kv]))
            (r.1, [])
          (final.1, some newKv)

/-- Modelled from the spec: `KeyEdgeData::fromGlueOpen` ("the library-level
'glue' concatenation of the directed stroke data" — an averaged stroke whose
precise geometry no claim inspects); the model keeps the first directed
stroke. -/
def KeyEdgeData.fromGlueOpen (khds : List (KeyEdgeData × Bool)) : KeyEdgeData :=
  ((khds.head?.map (fun p => p.1.oriented p.2)).getD ⟨[]⟩)

/-- Modelled from the spec: `KeyEdgeData::fromGlueClosed` (same, with
per-stroke rotational offsets). -/
def KeyEdgeData.fromGlueClosed (khds : List (KeyEdgeData × Bool))
    (_uOffsets : List Rat) : KeyEdgeData :=
  ((khds.head?.map (fun p => p.1.oriented p.2)).getD ⟨[]⟩)

/-- `Operations::glueKeyOpenEdges_` (lines 2844-2909). -/
def glueKeyOpenEdgesCore (o : GeomOracle) (s : Complex)
    (khs : List KeyHalfedge) : Complex × Option Id :=
  match khs with
  | [] => (s, none)
  | _ :: _ =>
    let khds := khs.map (fun kh => (((s.edgeDataOf kh.edge).getD ⟨[]⟩), kh.direction))
    let newData := KeyEdgeData.fromGlueOpen khds
    let endPositions := newData.endPositions
    let startVertices := khs.filterMap (fun kh => kh.startVertexIn s)
    let r1 := glueKeyVertices o s startVertices endPositions.1
    let s1 := r1.1
    match r1.2 with
    | none => (s1, none)
    | some startKv0 =>
      let endVertices := khs.filterMap (fun kh => kh.endVertexIn s1)
      let collapse := endVertices.contains startKv0
      let endVertexPosition :=
        if collapse then Vec2.midpoint endPositions.1 endPositions.2
        else endPositions.2
      let newData2 :=
        if collapse then newData.snapGeometry endVertexPosition endVertexPosition
        else newData
      let r2 := glueKeyVertices o s1 endVertices endVertexPosition
      let s2 := r2.1
      match r2.2 with
      | none => (s2, none)
      | some endKv =>
        let startKv := if collapse then endKv else startKv0
        match findTopMost s2 (khs.map (·.edge)) with
        | none => (s2, none)
        | some topMostEdge =>
          match s2.parentOf topMostEdge with
          | none => (s2, none)
          | some parentGroup =>
            let r3 := createKeyOpenEdge s2 startKv endKv newData2 parentGroup
              (nextSiblingOf s2 topMostEdge)
            let newKe := r3.2
            let s4 := khs.foldl (fun t kh =>
              hardDelete o (substituteEdge t kh ⟨newKe, true⟩) kh.edge true) r3.1
            (s4, some newKe)

/-- `Operations::glueKeyClosedEdges_` (lines 2911-2949). -/
def glueKeyClosedEdgesCore (o : GeomOracle) (s : Complex)
    (khs : List KeyHalfedge) (uOffsets : List Rat) : Complex × Option Id :=
  match khs with
  | [] => (s, none)
  | _ :: _ =>
    let khds := khs.map (fun kh => (((s.edgeDataOf kh.edge).getD ⟨[]⟩), kh.direction))
    let newData := KeyEdgeData.fromGlueClosed khds uOffsets
    match findTopMost s (khs.map (·.edge)) with
    | none => (s, none)
    | some topMostEdge =>
      match s.parentOf topMostEdge with
      | none => (s, none)
      | some parentGroup =>
        let r := createKeyClosedEdge s newData parentGroup
          (nextSiblingOf s topMostEdge)
        let newKe := r.2
        let s2 := khs.foldl (fun t kh =>
          hardDelete o (substituteEdge t kh ⟨newKe, true⟩) kh.edge true) r.1
        (s2, some newKe)

/-- The `duplicateTargetKe` helper of `unglueKeyEdges` (lines 1005-1024):
duplicate the target edge (same data, same end vertices, inserted right
above it). -/
def duplicateKeyEdge (s : Complex) (targetKe : Id) : Complex × Id :=
  match s.parentOf targetKe with
  | none => (s, targetKe)
  | some parentGroup =>
    match s.dataOf targetKe with
    | some (.keyEdge none none d) =>
      createKeyClosedEdge s d parentGroup (nextSiblingOf s targetKe)
    | some (.keyEdge (some sv) (some ev) d) =>
      createKeyOpenEdge s sv ev d parentGroup (nextSiblingOf s targetKe)
    | _ => (s, targetKe)

/-- The in-cycle substitution loop of `unglueKeyEdges` for a non-closed
cycle (lines 1038-1044): walk the halfedge list; every slot referencing the
target edge gets a fresh duplicate. -/
def unglueSubstOpen (targetKe : Id) :
    List KeyHalfedge → Complex × List Id × Id → List KeyHalfedge →
    List KeyHalfedge × (Complex × List Id × Id)
  | [], acc, revDone => (revDone.reverse, acc)
  | h :: hs, (s, result, kf), revDone =>
    if h.edge = targetKe then
      let r := duplicateKeyEdge s targetKe
      let s1 := addToBoundary r.1 kf r.2
      unglueSubstOpen targetKe hs (s1, result ++ [r.2], kf)
        (⟨r.2, h.direction⟩ :: revDone)
    else
      unglueSubstOpen targetKe hs (s, result, kf) (h :: revDone)

/-- `Operations::unglueKeyEdges` (lines 995-1072).  Returns the final state,
the resulting edges (the target itself when used at most once; the fresh
duplicates otherwise), and whether the `LogicError` for temporal star cells
was thrown (the C++ exception unwinds with the state as mutated so far). -/
def unglueKeyEdges (o : GeomOracle) (s : Complex) (targetKe : Id) :
    Complex × List Id × Bool :=
  if countUsesEdge s targetKe ≤ 1 then (s, [targetKe], false)
  else
    let scan := (s.starOf targetKe).foldl
      (fun (acc : Complex × List Id × Bool) cell =>
        let (t, result, thrown) := acc
        if thrown then acc
        else
          match t.dataOf cell with
          | some (.keyFace cycles fd) =>
            let step := cycles.foldl
              (fun (acc2 : Complex × List Id × List KeyCycle) c =>
                let (t2, res2, done) := acc2
                match c with
                | .steiner v => (t2, res2, done ++ [.steiner v])
                | .walk [] => (t2, res2, done ++ [.walk []])
                | .walk (h :: hs) =>
                  if !(h.isClosedIn t2) then
                    let r := unglueSubstOpen targetKe (h :: hs) (t2, res2, cell) []
                    (r.2.1, r.2.2.1, done ++ [.walk r.1])
                  else if h.edge = targetKe then
                    let r := duplicateKeyEdge t2 targetKe
                    let s1 := addToBoundary r.1 cell r.2
                    (s1, res2 ++ [r.2],
                      done ++ [.walk ((h :: hs).map (fun k => ⟨r.2, k.direction⟩))])
                  else (t2, res2, done ++ [.walk (h :: hs)])) (t, result, [])
            let t3 := step.1.modifyData cell (fun _ => .keyFace step.2.2 fd)
            let t4 := removeFromBoundary t3 cell targetKe
            (t4, step.2.1, false)
          | _ => (t, result, true)) (s, [], false)
    if scan.2.2 then scan
    else (hardDelete o scan.1 targetKe, scan.2.1, false)

/-- The `substituteTargetKvAtStartOrEndOfKhe` helper of `unglueKeyVertices`
(lines 1115-1135). -/
def substituteKvAtKheEnd (s : Complex) (targetKv : Id) (khe : KeyHalfedge)
    (startVertex : Bool) (newKv : Id) : Complex :=
  let ke := khe.edge
  let otherEndKv :=
    if khe.direction = startVertex then s.endVertexOf ke else s.startVertexOf ke
  let s1 :=
    if khe.direction = startVertex then
      s.modifyData ke (fun d =>
        match d with
        | .keyEdge _ ev ed => .keyEdge (some newKv) ev ed
        | d => d)
    else
      s.modifyData ke (fun d =>
        match d with
        | .keyEdge sv _ ed => .keyEdge sv (some newKv) ed
        | d => d)
  let s2 := if otherEndKv ≠ some targetKv then removeFromBoundary s1 ke targetKv else s1
  addToBoundary s2 ke newKv

/-- The `duplicateTargetKv` helper of `unglueKeyVertices` (lines 1104-1112). -/
def duplicateKeyVertex (s : Complex) (targetKv : Id) : Complex × Id :=
  match s.parentOf targetKv, s.dataOf targetKv with
  | some parentGroup, some (.keyVertex pos) =>
    createKeyVertex s pos parentGroup (nextSiblingOf s targetKv)
  | _, _ => (s, targetKv)

/-- The face-corner substitution loop of `unglueKeyVertices` (lines
1176-1192), iterating over the halfedge indices of one cycle; the cycle's
halfedge list itself is unchanged (corners live in the edges' end vertices). -/
def unglueVertexCorners (targetKv : Id) (kf : Id) (hs : List KeyHalfedge) :
    List Nat → Complex × List Id → Complex × List Id
  | [], acc => acc
  | i :: rest, (s, result) =>
    let n := hs.length
    let khe1 := hs.getD i ⟨0, true⟩
    if khe1.startVertexIn s = some targetKv then
      let khe0 := hs.getD ((i - 1 + n) % n) ⟨0, true⟩
      let r := duplicateKeyVertex s targetKv
      let s1 := substituteKvAtKheEnd r.1 targetKv khe0 false r.2
      let s2 := substituteKvAtKheEnd s1 targetKv khe1 true r.2
      let s3 := addToBoundary s2 kf r.2
      unglueVertexCorners targetKv kf hs rest (s3, result ++ [r.2])
    else
      unglueVertexCorners targetKv kf hs rest (s, result)

/-- `Operations::unglueKeyVertices` (lines 1074-1208).  Returns the final
state, the resulting vertices, the `(edge id, unglued edges)` pairs, and the
thrown flag for temporal star cells. -/
def unglueKeyVertices (o : GeomOracle) (s : Complex) (targetKv : Id) :
    Complex × List Id × List (Id × List Id) × Bool :=
  if countUsesVertex s targetKv ≤ 1 then (s, [targetKv], [], false)
  else
    let phase1 := (s.starOf targetKv).foldl
      (fun (acc : Complex × List (Id × List Id) × Bool) cell =>
        let (t, pairs, thrown) := acc
        if thrown then acc
        else
          match t.dataOf cell with
          | some (.keyEdge _ _ _) =>
            let r := unglueKeyEdges o t cell
            if r.2.2 then (r.1, pairs, true)
            else if r.2.1.length > 1 then (r.1, pairs ++ [(cell, r.2.1)], false)
            else (r.1, pairs, false)
          | _ => acc) (s, [], false)
    if phase1.2.2 then (phase1.1, [], phase1.2.1, true)
    else
      let t0 := phase1.1
      let phase2 := (t0.starOf targetKv).foldl
        (fun (acc : Complex × List Id × Bool) cell =>
          let (t, result, thrown) := acc
          if thrown then acc
          else
            match t.dataOf cell with
            | some (.keyEdge sv ev _) =>
              let hasFaceInStar := (t.starOf cell).any (fun c =>
                match t.dataOf c with
                | some (.keyFace _ _) => true
                | _ => false)
              if hasFaceInStar then (t, result, false)
              else
                let step1 :=
                  if sv = some targetKv then
                    let r := duplicateKeyVertex t targetKv
                    let t1 := r.1.modifyData cell (fun d =>
                      match d with
                      | .keyEdge _ ev2 ed => .keyEdge (some r.2) ev2 ed
                      | d => d)
                    (addToBoundary t1 cell r.2, result ++ [r.2])
                  else (t, result)
                let step2 :=
                  if ev = some targetKv then
                    let r := duplicateKeyVertex step1.1 targetKv
                    let t1 := r.1.modifyData cell (fun d =>
                      match d with
                      | .keyEdge sv2 _ ed => .keyEdge sv2 (some r.2) ed
                      | d => d)
                    (addToBoundary t1 cell r.2, step1.2 ++ [r.2])
                  else step1
                (removeFromBoundary step2.1 cell targetKv, step2.2, false)
            | some (.keyFace cycles fd) =>
              let step := cycles.foldl
                (fun (acc2 : Complex × List Id × List KeyCycle) c =>
                  let (t2, res2, done) := acc2
                  match c with
                  | .steiner v =>
                    if v = targetKv then
                      let r := duplicateKeyVertex t2 targetKv
                      let t3 := addToBoundary r.1 cell r.2
                      (t3, res2 ++ [r.2], done ++ [.steiner r.2])
                    else (t2, res2, done ++ [.steiner v])
                  | .walk hs =>
                    let r := unglueVertexCorners targetKv cell hs
                      (List.range hs.length) (t2, res2)
                    (r.1, r.2, done ++ [.walk hs])) (t, result, [])
              let t3 := step.1.modifyData cell (fun _ => .keyFace step.2.2 fd)
              let t4 := removeFromBoundary t3 cell targetKv
              (t4, step.2.1, false)
            | _ => (t, result, true)) (t0, [], false)
      if phase2.2.2 then (phase2.1, phase2.2.1, phase1.2.1, true)
      else (hardDelete o phase2.1 targetKv, phase2.2.1, phase1.2.1, false)

end Operations

/-! ## Cut (`operationsimpl.cpp` lines 1210-1848) -/

namespace Operations

open Complex

instance : Inhabited KeyHalfedge := ⟨⟨0, true⟩⟩

/-- The in-cycle substitution of `cutEdge` for an open edge (lines
1276-1288): each slot `(ke, true)` becomes `(ke1, true), (ke2, true)` and
each slot `(ke, false)` becomes `(ke2, false), (ke1, false)`. -/
def substCutKhes (ke ke1 ke2 : Id) : List KeyHalfedge → List KeyHalfedge
  | [] => []
  | h :: hs =>
    if h.edge = ke then
      (if h.direction then [⟨ke1, true⟩, ⟨ke2, true⟩]
        else [⟨ke2, false⟩, ⟨ke1, false⟩]) ++ substCutKhes ke ke1 ke2 hs
    else h :: substCutKhes ke ke1 ke2 hs

/-- `CutEdgeResult`: the two resulting edges (equal for a cut closed edge)
and the new vertex. -/
structure CutEdgeResult where
  edge1 : Id
  vertex : Id
  edge2 : Id
deriving DecidableEq, Repr

/-- `Operations::cutEdge` (lines 1210-1303): split an edge at a curve
parameter, creating a vertex there; all face-cycle slots are rewritten in
place; the old edge is hard-deleted.  Geometry uses exact stroke slicing. -/
def cutEdge (o : GeomOracle) (s : Complex) (ke : Id)
    (parameter : CurveParameter) : Complex × Option CutEdgeResult :=
  match s.parentOf ke, s.dataOf ke with
  | some parentGroup, some (.keyEdge none none d) =>
    let newKeData := d.sliceWrap parameter
    let vertexPos := newKeData.endPositions.1
    let r1 := createKeyVertex s vertexPos parentGroup (nextSiblingOf s ke)
    let newKv := r1.2
    let r2 := createKeyOpenEdge r1.1 newKv newKv newKeData parentGroup (some ke)
    let newKe := r2.2
    let s3 := substituteEdge r2.1 ⟨ke, true⟩ ⟨newKe, true⟩
    let s4 := (s3.starOf newKe).foldl (fun t cell => addToBoundary t cell newKv) s3
    let s5 := hardDelete o s4 ke
    (s5, some ⟨newKe, newKv, newKe⟩)
  | some parentGroup, some (.keyEdge (some sv) (some ev) d) =>
    let newKeData1 := d.sliceTo parameter
    let newKeData2 := d.sliceFrom parameter
    let vertexPos := newKeData2.endPositions.1
    let r1 := createKeyVertex s vertexPos parentGroup (nextSiblingOf s ke)
    let newKv := r1.2
    let r2 := createKeyOpenEdge r1.1 sv newKv newKeData1 parentGroup (some ke)
    let newKe1 := r2.2
    let r3 := createKeyOpenEdge r2.1 newKv ev newKeData2 parentGroup (some ke)
    let newKe2 := r3.2
    let s4 := (r3.1.starOf ke).foldl (fun t starCell =>
      match t.dataOf starCell with
      | some (.keyFace cycles fd) =>
        let t1 := t.modifyData starCell (fun _ =>
          .keyFace (cycles.map (fun c =>
            match c with
            | .steiner v => .steiner v
            | .walk hs => .walk (substCutKhes ke newKe1 newKe2 hs))) fd)
        let t2 := removeFromBoundary t1 starCell ke
        let t3 := addToBoundary t2 starCell newKe1
        let t4 := addToBoundary t3 starCell newKe2
        addToBoundary t4 starCell newKv
      | _ => t) r3.1
    let s5 := hardDelete o s4 ke
    (s5, some ⟨newKe1, newKv, newKe2⟩)
  | _, _ => (s, none)

/-- `Operations::cutGlueFaceWithVertex` (lines 1305-1308). -/
def cutGlueFaceWithVertex (s : Complex) (kf kv : Id) : Complex :=
  let s1 := s.modifyData kf (fun d =>
    match d with
    | .keyFace cycles fd => .keyFace (cycles ++ [.steiner kv]) fd
    | d => d)
  addToBoundary s1 kf kv

/-- `Operations::cutFaceWithVertex` (lines 1310-1315). -/
def cutFaceWithVertex (s : Complex) (kf : Id) (position : Vec2) :
    Complex × Option Id :=
  match s.parentOf kf with
  | none => (s, none)
  | some parentGroup =>
    let r := createKeyVertex s position parentGroup (nextSiblingOf s kf)
    (cutGlueFaceWithVertex r.1 kf r.2, some r.2)

/-- `OneCycleCutPolicy` with `Auto` already resolved (the `Auto` resolution
is a double-precision intersection-parity heuristic, lines 1476-1501; every
theorem quantifies over the resolved policy). -/
inductive OneCycleCut where
  | disk
  | mobius
  | torus
deriving DecidableEq, Repr

/-- `TwoCycleCutPolicy` with `Auto` already resolved (winding-number
heuristic, lines 1619-1771). -/
inductive TwoCycleCut where
  | reverseNone
  | reverseStart
  | reverseEnd
  | reverseBoth
deriving DecidableEq, Repr

/-- `KeyPath::reverse`. -/
def reversePath (p : KeyPath) : KeyPath :=
  { p with halfedges := (p.halfedges.map KeyHalfedge.opposite).reverse }

/-- `rotatedCycleHalfedges_` (lines 1443-1450). -/
def rotatedCycleHalfedges (hs : List KeyHalfedge) (newStart : Nat) :
    List KeyHalfedge :=
  hs.drop newStart ++ hs.take newStart

/-- `Operations::subPath_` (lines 2951-2975); indices are taken modulo the
cycle length. -/
def subPath (s : Complex) (cycle : KeyCycle) (first last : Nat)
    (loopIfEmptyRange : Bool := false) : KeyPath :=
  match cycle with
  | .steiner v => { singleVertex := some v }
  | .walk hs =>
    if hs.length = 0 then {}
    else
      let n := hs.length
      let f := first % n
      let l := last % n
      if f = l then
        if loopIfEmptyRange then { halfedges := rotatedCycleHalfedges hs f }
        else { singleVertex := (hs.getD f default).startVertexIn s }
      else
        { halfedges := (List.range ((l + n - f) % n)).map
            (fun k => hs.getD ((f + k) % n) default) }

/-- `CutFaceResult`: the two resulting faces (equal when the face is cut in
place) and the cut edge. -/
structure CutFaceResult where
  face1 : Id
  edge : Id
  face2 : Id
deriving DecidableEq, Repr

/-- `Operations::cutGlueFace(KeyFace*, const KeyHalfedge&, ...)` (lines
1454-1808), with the `Auto` policies already resolved and the containment
measures answered by the oracle. -/
def cutGlueFace (o : GeomOracle) (s : Complex) (kf : Id) (khe : KeyHalfedge)
    (startIndex endIndex : Nat × Nat) (ocp : OneCycleCut) (tcp : TwoCycleCut) :
    Complex × Option CutFaceResult :=
  let cycleIndex1 := startIndex.1
  let cycleIndex2 := endIndex.1
  let cycles := s.cyclesOf kf
  if cycleIndex1 = cycleIndex2 then
    let cycle := cycles.getD cycleIndex1 (.walk [])
    let path1 := subPath s cycle endIndex.2 startIndex.2 true
    let path2 := subPath s cycle startIndex.2 endIndex.2
    match ocp with
    | .disk =>
      let newCycle1 := (path1.append khe).toCycle
      let newCycle2 := (path2.append khe.opposite).toCycle
      let assigned := (List.range cycles.length).foldl
        (fun (acc : List KeyCycle × List KeyCycle) i =>
          if i = cycleIndex1 then acc
          else
            let otherCycle := cycles.getD i (.walk [])
            if o.fracGE2 newCycle1 newCycle2 otherCycle then
              (acc.1 ++ [otherCycle], acc.2)
            else (acc.1, acc.2 ++ [otherCycle])) ([], [])
      let cycles1 := newCycle1 :: assigned.1
      let cycles2 := newCycle2 :: assigned.2
      match s.parentOf kf, s.dataOf kf with
      | some parentGroup, some (.keyFace _ fd) =>
        let r1 := createKeyFace s cycles1 fd parentGroup (some kf)
        let r2 := createKeyFace r1.1 cycles2 fd parentGroup (some kf)
        let s3 := hardDelete o r2.1 kf
        (s3, some ⟨r1.2, khe.edge, r2.2⟩)
      | _, _ => (s, none)
    | .mobius =>
      let newCycle := (((path1.append khe).extendReversed path2).append khe).toCycle
      let s1 := s.modifyData kf (fun d =>
        match d with
        | .keyFace cs fd => .keyFace (cs.set cycleIndex1 newCycle) fd
        | d => d)
      let s2 := addToBoundary s1 kf khe.edge
      (s2, some ⟨kf, khe.edge, kf⟩)
    | .torus =>
      let newCycle1 := (path1.append khe).toCycle
      let newCycle2 := (path2.append khe.opposite).toCycle
      let s1 := s.modifyData kf (fun d =>
        match d with
        | .keyFace cs fd => .keyFace ((cs.set cycleIndex1 newCycle1) ++ [newCycle2]) fd
        | d => d)
      let s2 := addToBoundary s1 kf khe.edge
      (s2, some ⟨kf, khe.edge, kf⟩)
  else
    let cycle1 := cycles.getD cycleIndex1 (.walk [])
    let cycle2 := cycles.getD cycleIndex2 (.walk [])
    let path1 : KeyPath := { halfedges := rotatedCycleHalfedges cycle1.halfedges startIndex.2 }
    let path2 : KeyPath := { halfedges := rotatedCycleHalfedges cycle2.halfedges endIndex.2 }
    let paths :=
      match tcp with
      | .reverseNone => (path1, path2)
      | .reverseStart => (reversePath path1, path2)
      | .reverseEnd => (path1, reversePath path2)
      | .reverseBoth => (reversePath path1, reversePath path2)
    let newCycle := (((paths.1.append khe).extend paths.2).append khe.opposite).toCycle
    let s1 := s.modifyData kf (fun d =>
      match d with
      | .keyFace cs fd =>
        .keyFace (((cs.set cycleIndex1 newCycle).eraseIdx cycleIndex2)) fd
      | d => d)
    let s2 := addToBoundary s1 kf khe.edge
    (s2, some ⟨kf, khe.edge, kf⟩)

/-- `Operations::cutGlueFace(KeyFace*, const KeyEdge*, ...)` for a closed
edge (lines 1371-1438), with the policy already resolved. -/
def cutGlueFaceWithClosedEdge (o : GeomOracle) (s : Complex) (kf ke : Id)
    (ocp : OneCycleCut) : Complex × Option CutFaceResult :=
  let khe : KeyHalfedge := ⟨ke, true⟩
  match ocp with
  | .disk =>
    let newCycle : KeyCycle := .walk [khe]
    let cycles := s.cyclesOf kf
    let assigned := cycles.foldl
      (fun (acc : List KeyCycle × List KeyCycle) c =>
        if o.fracGT newCycle c then (acc.1 ++ [c], acc.2)
        else (acc.1, acc.2 ++ [c])) ([], [])
    let cycles1 := newCycle :: assigned.1
    let cycles2 := newCycle.reversed :: assigned.2
    match s.parentOf kf, s.dataOf kf with
    | some parentGroup, some (.keyFace _ fd) =>
      let r1 := createKeyFace s cycles1 fd parentGroup (some kf)
      let r2 := createKeyFace r1.1 cycles2 fd parentGroup (some kf)
      let s3 := hardDelete o r2.1 kf
      (s3, some ⟨r1.2, ke, r2.2⟩)
    | _, _ => (s, none)
  | .mobius =>
    let s1 := addCycleToFace s kf (.walk [khe, khe])
    (s1, some ⟨kf, ke, kf⟩)
  | .torus =>
    let newCycle : KeyCycle := .walk [khe]
    let s1 := addCycleToFace s kf newCycle
    let s2 := addCycleToFace s1 kf newCycle.reversed
    (s2, some ⟨kf, ke, kf⟩)

end Operations

/-! ## Uncut (`operationsimpl.cpp` lines 1850-2256 and 2977-3167) -/

namespace Operations

open Complex

/-- The star-scan accumulator of `prepareUncutAtKeyVertex_`: the two
collected halfedge slots and the Steiner usage (face id and cycle index). -/
structure UncutVScan where
  khe1 : Option KeyHalfedge := none
  khe2 : Option KeyHalfedge := none
  kf : Option (Id × Nat) := none
deriving DecidableEq, Repr

/-- One edge-end slot registration of `prepareUncutAtKeyVertex_` (lines
2989-3012): the first slot is stored as the halfedge pointing *into* the
vertex, the second pointing *out of* it; a third slot aborts (`none`). -/
def registerEdgeEnd (acc : UncutVScan) (ke : Id) (isStart : Bool) :
    Option UncutVScan :=
  match acc.khe1 with
  | none => some { acc with khe1 := some ⟨ke, !isStart⟩ }
  | some _ =>
    match acc.khe2 with
    | none => some { acc with khe2 := some ⟨ke, isStart⟩ }
    | some _ => none

/-- The star scan of `prepareUncutAtKeyVertex_` (lines 2985-3040): edges
register their end slots, faces register Steiner usages (a second Steiner
usage aborts), an incident inbetween vertex aborts, everything else is
ignored. -/
def scanUncutV (s : Complex) (kv : Id) :
    List Id → UncutVScan → Option UncutVScan
  | [], acc => some acc
  | sc :: rest, acc =>
    match s.dataOf sc with
    | some (.keyEdge sv ev _) =>
      let step1 :=
        if sv = some kv then registerEdgeEnd acc sc true else some acc
      match step1 with
      | none => none
      | some acc1 =>
        let step2 :=
          if ev = some kv then registerEdgeEnd acc1 sc false else some acc1
        match step2 with
        | none => none
        | some acc2 => scanUncutV s kv rest acc2
    | some (.keyFace cycles _) =>
      let step := cycles.foldl
        (fun (st : Option (UncutVScan × Nat)) c =>
          match st with
          | none => none
          | some (a, i) =>
            if c.steinerVertex = some kv then
              match a.kf with
              | some _ => none
              | none => some ({ a with kf := some (sc, i) }, i + 1)
            else some (a, i + 1)) (some (acc, 0))
      match step with
      | none => none
      | some (acc1, _) => scanUncutV s kv rest acc1
    | some .inbetweenVertex => none
    | _ => scanUncutV s kv rest acc

/-- The u-turn test of `prepareUncutAtKeyVertex_` for two distinct edges
(lines 3059-3079): in some cycle of some face of the vertex's star, a
halfedge starting at `kv` continues the same edge as its predecessor. -/
def hasUturnAt (s : Complex) (kv : Id) : Bool :=
  (s.starOf kv).any (fun sc =>
    match s.dataOf sc with
    | some (.keyFace cycles _) =>
      cycles.any (fun c =>
        match c with
        | .steiner _ => false
        | .walk [] => false
        | .walk hs =>
          let prevs := (hs.getLastD default) :: hs.dropLast
          (hs.zip prevs).any (fun p =>
            p.1.startVertexIn s = some kv && p.1.edge = p.2.edge))
    | _ => false)

/-- The same-edge direction test of `prepareUncutAtKeyVertex_` (lines
3086-3108): some cycle made of the loop edge `e` mixes directions. -/
def hasMixedDirectionLoop (s : Complex) (kv e : Id) : Bool :=
  (s.starOf kv).any (fun sc =>
    match s.dataOf sc with
    | some (.keyFace cycles _) =>
      cycles.any (fun c =>
        match c with
        | .steiner _ => false
        | .walk [] => false
        | .walk (h :: hs) =>
          h.edge = e && hs.any (fun k => k.direction ≠ h.direction))
    | _ => false)

/-- `Operations::UncutAtKeyVertexInfo_`. -/
structure UncutAtKeyVertexInfo where
  khe1 : Option KeyHalfedge := none
  khe2 : Option KeyHalfedge := none
  kf : Option Id := none
  cycleIndex : Nat := 0
  isValid : Bool := false
deriving DecidableEq, Repr

/-- `Operations::prepareUncutAtKeyVertex_` (lines 2982-3119). -/
def prepareUncutAtKeyVertex (s : Complex) (kv : Id) : UncutAtKeyVertexInfo :=
  match scanUncutV s kv (s.starOf kv) {} with
  | none => {}
  | some acc =>
    match acc.khe1 with
    | some khe1 =>
      match acc.kf, acc.khe2 with
      | none, some khe2 =>
        if khe1.edge ≠ khe2.edge then
          if hasUturnAt s kv then { khe1 := some khe1, khe2 := some khe2 }
          else { khe1 := some khe1, khe2 := some khe2, isValid := true }
        else
          if hasMixedDirectionLoop s kv khe1.edge then
            { khe1 := some khe1, khe2 := some khe2 }
          else { khe1 := some khe1, khe2 := some khe2, isValid := true }
      | kfv, khe2v => { khe1 := some khe1, khe2 := khe2v, kf := kfv.map (·.1) }
    | none =>
      match acc.kf with
      | some (kf, ci) => { kf := some kf, cycleIndex := ci, isValid := true }
      | none => {}

/-- `UncutAtKeyVertexResult`. -/
structure UncutAtKeyVertexResult where
  success : Bool := false
  resultKe : Option Id := none
  resultKf : Option Id := none
  removedKeId1 : Option Id := none
  removedKeId2 : Option Id := none
deriving DecidableEq, Repr

/-- `Operations::uncutAtKeyVertex` (lines 1850-2003). -/
def uncutAtKeyVertex (o : GeomOracle) (s : Complex) (targetKv : Id)
    (smoothJoin : Bool) : Complex × UncutAtKeyVertexResult :=
  let info := prepareUncutAtKeyVertex s targetKv
  if !info.isValid then (s, {})
  else
    match info.kf with
    | some kf =>
      -- Remove the Steiner cycle from the face.
      let s1 := s.modifyData kf (fun d =>
        match d with
        | .keyFace cycles fd => .keyFace (cycles.eraseIdx info.cycleIndex) fd
        | d => d)
      let s2 := removeFromBoundary s1 kf targetKv
      let s3 := hardDelete o s2 targetKv
      (s3, { success := true, resultKf := some kf })
    | none =>
      match info.khe1, info.khe2 with
      | some khe1, some khe2 =>
        if khe1.edge = khe2.edge then
          -- Transform the open loop edge into a closed edge.
          let oldKe := khe1.edge
          match s.parentOf oldKe, s.edgeDataOf oldKe with
          | some parentGroup, some oldData =>
            let newData := oldData.closeStroke smoothJoin
            let r := createKeyClosedEdge s newData parentGroup
              (nextSiblingOf s oldKe)
            let newKe := r.2
            let s1 := substituteEdge r.1 ⟨oldKe, true⟩ ⟨newKe, true⟩
            let s2 := (s1.starOf targetKv).foldl
              (fun t cell => removeFromBoundary t cell targetKv) s1
            let s3 := hardDelete o s2 oldKe
            let s4 := hardDelete o s3 targetKv
            (s4, { success := true, resultKe := some newKe,
                   removedKeId1 := some oldKe })
          | _, _ => (s, {})
        else
          -- Concatenate the two edges into one.
          match khe1.startVertexIn s, khe2.endVertexIn s,
              s.edgeDataOf khe1.edge, s.edgeDataOf khe2.edge with
          | some kv1, some kv2, some ked1, some ked2 =>
            let concatData :=
              ked1.fromConcatStep ked2 khe1.direction khe2.direction smoothJoin
            match findBottomMost s [khe1.edge, khe2.edge] with
            | none => (s, {})
            | some bottomMostEdge =>
              match s.parentOf bottomMostEdge with
              | none => (s, {})
              | some parentGroup =>
                let r := createKeyOpenEdge s kv1 kv2 concatData parentGroup
                  (some bottomMostEdge)
                let newKe := r.2
                let s1 := (r.1.starOf khe1.edge).foldl (fun t starCell =>
                  match t.dataOf starCell with
                  | some (.keyFace cycles fd) =>
                    let t1 := t.modifyData starCell (fun _ =>
                      .keyFace (cycles.map (fun c =>
                        match c with
                        | .steiner v => .steiner v
                        | .walk hs => .walk (hs.filterMap (fun h =>
                            if h.edge = khe1.edge then
                              some ⟨newKe, h.direction = khe1.direction⟩
                            else if h.edge = khe2.edge then none
                            else some h)))) fd)
                    let t2 := removeFromBoundary t1 starCell khe1.edge
                    let t3 := removeFromBoundary t2 starCell khe2.edge
                    let t4 := removeFromBoundary t3 starCell targetKv
                    addToBoundary t4 starCell newKe
                  | _ => t) r.1
                let s2 := hardDelete o s1 khe1.edge
                let s3 := hardDelete o s2 khe2.edge
                let s4 := hardDelete o s3 targetKv
                (s4, { success := true, resultKe := some newKe,
                       removedKeId1 := some khe1.edge,
                       removedKeId2 := some khe2.edge })
          | _, _, _, _ => (s, {})
      | _, _ => (s, {})

/-- `Operations::UncutAtKeyEdgeInfo_`: the two collected face-cycle slots. -/
structure UncutAtKeyEdgeInfo where
  kf1 : Option Id := none
  cycleIndex1 : Nat := 0
  componentIndex1 : Nat := 0
  kf2 : Option Id := none
  cycleIndex2 : Nat := 0
  componentIndex2 : Nat := 0
  isValid : Bool := false
deriving DecidableEq, Repr

/-- The slot scan of `prepareUncutAtKeyEdge_` (lines 3124-3161): collect up
to two face-cycle slots referencing the edge; a third aborts. -/
def scanUncutE (s : Complex) (ke : Id) :
    List Id → Option (Id × Nat × Nat) × Option (Id × Nat × Nat) →
    Option (Option (Id × Nat × Nat) × Option (Id × Nat × Nat))
  | [], acc => some acc
  | sc :: rest, acc =>
    match s.dataOf sc with
    | some (.keyFace cycles _) =>
      let step := cycles.foldl
        (fun (st : Option ((Option (Id × Nat × Nat) × Option (Id × Nat × Nat)) × Nat)) c =>
          match st with
          | none => none
          | some (a, ci) =>
            match c with
            | .steiner _ => some (a, ci + 1)
            | .walk hs =>
              let inner := hs.foldl
                (fun (st2 : Option ((Option (Id × Nat × Nat) ×
                    Option (Id × Nat × Nat)) × Nat)) h =>
                  match st2 with
                  | none => none
                  | some (a2, comp) =>
                    if h.edge = ke then
                      match a2.1 with
                      | none => some ((some (sc, ci, comp), a2.2), comp + 1)
                      | some _ =>
                        match a2.2 with
                        | none => some ((a2.1, some (sc, ci, comp)), comp + 1)
                        | some _ => none
                    else some (a2, comp + 1)) (some (a, 0))
              match inner with
              | none => none
              | some (a2, _) => some (a2, ci + 1)) (some (acc, 0))
      match step with
      | none => none
      | some (acc1, _) => scanUncutE s ke rest acc1
    | _ => scanUncutE s ke rest acc

/-- `Operations::prepareUncutAtKeyEdge_` (lines 3121-3167): valid iff the
edge is used in exactly two face-cycle-component slots across its star. -/
def prepareUncutAtKeyEdge (s : Complex) (ke : Id) : UncutAtKeyEdgeInfo :=
  match scanUncutE s ke (s.starOf ke) (none, none) with
  | none => {}
  | some (slot1, slot2) =>
    match slot1, slot2 with
    | some (kf1, ci1, co1), some (kf2, ci2, co2) =>
      { kf1 := some kf1, cycleIndex1 := ci1, componentIndex1 := co1,
        kf2 := some kf2, cycleIndex2 := ci2, componentIndex2 := co2,
        isValid := true }
    | s1, s2 =>
      { kf1 := s1.map (·.1), cycleIndex1 := ((s1.map (·.2.1)).getD 0),
        componentIndex1 := ((s1.map (·.2.2)).getD 0),
        kf2 := s2.map (·.1), cycleIndex2 := ((s2.map (·.2.1)).getD 0),
        componentIndex2 := ((s2.map (·.2.2)).getD 0) }

/-- `UncutAtKeyEdgeResult`. -/
structure UncutAtKeyEdgeResult where
  success : Bool := false
  resultKf : Option Id := none
  removedKfId1 : Option Id := none
  removedKfId2 : Option Id := none
deriving DecidableEq, Repr

/-- `Operations::uncutAtKeyEdge` (lines 2005-2256). -/
def uncutAtKeyEdge (o : GeomOracle) (s : Complex) (targetKe : Id) :
    Complex × UncutAtKeyEdgeResult :=
  let info := prepareUncutAtKeyEdge s targetKe
  if !info.isValid then (s, {})
  else
    match info.kf1, info.kf2 with
    | some kf1, some kf2 =>
      if s.isClosedEdge targetKe then
        if kf1 = kf2 then
          -- Closed edge used twice by the same face: drop its cycles.
          let s1 := s.modifyData kf1 (fun d =>
            match d with
            | .keyFace cycles fd =>
              .keyFace (cycles.filter (fun c =>
                match c with
                | .steiner _ => true
                | .walk hs => !((hs.headD default).edge = targetKe))) fd
            | d => d)
          let s2 := removeFromBoundary s1 kf1 targetKe
          let s3 := hardDelete o s2 targetKe
          (s3, { success := true, resultKf := some kf1 })
        else
          -- Closed edge used once by two faces: merge them.
          let newCycles :=
            ((s.cyclesOf kf1).filter (fun c =>
              match c with
              | .steiner _ => true
              | .walk hs => !((hs.headD default).edge = targetKe))) ++
            ((s.cyclesOf kf2).filter (fun c =>
              match c with
              | .steiner _ => true
              | .walk hs => !((hs.headD default).edge = targetKe)))
          match findBottomMost s [kf1, kf2] with
          | none => (s, {})
          | some bottomMostFace =>
            match s.parentOf bottomMostFace,
                s.dataOf kf1, s.dataOf kf2 with
            | some parentGroup, some (.keyFace _ fd1), some (.keyFace _ fd2) =>
              let r := createKeyFace s newCycles (fd1.concatStep fd2)
                parentGroup (some bottomMostFace)
              let s1 := hardDelete o r.1 kf1
              let s2 := hardDelete o s1 kf2
              let s3 := hardDelete o s2 targetKe
              (s3, { success := true, resultKf := some r.2,
                     removedKfId1 := some kf1, removedKfId2 := some kf2 })
            | _, _, _ => (s, {})
      else
        if kf1 = kf2 then
          if info.cycleIndex1 = info.cycleIndex2 then
            -- Same cycle: split it in two, or splice it into a Möbius cycle.
            let cycle := (s.cyclesOf kf1).getD info.cycleIndex1 (.walk [])
            let i1 := info.componentIndex1
            let i2 := info.componentIndex2
            let p1 := subPath s cycle (i1 + 1) i2
            let p2 := subPath s cycle (i2 + 1) i1
            let d1 := (cycle.halfedges.getD i1 default).direction
            let d2 := (cycle.halfedges.getD i2 default).direction
            let newCycles :=
              if d1 = d2 then [(p1.extendReversed p2).toCycle]
              else [p1.toCycle, p2.toCycle]
            let s1 := s.modifyData kf1 (fun d =>
              match d with
              | .keyFace cycles fd =>
                .keyFace ((cycles ++ newCycles).eraseIdx info.cycleIndex1) fd
              | d => d)
            let s2 := removeFromBoundary s1 kf1 targetKe
            let s3 := hardDelete o s2 targetKe
            (s3, { success := true, resultKf := some kf1 })
          else
            -- Two cycles of the same face: splice them into one.
            let cycle1 := (s.cyclesOf kf1).getD info.cycleIndex1 (.walk [])
            let cycle2 := (s.cyclesOf kf1).getD info.cycleIndex2 (.walk [])
            let i1 := info.componentIndex1
            let i2 := info.componentIndex2
            let p1 := subPath s cycle1 (i1 + 1) i1
            let p2 := subPath s cycle2 (i2 + 1) i2
            let d1 := (cycle1.halfedges.getD i1 default).direction
            let d2 := (cycle2.halfedges.getD i2 default).direction
            let newCycle :=
              if d1 = d2 then (p1.extendReversed p2).toCycle
              else (p1.extend p2).toCycle
            let lo := min info.cycleIndex1 info.cycleIndex2
            let hi := max info.cycleIndex1 info.cycleIndex2
            let s1 := s.modifyData kf1 (fun d =>
              match d with
              | .keyFace cycles fd =>
                .keyFace (((cycles ++ [newCycle]).eraseIdx hi).eraseIdx lo) fd
              | d => d)
            let s2 := removeFromBoundary s1 kf1 targetKe
            let s3 := hardDelete o s2 targetKe
            (s3, { success := true, resultKf := some kf1 })
        else
          -- Two different faces: merge them into one.
          let cycle1 := (s.cyclesOf kf1).getD info.cycleIndex1 (.walk [])
          let cycle2 := (s.cyclesOf kf2).getD info.cycleIndex2 (.walk [])
          let i1 := info.componentIndex1
          let i2 := info.componentIndex2
          let p1 := subPath s cycle1 (i1 + 1) i1
          let p2 := subPath s cycle2 (i2 + 1) i2
          let d1 := (cycle1.halfedges.getD i1 default).direction
          let d2 := (cycle2.halfedges.getD i2 default).direction
          let newCycle :=
            if d1 = d2 then (p1.extendReversed p2).toCycle
            else (p1.extend p2).toCycle
          let newCycles :=
            ((List.range (s.cyclesOf kf1).length).filterMap (fun j =>
              if j ≠ info.cycleIndex1 then some ((s.cyclesOf kf1).getD j (.walk []))
              else none)) ++
            ((List.range (s.cyclesOf kf2).length).filterMap (fun j =>
              if j ≠ info.cycleIndex2 then some ((s.cyclesOf kf2).getD j (.walk []))
              else none)) ++ [newCycle]
          match findBottomMost s [kf1, kf2] with
          | none => (s, {})
          | some bottomMostFace =>
            match s.parentOf bottomMostFace, s.dataOf kf1, s.dataOf kf2 with
            | some parentGroup, some (.keyFace _ fd1), some (.keyFace _ fd2) =>
              let r := createKeyFace s newCycles (fd1.concatStep fd2)
                parentGroup (some bottomMostFace)
              let s1 := hardDelete o r.1 kf1
              let s2 := hardDelete o s1 kf2
              let s3 := hardDelete o s2 targetKe
              (s3, { success := true, resultKf := some r.2,
                     removedKfId1 := some kf1, removedKfId2 := some kf2 })
            | _, _, _ => (s, {})
    | _, _ => (s, {})

end Operations

/-! ## Claim C2: diff atomicity of nested `Operations` scopes -/

/-- C2: for every outermost `Operations` scope on a complex (with arbitrary
nesting inside), exactly one `ComplexDiff` is emitted via `nodesChanged()`,
at destruction of the outermost scope, and `version()` is incremented by
exactly one, regardless of nesting depth. -/
theorem claim_C2 (body : ScopeModel.ScopeBody) (s : ScopeModel.S)
    (h : s.numOperationsInProgress = 0) :
    (ScopeModel.ScopeItem.run (.scope body) s).emitted = s.emitted + 1 ∧
    (ScopeModel.ScopeItem.run (.scope body) s).version = s.version + 1 ∧
    (ScopeModel.ScopeItem.run (.scope body) s).numOperationsInProgress = 0 := by
  unfold ScopeModel.ScopeItem.run
  have h1 : (ScopeModel.enter s).numOperationsInProgress =
      s.numOperationsInProgress + 1 := rfl
  rw [ScopeModel.ScopeBody.run_inner_body body _ (by rw [h1, h])]
  unfold ScopeModel.leave ScopeModel.enter
  simp [h]

/-- Witness for C2 at a concrete doubly-nested scope. -/
theorem claim_C2_witness :
    (ScopeModel.ScopeItem.run
        (.scope (.cons (.scope (.cons .call .nil)) (.cons .call .nil)))
        ⟨0, 5, 7⟩).emitted = 8 ∧
    (ScopeModel.ScopeItem.run
        (.scope (.cons (.scope (.cons .call .nil)) (.cons .call .nil)))
        ⟨0, 5, 7⟩).version = 6 ∧
    (ScopeModel.ScopeItem.run
        (.scope (.cons (.scope (.cons .call .nil)) (.cons .call .nil)))
        ⟨0, 5, 7⟩).numOperationsInProgress = 0 :=
  claim_C2 (.cons (.scope (.cons .call .nil)) (.cons .call .nil)) ⟨0, 5, 7⟩ rfl

/-! ## Claim C8: the destructor's geometry recomputation order -/

/-- C8 as stated is false: the destructor sorts the flagged cells by the
`CellType` enumerator value, and the enumerator order places every inbetween
cell after every key cell, so an inbetween vertex (dimension 0) is
recomputed after a key face (dimension 2).  Concrete counterexample: a diff
containing a flagged inbetween vertex and a flagged key face. -/
theorem claim_C8_counterexample :
    GeometryPass.updateOrder
        [⟨1, some .inbetweenVertex, true⟩, ⟨2, some .keyFace, true⟩] =
      [(2, .keyFace), (1, .inbetweenVertex)] ∧
    ¬ List.Pairwise (fun a b : Id × CellType => a.2.dim ≤ b.2.dim)
      (GeometryPass.updateOrder
        [⟨1, some .inbetweenVertex, true⟩, ⟨2, some .keyFace, true⟩]) := by
  constructor
  · decide
  · decide

/-- C8 amended: when the outermost scope is destroyed, exactly the cells
flagged `BoundaryGeometryChanged` have their geometry recomputed
(`updateGeometryFromBoundary`), in order of increasing `CellType` enumerator
value; this places key vertices before key edges before key faces (and
inbetween cells in dimension order among themselves), but all inbetween
cells after all key cells. -/
theorem claim_C8 (infos : List GeometryPass.ModifiedNodeInfo) :
    (GeometryPass.updateOrder infos).Perm (GeometryPass.flaggedCells infos) ∧
    List.Pairwise GeometryPass.ctLe (GeometryPass.updateOrder infos) ∧
    List.Pairwise (fun a b : Id × CellType =>
      a.2.val ≤ 2 → b.2.val ≤ 2 → a.2.dim ≤ b.2.dim)
      (GeometryPass.updateOrder infos) := by
  haveI : IsTotal (Id × CellType) GeometryPass.ctLe :=
    ⟨fun a b => Nat.le_total _ _⟩
  haveI : IsTrans (Id × CellType) GeometryPass.ctLe :=
    ⟨fun _ _ _ => Nat.le_trans⟩
  have hsorted := List.sorted_insertionSort GeometryPass.ctLe
    (GeometryPass.flaggedCells infos)
  refine ⟨List.perm_insertionSort _ _, hsorted, ?_⟩
  refine hsorted.imp ?_
  intro a b hle h2a h2b
  have hva : a.2.dim = a.2.val := by
    cases ha : a.2 <;> simp [CellType.dim, CellType.val] <;>
      rw [ha] at h2a <;> simp [CellType.val] at h2a
  have hvb : b.2.dim = b.2.val := by
    cases hb : b.2 <;> simp [CellType.dim, CellType.val] <;>
      rw [hb] at h2b <;> simp [CellType.val] at h2b
  rw [hva, hvb]
  exact hle

/-! ## Claim C10: `glueKeyVertices` on a constant span -/

/-- A concrete oracle for witnesses (every theorem holds for every oracle). -/
def oracle0 : Operations.GeomOracle :=
  ⟨fun _ _ => false, fun _ _ => false, fun _ _ _ => true⟩

/-- C10: `glueKeyVertices(kvs, position)` on a non-empty span whose entries
are all the same vertex creates no vertex and deletes none: it just sets
that vertex's position and returns it (the final state is exactly
`setKeyVertexPosition`, so the node-map keys are unchanged and every other
node is untouched); on an empty span it returns `nullptr` and changes
nothing. -/
theorem claim_C10 (o : Operations.GeomOracle) (s : Complex) (pos : Vec2) :
    (Operations.glueKeyVertices o s [] pos = (s, none)) ∧
    (∀ kv0 rest, (∀ kv ∈ rest, kv = kv0) →
      Operations.glueKeyVertices o s (kv0 :: rest) pos =
        (Operations.setKeyVertexPosition s kv0 pos, some kv0) ∧
      (Operations.glueKeyVertices o s (kv0 :: rest) pos).1.nodes.map Prod.fst =
        s.nodes.map Prod.fst ∧
      (∀ j, j ≠ kv0 →
        (Operations.glueKeyVertices o s (kv0 :: rest) pos).1.find? j = s.find? j) ∧
      (∀ d, s.dataOf kv0 = some (.keyVertex d) →
        (Operations.glueKeyVertices o s (kv0 :: rest) pos).1.dataOf kv0 =
          some (.keyVertex pos))) := by
  constructor
  · rfl
  · intro kv0 rest h
    have hdiff : rest.any (fun kv => kv ≠ kv0) = false := by
      rw [List.any_eq_false]
      intro x hx
      simp [h x hx]
    have hglue : Operations.glueKeyVertices o s (kv0 :: rest) pos =
        (Operations.setKeyVertexPosition s kv0 pos, some kv0) := by
      simp only [Operations.glueKeyVertices, hdiff]
      rfl
    refine ⟨hglue, ?_, ?_, ?_⟩
    · rw [hglue]
      exact Complex.nodes_map_fst_modifyNode s kv0 _
    · intro j hj
      rw [hglue]
      show (s.modifyNode kv0 _).find? j = s.find? j
      rw [Complex.find?_modifyNode]
      exact if_neg hj
    · intro d hd
      rw [hglue]
      show ((s.modifyNode kv0 _).find? kv0).map Node.data = _
      rw [Complex.find?_modifyNode, if_pos rfl]
      unfold Complex.dataOf at hd
      cases hf : s.find? kv0 with
      | none => rw [hf] at hd; exact absurd hd (by simp)
      | some n =>
        rw [hf] at hd
        have : n.data = .keyVertex d := by simpa using hd
        simp [this]

/-! ### Structural characterizations of the kernel primitives -/

/-- The ids a node's payload refers to: the end vertices of an edge, the
Steiner vertices and edges of a face's cycles. -/
def KeyCycle.refs : KeyCycle → List Id
  | .steiner v => [v]
  | .walk hs => hs.map (·.edge)

/-- The ids referenced by a payload. -/
def NodeData.refs : NodeData → List Id
  | .keyEdge sv ev _ => sv.toList ++ ev.toList
  | .keyFace cycles _ => cycles.flatMap KeyCycle.refs
  | _ => []

namespace Operations

open Complex

theorem addToBoundary_node_mem (s : Complex) (a b : Id) :
    ∀ p' ∈ (addToBoundary s a b).nodes, ∃ p ∈ s.nodes, p'.1 = p.1 ∧
      (p'.2.boundary = p.2.boundary ∨ p'.2.boundary = p.2.boundary ++ [b]) ∧
      (p'.2.star = p.2.star ∨ p'.2.star = p.2.star ++ [a]) ∧
      p'.2.data = p.2.data ∧ p'.2.children = p.2.children := by
  intro p' hp'
  unfold addToBoundary at hp'
  rcases hfa : s.find? a with _ | na <;> simp only [hfa] at hp'
  · exact ⟨p', hp', rfl, Or.inl rfl, Or.inl rfl, rfl, rfl⟩
  rcases hfb : s.find? b with _ | nb <;> simp only [hfb] at hp'
  · exact ⟨p', hp', rfl, Or.inl rfl, Or.inl rfl, rfl, rfl⟩
  by_cases hcon : na.boundary.contains b
  · simp only [hcon, if_true] at hp'
    exact ⟨p', hp', rfl, Or.inl rfl, Or.inl rfl, rfl, rfl⟩
  · simp only [hcon, if_false, Bool.false_eq_true] at hp'
    obtain ⟨q, hq, rfl⟩ := List.mem_map.1 hp'
    obtain ⟨p, hp, rfl⟩ := List.mem_map.1 hq
    by_cases hpa : p.1 = a <;> by_cases hpb : p.1 = b
    · have hab : a = b := hpa.symm.trans hpb
      subst hab
      exact ⟨p, hp, by simp [hpa], by simp [hpa], by simp [hpa], by simp [hpa],
        by simp [hpa]⟩
    · have hab : ¬ a = b := by rw [← hpa]; exact hpb
      exact ⟨p, hp, by simp [hpa, hpb, hab], by simp [hpa, hpb, hab],
        by simp [hpa, hpb, hab], by simp [hpa, hpb, hab], by simp [hpa, hpb, hab]⟩
    · have hba : ¬ b = a := by rw [← hpb]; exact fun hc => hpa hc
      exact ⟨p, hp, by simp [hpa, hpb, hba], by simp [hpa, hpb, hba],
        by simp [hpa, hpb, hba], by simp [hpa, hpb, hba], by simp [hpa, hpb, hba]⟩
    · exact ⟨p, hp, by simp [hpa, hpb], by simp [hpa, hpb], by simp [hpa, hpb],
        by simp [hpa, hpb], by simp [hpa, hpb]⟩

theorem removeFromBoundary_node_mem (s : Complex) (a b : Id) :
    ∀ p' ∈ (removeFromBoundary s a b).nodes, ∃ p ∈ s.nodes, p'.1 = p.1 ∧
      (p'.2.boundary = p.2.boundary ∨ p'.2.boundary = p.2.boundary.erase b) ∧
      (p'.2.star = p.2.star ∨ p'.2.star = p.2.star.erase a) ∧
      p'.2.data = p.2.data ∧ p'.2.children = p.2.children := by
  intro p' hp'
  unfold removeFromBoundary at hp'
  rcases hfa : s.find? a with _ | na <;> simp only [hfa] at hp'
  · exact ⟨p', hp', rfl, Or.inl rfl, Or.inl rfl, rfl, rfl⟩
  rcases hfb : s.find? b with _ | nb <;> simp only [hfb] at hp'
  · exact ⟨p', hp', rfl, Or.inl rfl, Or.inl rfl, rfl, rfl⟩
  by_cases hcon : na.boundary.contains b
  · simp only [hcon, if_true] at hp'
    obtain ⟨q, hq, rfl⟩ := List.mem_map.1 hp'
    obtain ⟨p, hp, rfl⟩ := List.mem_map.1 hq
    by_cases hpa : p.1 = a <;> by_cases hpb : p.1 = b
    · have hab : a = b := hpa.symm.trans hpb
      subst hab
      exact ⟨p, hp, by simp [hpa], by simp [hpa], by simp [hpa], by simp [hpa],
        by simp [hpa]⟩
    · have hab : ¬ a = b := by rw [← hpa]; exact hpb
      exact ⟨p, hp, by simp [hpa, hpb, hab], by simp [hpa, hpb, hab],
        by simp [hpa, hpb, hab], by simp [hpa, hpb, hab], by simp [hpa, hpb, hab]⟩
    · have hba : ¬ b = a := by rw [← hpb]; exact fun hc => hpa hc
      exact ⟨p, hp, by simp [hpa, hpb, hba], by simp [hpa, hpb, hba],
        by simp [hpa, hpb, hba], by simp [hpa, hpb, hba], by simp [hpa, hpb, hba]⟩
    · exact ⟨p, hp, by simp [hpa, hpb], by simp [hpa, hpb], by simp [hpa, hpb],
        by simp [hpa, hpb], by simp [hpa, hpb]⟩
  · simp only [hcon, if_false, Bool.false_eq_true] at hp'
    exact ⟨p', hp', rfl, Or.inl rfl, Or.inl rfl, rfl, rfl⟩

theorem modifyNode_node_mem (s : Complex) (i : Id) (f : Node → Node) :
    ∀ p' ∈ (s.modifyNode i f).nodes, ∃ p ∈ s.nodes, p'.1 = p.1 ∧
      (p'.2 = p.2 ∨ (p.1 = i ∧ p'.2 = f p.2)) := by
  intro p' hp'
  obtain ⟨p, hp, rfl⟩ := List.mem_map.1 hp'
  by_cases hpi : p.1 = i
  · exact ⟨p, hp, by simp [hpi], Or.inr ⟨hpi, by simp [hpi]⟩⟩
  · exact ⟨p, hp, by simp [hpi], Or.inl (by simp [hpi])⟩

theorem eraseNodes_node_mem (s : Complex) (ids : List Id) :
    ∀ p ∈ (s.eraseNodes ids).nodes, p ∈ s.nodes ∧ p.1 ∉ ids := by
  intro p hp
  have h2 := List.mem_filter.1 hp
  refine ⟨h2.1, fun hd => ?_⟩
  have h3 := h2.2
  rw [Bool.not_eq_true'] at h3
  exact (by simpa [List.elem_iff] using h3 : p.1 ∉ ids) hd

/-! ### Root preservation (claim C9) -/

/-- "The id `r` is referenced by no incidence array and no payload": the
invariant protecting the root group across `delete_`. -/
def NoRefTo (r : Id) (s : Complex) : Prop :=
  ∀ p ∈ s.nodes, r ∉ p.2.boundary ∧ r ∉ p.2.data.refs

theorem noRefTo_addToBoundary {r : Id} {s : Complex} {a b : Id} (hb : b ≠ r)
    (h : NoRefTo r s) : NoRefTo r (addToBoundary s a b) := by
  intro p' hp'
  obtain ⟨p, hp, _, hbd, _, hdata, _⟩ := addToBoundary_node_mem s a b p' hp'
  obtain ⟨h1, h2⟩ := h p hp
  refine ⟨?_, hdata ▸ h2⟩
  rcases hbd with hbd | hbd <;> rw [hbd]
  · exact h1
  · intro hc
    rcases List.mem_append.1 hc with hc | hc
    · exact h1 hc
    · rw [List.mem_singleton] at hc
      exact hb hc.symm

theorem noRefTo_removeFromBoundary {r : Id} {s : Complex} {a b : Id}
    (h : NoRefTo r s) : NoRefTo r (removeFromBoundary s a b) := by
  intro p' hp'
  obtain ⟨p, hp, _, hbd, _, hdata, _⟩ := removeFromBoundary_node_mem s a b p' hp'
  obtain ⟨h1, h2⟩ := h p hp
  refine ⟨?_, hdata ▸ h2⟩
  rcases hbd with hbd | hbd <;> rw [hbd]
  · exact h1
  · exact fun hc => h1 (List.mem_of_mem_erase hc)

theorem noRefTo_modifyData {r : Id} {s : Complex} {i : Id}
    {f : NodeData → NodeData} (hf : ∀ d, r ∉ d.refs → r ∉ (f d).refs)
    (h : NoRefTo r s) : NoRefTo r (s.modifyData i f) := by
  intro p' hp'
  obtain ⟨p, hp, _, hcase⟩ := modifyNode_node_mem s i _ p' hp'
  obtain ⟨h1, h2⟩ := h p hp
  rcases hcase with hcase | ⟨_, hcase⟩ <;> rw [hcase]
  · exact ⟨h1, h2⟩
  · exact ⟨h1, hf _ h2⟩

theorem noRefTo_starEraseRaw {r : Id} {s : Complex} {b c : Id}
    (h : NoRefTo r s) : NoRefTo r (starEraseRaw s b c) := by
  intro p' hp'
  obtain ⟨p, hp, _, hcase⟩ := modifyNode_node_mem s b _ p' hp'
  obtain ⟨h1, h2⟩ := h p hp
  rcases hcase with hcase | ⟨_, hcase⟩ <;> rw [hcase] <;> exact ⟨h1, h2⟩

theorem noRefTo_starClearRaw {r : Id} {s : Complex} {c : Id}
    (h : NoRefTo r s) : NoRefTo r (starClearRaw s c) := by
  intro p' hp'
  obtain ⟨p, hp, _, hcase⟩ := modifyNode_node_mem s c _ p' hp'
  obtain ⟨h1, h2⟩ := h p hp
  rcases hcase with hcase | ⟨_, hcase⟩ <;> rw [hcase] <;> exact ⟨h1, h2⟩

theorem noRefTo_detachChild {r : Id} {s : Complex} {c : Id}
    (h : NoRefTo r s) : NoRefTo r (detachChild s c) := by
  unfold detachChild
  cases s.parentOf c with
  | none => exact h
  | some p =>
    intro p' hp'
    obtain ⟨q, hq, _, hcase⟩ := modifyNode_node_mem s p _ p' hp'
    obtain ⟨h1, h2⟩ := h q hq
    rcases hcase with hcase | ⟨_, hcase⟩ <;> rw [hcase] <;> exact ⟨h1, h2⟩

/-- The payload of `r` survives `modifyNode` on any target whenever the
rewriting function fixes it. -/
theorem dataOf_modifyNode_of_fix {s : Complex} {i r : Id} {f : Node → Node}
    (hf : ∀ n, n.data = .group → (f n).data = .group)
    (h : s.dataOf r = some .group) : (s.modifyNode i f).dataOf r = some .group := by
  unfold Complex.dataOf at h ⊢
  rw [Complex.find?_modifyNode]
  by_cases hri : r = i
  · subst hri
    rw [if_pos rfl]
    cases hfr : s.find? r with
    | none => rw [hfr] at h; exact absurd h (by simp)
    | some n =>
      rw [hfr] at h
      have hn : n.data = .group := by simpa using h
      simp [hf n hn]
  · rw [if_neg hri]
    exact h

theorem groupData_addToBoundary {r : Id} {s : Complex} {a b : Id}
    (h : s.dataOf r = some .group) :
    (addToBoundary s a b).dataOf r = some .group := by
  unfold addToBoundary
  rcases s.find? a with _ | na
  · exact h
  rcases s.find? b with _ | nb
  · exact h
  dsimp only
  by_cases hcon : na.boundary.contains b
  · rw [if_pos hcon]; exact h
  · rw [if_neg hcon]
    exact dataOf_modifyNode_of_fix (fun n hn => hn)
      (dataOf_modifyNode_of_fix (fun n hn => hn) h)

theorem groupData_removeFromBoundary {r : Id} {s : Complex} {a b : Id}
    (h : s.dataOf r = some .group) :
    (removeFromBoundary s a b).dataOf r = some .group := by
  unfold removeFromBoundary
  rcases s.find? a with _ | na
  · exact h
  rcases s.find? b with _ | nb
  · exact h
  dsimp only
  by_cases hcon : na.boundary.contains b
  · rw [if_pos hcon]
    exact dataOf_modifyNode_of_fix (fun n hn => hn)
      (dataOf_modifyNode_of_fix (fun n hn => hn) h)
  · rw [if_neg hcon]; exact h

end Operations

namespace Operations

open Complex

/-- Both root-protection facts bundled: the root group is referenced
nowhere, and its payload is (still) `Group`. -/
structure RootSafe (r : Id) (t : Complex) : Prop where
  noref : NoRefTo r t
  groupData : t.dataOf r = some .group

theorem RootSafe.addToBoundary {r : Id} {t : Complex} {a b : Id} (hb : b ≠ r)
    (h : RootSafe r t) : RootSafe r (addToBoundary t a b) :=
  ⟨noRefTo_addToBoundary hb h.noref, groupData_addToBoundary h.groupData⟩

theorem RootSafe.removeFromBoundary {r : Id} {t : Complex} {a b : Id}
    (h : RootSafe r t) : RootSafe r (removeFromBoundary t a b) :=
  ⟨noRefTo_removeFromBoundary h.noref, groupData_removeFromBoundary h.groupData⟩

theorem RootSafe.starEraseRaw {r : Id} {t : Complex} {b c : Id}
    (h : RootSafe r t) : RootSafe r (starEraseRaw t b c) :=
  ⟨noRefTo_starEraseRaw h.noref,
    dataOf_modifyNode_of_fix (fun _ hn => hn) h.groupData⟩

theorem RootSafe.starClearRaw {r : Id} {t : Complex} {c : Id}
    (h : RootSafe r t) : RootSafe r (starClearRaw t c) :=
  ⟨noRefTo_starClearRaw h.noref,
    dataOf_modifyNode_of_fix (fun _ hn => hn) h.groupData⟩

theorem RootSafe.modifyData {r : Id} {t : Complex} {i : Id}
    {f : NodeData → NodeData} (hf : ∀ d, r ∉ d.refs → r ∉ (f d).refs)
    (hg : f .group = .group) (h : RootSafe r t) :
    RootSafe r (t.modifyData i f) :=
  ⟨noRefTo_modifyData hf h.noref,
    dataOf_modifyNode_of_fix (fun n hn => by simp [hn, hg]) h.groupData⟩

/-- Neither end vertex of an edge is the unreferenced id `r`. -/
theorem edge_vertex_ne_root {r : Id} {t : Complex} (h : NoRefTo r t) (e : Id) :
    t.startVertexOf e ≠ some r ∧ t.endVertexOf e ≠ some r := by
  unfold Complex.startVertexOf Complex.endVertexOf Complex.dataOf
  cases hfe : t.find? e with
  | none => exact ⟨by simp, by simp⟩
  | some n =>
    have h2 := (h _ (Complex.find?_mem hfe)).2
    cases hd : n.data <;> simp only [Option.map_some', hd]
    case keyEdge sv ev ed =>
      rw [hd] at h2
      simp only [NodeData.refs, List.mem_append] at h2
      push_neg at h2
      constructor <;> intro hc
      · exact h2.1 (by rw [hc]; simp)
      · exact h2.2 (by rw [hc]; simp)
    all_goals exact ⟨by simp, by simp⟩

/-- The end vertex of a halfedge is never the unreferenced id `r`. -/
theorem khe_endVertexIn_ne_root {r : Id} {t : Complex} (h : NoRefTo r t)
    (k : KeyHalfedge) : k.endVertexIn t ≠ some r := by
  unfold KeyHalfedge.endVertexIn
  split
  · exact (edge_vertex_ne_root h _).2
  · exact (edge_vertex_ne_root h _).1

/-- The unreferenced id `r` is not among the boundary cells contributed by a
cycle whose refs avoid it. -/
theorem root_not_mem_boundaryCells {r : Id} {t : Complex} (h : NoRefTo r t)
    {c : KeyCycle} (hc : r ∉ c.refs) : r ∉ KeyCycle.boundaryCells t c := by
  unfold KeyCycle.boundaryCells
  cases c with
  | steiner v =>
    simp only [KeyCycle.steinerVertex]
    intro hm
    rw [List.mem_singleton] at hm
    exact hc (by simp [KeyCycle.refs, hm])
  | walk hs =>
    simp only [KeyCycle.steinerVertex]
    cases hs with
    | nil => simp [KeyCycle.halfedges]
    | cons h0 rest =>
      simp only [KeyCycle.halfedges]
      split
      · intro hm
        rw [List.mem_singleton] at hm
        exact hc (by simp [KeyCycle.refs, hm])
      · intro hm
        rw [List.mem_flatMap] at hm
        obtain ⟨k, hk, hmm⟩ := hm
        rcases List.mem_cons.1 hmm with hmm | hmm
        · exact hc (by
            simp only [KeyCycle.refs]
            exact List.mem_map.2 ⟨k, hk, hmm.symm⟩)
        · have : k.endVertexIn t = some r := by
            cases he : k.endVertexIn t <;> rw [he] at hmm <;> simp at hmm
            rw [hmm]
          exact khe_endVertexIn_ne_root h k this

theorem RootSafe.addCycleToBoundary {r : Id} {t : Complex} {kf : Id}
    {c : KeyCycle} (hc : r ∉ c.refs) (h : RootSafe r t) :
    RootSafe r (addCycleToBoundary t kf c) := by
  unfold Operations.addCycleToBoundary
  have hcells := root_not_mem_boundaryCells h.noref hc
  generalize hl : KeyCycle.boundaryCells t c = l at hcells
  clear hl
  induction l generalizing t with
  | nil => exact h
  | cons x xs ih =>
    have hx : x ≠ r := fun he => hcells (he ▸ List.mem_cons_self _ _)
    exact ih (h.addToBoundary hx) (fun hm => hcells (List.mem_cons_of_mem _ hm))

/-! ### Generic fold lemmas -/

/-- A property preserved by every step of a fold is preserved by the fold. -/
theorem foldl_preserve {α β : Type _} {f : α → β → α} {P : α → Prop}
    {l : List β} (hf : ∀ a, ∀ b ∈ l, P a → P (f a b)) :
    ∀ a, P a → P (l.foldl f a) := by
  induction l with
  | nil => exact fun a h => h
  | cons x xs ih =>
    intro a h
    exact ih (fun a b hb => hf a b (List.mem_cons_of_mem _ hb)) _
      (hf a x (List.mem_cons_self _ _) h)

/-- A property established by the step at some list element and preserved by
every later step holds of the fold. -/
theorem foldl_reach {α β : Type _} {f : α → β → α} {P : α → Prop}
    {l : List β} {x : β} (hx : x ∈ l) (hstart : ∀ a, P (f a x))
    (hkeep : ∀ a b, P a → P (f a b)) : ∀ a, P (l.foldl f a) := by
  induction l with
  | nil => cases hx
  | cons y ys ih =>
    intro a
    rcases List.mem_cons.1 hx with hx | hx
    · subst hx
      rw [List.foldl_cons]
      exact foldl_preserve (fun a b _ => hkeep a b) _ (hstart a)
    · exact ih hx _

theorem mem_insertNew {l : List Id} {x y : Id} :
    y ∈ insertNew l x ↔ y ∈ l ∨ y = x := by
  unfold insertNew
  by_cases hx : x ∈ l
  · rw [if_pos hx]
    constructor
    · exact Or.inl
    · rintro (h | rfl)
      · exact h
      · exact hx
  · rw [if_neg hx]
    simp [List.mem_append]

theorem mem_foldl_insertNew (l : List Id) (acc : List Id) (y : Id) :
    y ∈ l.foldl insertNew acc ↔ y ∈ acc ∨ y ∈ l := by
  induction l generalizing acc with
  | nil => simp
  | cons x xs ih =>
    rw [List.foldl_cons, ih, mem_insertNew]
    constructor
    · rintro ((h | rfl) | h)
      · exact Or.inl h
      · exact Or.inr (List.mem_cons_self _ _)
      · exact Or.inr (List.mem_cons_of_mem _ h)
    · rintro (h | h)
      · exact Or.inl (Or.inl h)
      · rcases List.mem_cons.1 h with rfl | h
        · exact Or.inl (Or.inr rfl)
        · exact Or.inr h

/-- Every descendant is a member of some node's child list. -/
theorem descendantsAux_mem_children {s : Complex} :
    ∀ {fuel : Nat} {i x : Id}, x ∈ descendantsAux s fuel i →
      ∃ p ∈ s.nodes, x ∈ p.2.children := by
  intro fuel
  induction fuel with
  | zero => intro i x hx; cases hx
  | succ n ih =>
    intro i x hx
    rw [descendantsAux] at hx
    rw [List.mem_flatMap] at hx
    obtain ⟨c, hc, hx⟩ := hx
    have hnode : ∃ p ∈ s.nodes, c ∈ p.2.children := by
      unfold Complex.childrenOf at hc
      cases hfi : s.find? i with
      | none => rw [hfi] at hc; simp at hc
      | some nd =>
        rw [hfi] at hc
        simp only [Option.map_some', Option.getD_some] at hc
        exact ⟨(i, nd), Complex.find?_mem hfi, hc⟩
    rcases List.mem_cons.1 hx with rfl | hx
    · exact hnode
    · exact ih hx

/-- An id in no child list is nobody's proper descendant. -/
theorem not_mem_properDescendants {s : Complex} {r : Id}
    (hnc : ∀ p ∈ s.nodes, r ∉ p.2.children) (i : Id) :
    r ∉ properDescendants s i := by
  intro hr
  obtain ⟨p, hp, hrc⟩ := descendantsAux_mem_children hr
  exact hnc p hp hrc

/-- Two ids with incompatible payloads are distinct. -/
theorem ne_of_dataOf_ne {s : Complex} {r sc : Id} {d : NodeData}
    (hr : s.dataOf r = some .group) (hdat : s.dataOf sc = some d)
    (hd : d ≠ .group) : sc ≠ r := by
  intro h
  subst h
  have hgd : NodeData.group = d := by simpa using hr.symm.trans hdat
  exact hd hgd.symm

/-- The unreferenced id `r` is in no boundary array. -/
theorem noRefTo_boundaryOf {r : Id} {s : Complex} (h : NoRefTo r s) (c : Id) :
    r ∉ s.boundaryOf c := by
  unfold Complex.boundaryOf
  cases hfc : s.find? c with
  | none => simp
  | some n =>
    simp only [Option.map_some', Option.getD_some]
    exact (h _ (Complex.find?_mem hfc)).1

/-- The unreferenced id `r` is mentioned by no face cycle. -/
theorem noRefTo_cyclesOf {r : Id} {s : Complex} (h : NoRefTo r s) (kf : Id) :
    ∀ c ∈ s.cyclesOf kf, r ∉ c.refs := by
  intro c hc hr
  unfold Complex.cyclesOf Complex.dataOf at hc
  cases hfind : s.find? kf with
  | none => rw [hfind] at hc; simp at hc
  | some n =>
    rw [hfind] at hc
    have h2 := (h _ (Complex.find?_mem hfind)).2
    cases hnd : n.data <;> simp only [Option.map_some', hnd] at hc <;>
      try exact absurd hc (List.not_mem_nil c)
    case keyFace cs fd =>
      rw [hnd] at h2
      simp only [NodeData.refs, List.mem_flatMap] at h2
      push_neg at h2
      exact h2 c hc hr

theorem insertNew_keep_and_avoid {acc descendants : List Id} {r sc : Id}
    (hsub : descendants ⊆ acc) (h1 : r ∉ acc) (hne : sc ≠ r) :
    descendants ⊆ insertNew acc sc ∧ r ∉ insertNew acc sc := by
  refine ⟨fun x hx => mem_insertNew.2 (Or.inl (hsub hx)), fun hmem => ?_⟩
  rcases mem_insertNew.1 hmem with hmem | hrr
  · exact h1 hmem
  · exact hne hrr.symm

/-- Phase 1 of `delete_` keeps the initial doomed set, and never dooms or
collects (as a star face) a group node such as the root. -/
theorem collectStar_spec {s : Complex} {r : Id} {descendants : List Id}
    (hr : s.dataOf r = some .group) (hd : r ∉ descendants) :
    descendants ⊆ (collectStar s descendants).1 ∧
    r ∉ (collectStar s descendants).1 ∧ r ∉ (collectStar s descendants).2 := by
  unfold collectStar
  refine foldl_preserve (P := fun acc : List Id × List Id =>
      descendants ⊆ acc.1 ∧ r ∉ acc.1 ∧ r ∉ acc.2) ?_ (descendants, [])
    ⟨fun x hx => hx, hd, List.not_mem_nil r⟩
  intro acc d _ hP
  split
  · refine foldl_preserve (P := fun acc : List Id × List Id =>
        descendants ⊆ acc.1 ∧ r ∉ acc.1 ∧ r ∉ acc.2) ?_ acc hP
    intro acc2 sc _ hP2
    obtain ⟨hsub, h1, h2⟩ := hP2
    rcases hdat : s.dataOf sc with _ | dsc
    · simpa only [hdat] using ⟨hsub, h1, h2⟩
    cases dsc
    case group => simpa only [hdat] using ⟨hsub, h1, h2⟩
    case keyFace cs fd =>
      have hne : sc ≠ r := ne_of_dataOf_ne hr hdat (by simp)
      have h2' : r ∉ insertNew acc2.2 sc := fun hmem =>
        (mem_insertNew.1 hmem).elim h2 (fun hrr => hne hrr.symm)
      simpa only [hdat] using ⟨hsub, h1, h2'⟩
    all_goals {
      have hne : sc ≠ r := ne_of_dataOf_ne hr hdat (by simp)
      have hk := insertNew_keep_and_avoid hsub h1 hne
      simpa only [hdat] using ⟨hk.1, hk.2, h2⟩ }
  · exact hP

/-- The repaired cycles of a face reference only ids its original cycles
referenced. -/
theorem repairedCyclesOf_refs {s : Complex} {doomed : List Id}
    {cycles : List KeyCycle} {r : Id} (h : ∀ c ∈ cycles, r ∉ c.refs) :
    ∀ rc ∈ repairedCyclesOf s doomed cycles, r ∉ rc.cycle.refs := by
  intro rc hrc
  unfold repairedCyclesOf at hrc
  rw [List.mem_filterMap] at hrc
  obtain ⟨i, hi, hrc⟩ := hrc
  rw [List.mem_range] at hi
  have hmemc : cycles.getD i (.walk []) ∈ cycles := by
    rw [List.getD_eq_getElem cycles _ hi]
    exact List.getElem_mem hi
  have hor := h _ hmemc
  cases hget : cycles.getD i (.walk []) with
  | steiner sv =>
    rw [hget] at hrc hor
    simp only at hrc
    by_cases hsv : sv ∈ doomed
    · rw [if_pos hsv] at hrc
      cases hrc
    · rw [if_neg hsv] at hrc
      simp only [Option.some.injEq] at hrc
      subst hrc
      exact hor
  | walk hs =>
    rw [hget] at hrc hor
    dsimp only at hrc
    split at hrc
    · simp only [Option.some.injEq] at hrc
      subst hrc
      intro hmm
      simp only [KeyCycle.refs, List.mem_map] at hmm
      obtain ⟨k, hk, hke⟩ := hmm
      have hk2 : k ∈ hs := (List.mem_filter.1 hk).1
      refine hor ?_
      simp only [KeyCycle.refs, List.mem_map]
      exact ⟨k, hk2, hke⟩
    · cases hrc

/-- The pruning loop only removes repaired cycles. -/
theorem pruneRepaired_subset (o : GeomOracle) (ocs : List KeyCycle) :
    ∀ (fuel : Nat) (rcs : List RepairedCycle) (k : Nat),
      pruneRepaired o ocs fuel rcs k ⊆ rcs := by
  intro fuel
  induction fuel with
  | zero => intro rcs k; rw [pruneRepaired]; exact fun x h => h
  | succ n ih =>
    intro rcs k
    rw [pruneRepaired]
    cases hk : rcs[k]? with
    | none => exact fun x h => h
    | some rc =>
      dsimp only
      cases hsv : rc.cycle.steinerVertex with
      | some sv =>
        dsimp only
        by_cases hkeep : keepSteiner o ocs rcs sv
        · rw [if_pos hkeep]; exact ih rcs (k + 1)
        · rw [if_neg hkeep]
          exact fun x hx => List.eraseIdx_subset rcs k (ih (rcs.eraseIdx k) k hx)
      | none =>
        dsimp only
        by_cases hkeep : keepWalk o ocs rcs rc.cycle
        · rw [if_pos hkeep]; exact ih rcs (k + 1)
        · rw [if_neg hkeep]
          exact fun x hx => List.eraseIdx_subset rcs k (ih (rcs.eraseIdx k) 0 hx)

/-- Phase 2 of `delete_` preserves root safety and grows the doomed set only
by faces from the given list. -/
theorem repairFaces_spec {r : Id} (o : GeomOracle) (trsc : Bool) :
    ∀ (faces : List Id) (acc : Complex × List Id) (F : List Id),
      RootSafe r acc.1 → r ∉ acc.2 → r ∉ faces → F ⊆ acc.2 →
      RootSafe r (repairFaces o trsc faces acc).1 ∧
      r ∉ (repairFaces o trsc faces acc).2 ∧
      F ⊆ (repairFaces o trsc faces acc).2 := by
  intro faces
  induction faces with
  | nil =>
    intro acc F h1 h2 _ h4
    rw [repairFaces]
    exact ⟨h1, h2, h4⟩
  | cons kf rest ih =>
    intro acc F h1 h2 h3 h4
    obtain ⟨s, doomed⟩ := acc
    dsimp only at h1 h2 h4
    have hfr : r ∉ rest := fun h => h3 (List.mem_cons_of_mem _ h)
    have hkfr : kf ≠ r := fun h => h3 (h ▸ List.mem_cons_self _ _)
    have hd' : r ∉ doomed ++ [kf] := by
      intro hc
      rcases List.mem_append.1 hc with hc | hc
      · exact h2 hc
      · rw [List.mem_singleton] at hc
        exact hkfr hc.symm
    have hF' : F ⊆ doomed ++ [kf] := fun y hy => List.mem_append_left _ (h4 hy)
    rw [repairFaces]
    by_cases hmem : kf ∈ doomed
    · rw [if_pos hmem]
      exact ih (s, doomed) F h1 h2 hfr h4
    · rw [if_neg hmem]
      split
      · exact ih (s, doomed ++ [kf]) F h1 hd' hfr hF'
      · dsimp only
        split
        · exact ih (s, doomed ++ [kf]) F h1 hd' hfr hF'
        · have hpr : ∀ (fuel k : Nat) (rc : RepairedCycle),
              rc ∈ pruneRepaired o (s.cyclesOf kf) fuel
                (repairedCyclesOf s doomed (s.cyclesOf kf)) k →
              r ∉ rc.cycle.refs :=
            fun fuel k rc hrc => repairedCyclesOf_refs
              (noRefTo_cyclesOf h1.noref kf) rc
              (pruneRepaired_subset o (s.cyclesOf kf) fuel _ k hrc)
          refine ih _ F ?_ h2 hfr h4
          refine foldl_preserve (P := fun t => RootSafe r t) ?_ _ ?_
          · intro t rc hrc ht
            exact ht.addCycleToBoundary (hpr _ _ rc hrc)
          · refine RootSafe.modifyData ?_ rfl ?_
            · intro dd hdd
              cases dd <;> dsimp only <;> try exact hdd
              intro hc
              simp only [NodeData.refs, List.mem_flatMap, List.mem_map] at hc
              obtain ⟨cy, ⟨rc, hrcm, rfl⟩, hcr⟩ := hc
              exact hpr _ _ rc hrcm hcr
            · exact foldl_preserve (P := fun t => RootSafe r t)
                (fun t b hb ht => ht.removeFromBoundary) s h1

/-- The inner fold of phase 3 of `delete_` over one doomed cell's boundary
preserves root safety and flags only boundary members. -/
theorem cleanupBoundary_fold {r : Id} {s : Complex} (div : Bool) (c : Id)
    (hbnd : r ∉ s.boundaryOf c) (F : List Id) :
    ∀ a : Complex × List Id × List Id × List Id,
      RootSafe r a.1 → r ∉ a.2.1 → F ⊆ a.2.1 →
      RootSafe r ((s.boundaryOf c).foldl
        (fun (acc : Complex × List Id × List Id × List Id) b =>
          let (t, fl, kvs, ivs) := acc
          if b ∈ fl then acc
          else if div && t.isCell b &&
              ((t.dataOf b).map NodeData.isVertexCell).getD false &&
              hasEmptyStar t fl b then
            match t.dataOf b with
            | some (.keyVertex _) => (t, fl ++ [b], insertNew kvs b, ivs)
            | some .inbetweenVertex => (t, fl ++ [b], kvs, insertNew ivs b)
            | _ => (t, fl ++ [b], kvs, ivs)
          else
            (starEraseRaw t b c, fl, kvs, ivs)) a).1 ∧
      r ∉ ((s.boundaryOf c).foldl
        (fun (acc : Complex × List Id × List Id × List Id) b =>
          let (t, fl, kvs, ivs) := acc
          if b ∈ fl then acc
          else if div && t.isCell b &&
              ((t.dataOf b).map NodeData.isVertexCell).getD false &&
              hasEmptyStar t fl b then
            match t.dataOf b with
            | some (.keyVertex _) => (t, fl ++ [b], insertNew kvs b, ivs)
            | some .inbetweenVertex => (t, fl ++ [b], kvs, insertNew ivs b)
            | _ => (t, fl ++ [b], kvs, ivs)
          else
            (starEraseRaw t b c, fl, kvs, ivs)) a).2.1 ∧
      F ⊆ ((s.boundaryOf c).foldl
        (fun (acc : Complex × List Id × List Id × List Id) b =>
          let (t, fl, kvs, ivs) := acc
          if b ∈ fl then acc
          else if div && t.isCell b &&
              ((t.dataOf b).map NodeData.isVertexCell).getD false &&
              hasEmptyStar t fl b then
            match t.dataOf b with
            | some (.keyVertex _) => (t, fl ++ [b], insertNew kvs b, ivs)
            | some .inbetweenVertex => (t, fl ++ [b], kvs, insertNew ivs b)
            | _ => (t, fl ++ [b], kvs, ivs)
          else
            (starEraseRaw t b c, fl, kvs, ivs)) a).2.1 := by
  intro a h1 h2 h3
  refine foldl_preserve (P := fun x : Complex × List Id × List Id × List Id =>
      RootSafe r x.1 ∧ r ∉ x.2.1 ∧ F ⊆ x.2.1) ?_ a ⟨h1, h2, h3⟩
  intro x b hb hP
  obtain ⟨t, fl, kvs, ivs⟩ := x
  obtain ⟨hs, hflr, hF⟩ := hP
  have hbr : b ≠ r := fun h => hbnd (h ▸ hb)
  dsimp only
  split
  · exact ⟨hs, hflr, hF⟩
  · split
    · have hfl' : r ∉ fl ++ [b] := by
        intro hc
        rcases List.mem_append.1 hc with hc | hc
        · exact hflr hc
        · rw [List.mem_singleton] at hc
          exact hbr hc.symm
      have hF' : F ⊆ fl ++ [b] := fun y hy => List.mem_append_left _ (hF hy)
      split <;> exact ⟨hs, hfl', hF'⟩
    · exact ⟨hs.starEraseRaw, hflr, hF⟩

/-- Phase 3 of `delete_` preserves root safety and never flags the
unreferenced root. -/
theorem cleanupBoundary_spec {r : Id} (div : Bool) :
    ∀ (cells : List Id) (acc : Complex × List Id × List Id × List Id)
      (F : List Id), RootSafe r acc.1 → r ∉ acc.2.1 → F ⊆ acc.2.1 →
      RootSafe r (cleanupBoundary div cells acc).1 ∧
      r ∉ (cleanupBoundary div cells acc).2.1 ∧
      F ⊆ (cleanupBoundary div cells acc).2.1 := by
  intro cells
  induction cells with
  | nil =>
    intro acc F h1 h2 h3
    rw [cleanupBoundary]
    exact ⟨h1, h2, h3⟩
  | cons c rest ih =>
    intro acc F h1 h2 h3
    obtain ⟨s, flagged, isoKV, isoIV⟩ := acc
    dsimp only at h1 h2 h3
    rw [cleanupBoundary]
    split
    · dsimp only
      have hkey := cleanupBoundary_fold div c (noRefTo_boundaryOf h1.noref c) F
        (s, flagged, isoKV, isoIV) h1 h2 h3
      exact ih _ F hkey.1.starClearRaw hkey.2.1 hkey.2.2
    · exact ih _ F h1 h2 h3

/-- The inner fold of phase 4 of `delete_` over one inbetween vertex's
boundary preserves root safety and flags only boundary members. -/
theorem cleanupInbetween_fold {r : Id} {s : Complex} (iv : Id)
    (hbnd : r ∉ s.boundaryOf iv) (F : List Id) :
    ∀ a : Complex × List Id × List Id,
      RootSafe r a.1 → r ∉ a.2.1 → F ⊆ a.2.1 →
      RootSafe r ((s.boundaryOf iv).foldl
        (fun (acc : Complex × List Id × List Id) kv =>
          let (t, fl, kvs) := acc
          if kv ∈ fl then acc
          else if hasEmptyStar t fl kv then (t, fl ++ [kv], insertNew kvs kv)
          else (starEraseRaw t kv iv, fl, kvs)) a).1 ∧
      r ∉ ((s.boundaryOf iv).foldl
        (fun (acc : Complex × List Id × List Id) kv =>
          let (t, fl, kvs) := acc
          if kv ∈ fl then acc
          else if hasEmptyStar t fl kv then (t, fl ++ [kv], insertNew kvs kv)
          else (starEraseRaw t kv iv, fl, kvs)) a).2.1 ∧
      F ⊆ ((s.boundaryOf iv).foldl
        (fun (acc : Complex × List Id × List Id) kv =>
          let (t, fl, kvs) := acc
          if kv ∈ fl then acc
          else if hasEmptyStar t fl kv then (t, fl ++ [kv], insertNew kvs kv)
          else (starEraseRaw t kv iv, fl, kvs)) a).2.1 := by
  intro a h1 h2 h3
  refine foldl_preserve (P := fun x : Complex × List Id × List Id =>
      RootSafe r x.1 ∧ r ∉ x.2.1 ∧ F ⊆ x.2.1) ?_ a ⟨h1, h2, h3⟩
  intro x kv hkv hP
  obtain ⟨t, fl, kvs⟩ := x
  obtain ⟨hs, hflr, hF⟩ := hP
  have hkr : kv ≠ r := fun h => hbnd (h ▸ hkv)
  dsimp only
  split
  · exact ⟨hs, hflr, hF⟩
  · split
    · have hfl' : r ∉ fl ++ [kv] := by
        intro hc
        rcases List.mem_append.1 hc with hc | hc
        · exact hflr hc
        · rw [List.mem_singleton] at hc
          exact hkr hc.symm
      exact ⟨hs, hfl', fun y hy => List.mem_append_left _ (hF hy)⟩
    · exact ⟨hs.starEraseRaw, hflr, hF⟩

/-- Phase 4 of `delete_` preserves root safety and never flags the
unreferenced root. -/
theorem cleanupInbetween_spec {r : Id} :
    ∀ (ivs : List Id) (t : Complex) (fl kvs F : List Id),
      RootSafe r t → r ∉ fl → F ⊆ fl →
      RootSafe r (cleanupInbetween ivs (t, fl, kvs)).1 ∧
      r ∉ (cleanupInbetween ivs (t, fl, kvs)).2.1 ∧
      F ⊆ (cleanupInbetween ivs (t, fl, kvs)).2.1 := by
  intro ivs
  induction ivs with
  | nil =>
    intro t fl kvs F h1 h2 h3
    rw [cleanupInbetween]
    exact ⟨h1, h2, h3⟩
  | cons iv rest ih =>
    intro t fl kvs F h1 h2 h3
    rw [cleanupInbetween]
    dsimp only
    have hkey := cleanupInbetween_fold iv (noRefTo_boundaryOf h1.noref iv) F
      (t, fl, kvs) h1 h2 h3
    exact ih _ _ _ F hkey.1 hkey.2.1 hkey.2.2

theorem dataOf_detachChild_group {r : Id} {t : Complex} {c : Id}
    (h : t.dataOf r = some .group) :
    (detachChild t c).dataOf r = some .group := by
  unfold detachChild
  cases t.parentOf c with
  | none => exact h
  | some p => exact dataOf_modifyNode_of_fix (fun n hn => hn) h

/-- `destroyNodes_` erases exactly the given ids and preserves the payload of
every other node, in particular the root group's. -/
theorem destroyNodes_spec {r : Id} {s : Complex} {ids : List Id}
    (hs : RootSafe r s) (hr : r ∉ ids) :
    (destroyNodes s ids).dataOf r = some .group ∧
    ∀ d ∈ ids, (destroyNodes s ids).find? d = none := by
  unfold destroyNodes
  constructor
  · have hfold : (ids.foldl (fun t i => detachChild t i) s).dataOf r
        = some .group :=
      foldl_preserve (P := fun t : Complex => t.dataOf r = some .group)
        (fun t i _ ht => dataOf_detachChild_group ht) s hs.groupData
    unfold Complex.dataOf at hfold ⊢
    rw [Complex.find?_eraseNodes, if_neg hr]
    exact hfold
  · intro d hd
    rw [Complex.find?_eraseNodes, if_pos hd]

/-- `deleteWithDependents_` invoked on a node set containing the root group:
the root group's payload survives, and every proper descendant of the root is
erased from the node map. -/
theorem deleteWithDependents_root {r : Id} (o : GeomOracle) (s : Complex)
    (nodesArg : List Id) (div trsc : Bool)
    (hroot : s.root = some r) (hsafe : RootSafe r s)
    (hnc : ∀ p ∈ s.nodes, r ∉ p.2.children) (hmem : r ∈ nodesArg) :
    (deleteWithDependents o s nodesArg div trsc).dataOf r = some .group ∧
    ∀ d ∈ properDescendants s r,
      (deleteWithDependents o s nodesArg div trsc).find? d = none := by
  have key : ∀ DS : List Id, r ∉ DS → (∀ d ∈ properDescendants s r, d ∈ DS) →
      (deleteCore o s DS div trsc).dataOf r = some .group ∧
      ∀ d ∈ properDescendants s r,
        (deleteCore o s DS div trsc).find? d = none := by
    intro DS hDr hDsub
    obtain ⟨hc1sub, hc1a, hc1b⟩ := collectStar_spec hsafe.groupData hDr
    have h2 := repairFaces_spec o trsc (collectStar s DS).2
      (s, (collectStar s DS).1) (collectStar s DS).1 hsafe hc1a hc1b
      (fun x hx => hx)
    have h3 := cleanupBoundary_spec div
      (repairFaces o trsc (collectStar s DS).2 (s, (collectStar s DS).1)).2
      ((repairFaces o trsc (collectStar s DS).2 (s, (collectStar s DS).1)).1,
       (repairFaces o trsc (collectStar s DS).2 (s, (collectStar s DS).1)).2,
       [], [])
      (collectStar s DS).1 h2.1 h2.2.1 h2.2.2
    unfold deleteCore
    dsimp only
    cases div
    · rw [if_neg Bool.false_ne_true]
      dsimp only
      refine ⟨(destroyNodes_spec h3.1 h3.2.1).1, fun d hd => ?_⟩
      exact (destroyNodes_spec h3.1 h3.2.1).2 d (h3.2.2 (hc1sub (hDsub d hd)))
    · rw [if_pos rfl]
      dsimp only
      refine ⟨(destroyNodes_spec ?_ ?_).1, fun d hd => ?_⟩
      · exact (cleanupInbetween_spec _ _ _ _ _ h3.1 h3.2.1 h3.2.2).1
      · exact (cleanupInbetween_spec _ _ _ _ _ h3.1 h3.2.1 h3.2.2).2.1
      · exact (destroyNodes_spec
          (cleanupInbetween_spec _ _ _ _ _ h3.1 h3.2.1 h3.2.2).1
          (cleanupInbetween_spec _ _ _ _ _ h3.1 h3.2.1 h3.2.2).2.1).2 d
          ((cleanupInbetween_spec _ _ _ _ _ h3.1 h3.2.1 h3.2.2).2.2
            (hc1sub (hDsub d hd)))
  unfold deleteWithDependents
  dsimp only
  refine key _ ?_ ?_
  · refine foldl_preserve (P := fun acc : List Id => r ∉ acc) ?_ []
      (List.not_mem_nil r)
    intro acc n hn hacc
    dsimp only
    split
    · rw [mem_foldl_insertNew]
      rintro (h | h)
      · exact hacc h
      · exact not_mem_properDescendants hnc n h
    · rename_i hne
      rw [mem_insertNew]
      rintro (h | rfl)
      · rw [mem_foldl_insertNew] at h
        rcases h with h | h
        · exact hacc h
        · exact not_mem_properDescendants hnc n h
      · exact hne hroot.symm
  · intro d hd
    refine foldl_reach hmem (fun a => ?_) (fun a b hPa => ?_) []
    · dsimp only
      split
      · exact (mem_foldl_insertNew _ _ _).2 (Or.inr hd)
      · exact mem_insertNew.2 (Or.inl ((mem_foldl_insertNew _ _ _).2 (Or.inr hd)))
    · dsimp only
      split
      · exact (mem_foldl_insertNew _ _ _).2 (Or.inl hPa)
      · exact mem_insertNew.2 (Or.inl ((mem_foldl_insertNew _ _ _).2 (Or.inl hPa)))

/-! ### The root field is never rewritten by the deletion machinery -/

theorem root_foldl {α : Type _} {f : Complex → α → Complex}
    (hf : ∀ t x, (f t x).root = t.root) :
    ∀ (l : List α) (s : Complex), (l.foldl f s).root = s.root := by
  intro l
  induction l with
  | nil => intro s; rfl
  | cons x xs ih => intro s; rw [List.foldl_cons, ih, hf]

theorem root_addToBoundary (s : Complex) (a b : Id) :
    (addToBoundary s a b).root = s.root := by
  unfold addToBoundary
  rcases s.find? a with _ | na
  · rfl
  rcases s.find? b with _ | nb
  · rfl
  dsimp only
  split <;> rfl

theorem root_removeFromBoundary (s : Complex) (a b : Id) :
    (removeFromBoundary s a b).root = s.root := by
  unfold removeFromBoundary
  rcases s.find? a with _ | na
  · rfl
  rcases s.find? b with _ | nb
  · rfl
  dsimp only
  split <;> rfl

theorem root_addCycleToBoundary (s : Complex) (kf : Id) (c : KeyCycle) :
    (addCycleToBoundary s kf c).root = s.root :=
  root_foldl (fun t x => root_addToBoundary t kf x) _ s

theorem root_detachChild (s : Complex) (c : Id) :
    (detachChild s c).root = s.root := by
  unfold detachChild
  rcases s.parentOf c with _ | p <;> rfl

theorem root_starClearRaw (s : Complex) (c : Id) :
    (starClearRaw s c).root = s.root := rfl

theorem root_repairFaces (o : GeomOracle) (trsc : Bool) :
    ∀ (faces : List Id) (acc : Complex × List Id),
      (repairFaces o trsc faces acc).1.root = acc.1.root := by
  intro faces
  induction faces with
  | nil => intro acc; rw [repairFaces]
  | cons kf rest ih =>
    intro acc
    obtain ⟨s, doomed⟩ := acc
    rw [repairFaces]
    by_cases hmem : kf ∈ doomed
    · rw [if_pos hmem]; exact ih (s, doomed)
    · rw [if_neg hmem]
      split
      · exact ih (s, doomed ++ [kf])
      · dsimp only
        split
        · exact ih (s, doomed ++ [kf])
        · rw [ih]
          exact (root_foldl
              (fun t (rc : RepairedCycle) => root_addCycleToBoundary t kf rc.cycle)
              _ _).trans
            (root_foldl (fun t b => root_removeFromBoundary t kf b) _ _)

theorem root_cleanupBoundary (div : Bool) :
    ∀ (cells : List Id) (acc : Complex × List Id × List Id × List Id),
      (cleanupBoundary div cells acc).1.root = acc.1.root := by
  intro cells
  induction cells with
  | nil => intro acc; rw [cleanupBoundary]
  | cons c rest ih =>
    intro acc
    obtain ⟨s, flagged, isoKV, isoIV⟩ := acc
    rw [cleanupBoundary]
    split
    · dsimp only
      rw [ih]
      dsimp only
      rw [root_starClearRaw]
      refine foldl_preserve
        (P := fun x : Complex × List Id × List Id × List Id =>
          x.1.root = s.root) ?_ (s, flagged, isoKV, isoIV) rfl
      intro x b hb hx
      obtain ⟨t, fl, kvs, ivs⟩ := x
      dsimp only
      split
      · exact hx
      · split
        · split <;> exact hx
        · exact hx
    · exact ih (s, flagged, isoKV, isoIV)

theorem root_cleanupInbetween :
    ∀ (ivs : List Id) (acc : Complex × List Id × List Id),
      (cleanupInbetween ivs acc).1.root = acc.1.root := by
  intro ivs
  induction ivs with
  | nil => intro acc; rw [cleanupInbetween]
  | cons iv rest ih =>
    intro acc
    obtain ⟨s, flagged, isoKV⟩ := acc
    rw [cleanupInbetween]
    dsimp only
    rw [ih]
    refine foldl_preserve
      (P := fun x : Complex × List Id × List Id => x.1.root = s.root) ?_
      (s, flagged, isoKV) rfl
    intro x kv hkv hx
    obtain ⟨t, fl, kvs⟩ := x
    dsimp only
    split
    · exact hx
    · split
      · exact hx
      · exact hx

theorem root_destroyNodes (s : Complex) (ids : List Id) :
    (destroyNodes s ids).root = s.root :=
  root_foldl (fun t i => root_detachChild t i) ids s

theorem root_deleteCore (o : GeomOracle) (s : Complex) (DS : List Id)
    (div trsc : Bool) : (deleteCore o s DS div trsc).root = s.root := by
  unfold deleteCore
  dsimp only
  cases div
  · rw [if_neg Bool.false_ne_true]
    dsimp only
    rw [root_destroyNodes]
    rw [root_cleanupBoundary]
    dsimp only
    rw [root_repairFaces]
  · rw [if_pos rfl]
    dsimp only
    rw [root_destroyNodes]
    rw [root_cleanupInbetween]
    dsimp only
    rw [root_cleanupBoundary]
    dsimp only
    rw [root_repairFaces]

theorem root_deleteWithDependents (o : GeomOracle) (s : Complex)
    (nodesArg : List Id) (div trsc : Bool) :
    (deleteWithDependents o s nodesArg div trsc).root = s.root := by
  unfold deleteWithDependents
  dsimp only
  exact root_deleteCore o s _ div trsc

theorem root_hardDelete (o : GeomOracle) (s : Complex) (node : Id)
    (div : Bool) : (hardDelete o s node div).root = s.root :=
  root_deleteWithDependents o s [node] div false

/-! ### Hard deletion erases its (non-root) arguments -/

theorem collectStar_mono (s : Complex) (descendants : List Id) :
    descendants ⊆ (collectStar s descendants).1 := by
  unfold collectStar
  refine foldl_preserve
    (P := fun acc : List Id × List Id => descendants ⊆ acc.1) ?_ _
    (fun x hx => hx)
  intro acc d _ hP
  split
  · refine foldl_preserve
      (P := fun acc : List Id × List Id => descendants ⊆ acc.1) ?_ acc hP
    intro acc2 sc _ hP2
    rcases hdat : s.dataOf sc with _ | dsc
    · simpa only [hdat] using hP2
    cases dsc
    case group => simpa only [hdat] using hP2
    case keyFace cs fd => simpa only [hdat] using hP2
    all_goals simpa only [hdat] using
      fun x hx => mem_insertNew.2 (Or.inl (hP2 hx))
  · exact hP

theorem repairFaces_mono (o : GeomOracle) (trsc : Bool) :
    ∀ (faces : List Id) (acc : Complex × List Id),
      acc.2 ⊆ (repairFaces o trsc faces acc).2 := by
  intro faces
  induction faces with
  | nil => intro acc; rw [repairFaces]; exact fun x hx => hx
  | cons kf rest ih =>
    intro acc
    obtain ⟨s, doomed⟩ := acc
    rw [repairFaces]
    by_cases hmem : kf ∈ doomed
    · rw [if_pos hmem]; exact ih (s, doomed)
    · rw [if_neg hmem]
      split
      · exact fun x hx => ih (s, doomed ++ [kf]) (List.mem_append_left _ hx)
      · dsimp only
        split
        · exact fun x hx => ih (s, doomed ++ [kf]) (List.mem_append_left _ hx)
        · intro x hx
          exact ih (_, _) hx

theorem cleanupBoundary_fold_mono {s : Complex} (div : Bool) (c : Id)
    (F : List Id) :
    ∀ a : Complex × List Id × List Id × List Id, F ⊆ a.2.1 →
      F ⊆ ((s.boundaryOf c).foldl
        (fun (acc : Complex × List Id × List Id × List Id) b =>
          let (t, fl, kvs, ivs) := acc
          if b ∈ fl then acc
          else if div && t.isCell b &&
              ((t.dataOf b).map NodeData.isVertexCell).getD false &&
              hasEmptyStar t fl b then
            match t.dataOf b with
            | some (.keyVertex _) => (t, fl ++ [b], insertNew kvs b, ivs)
            | some .inbetweenVertex => (t, fl ++ [b], kvs, insertNew ivs b)
            | _ => (t, fl ++ [b], kvs, ivs)
          else
            (starEraseRaw t b c, fl, kvs, ivs)) a).2.1 := by
  intro a h3
  refine foldl_preserve
    (P := fun x : Complex × List Id × List Id × List Id => F ⊆ x.2.1) ?_ a h3
  intro x b hb hP
  obtain ⟨t, fl, kvs, ivs⟩ := x
  dsimp only
  split
  · exact hP
  · split
    · have hP' : F ⊆ fl ++ [b] := fun y hy => List.mem_append_left _ (hP hy)
      split <;> exact hP'
    · exact hP

theorem cleanupBoundary_mono (div : Bool) :
    ∀ (cells : List Id) (acc : Complex × List Id × List Id × List Id),
      acc.2.1 ⊆ (cleanupBoundary div cells acc).2.1 := by
  intro cells
  induction cells with
  | nil => intro acc; rw [cleanupBoundary]; exact fun x hx => hx
  | cons c rest ih =>
    intro acc
    obtain ⟨s, flagged, isoKV, isoIV⟩ := acc
    rw [cleanupBoundary]
    split
    · dsimp only
      intro x hx
      refine ih _ ?_
      exact cleanupBoundary_fold_mono div c flagged (s, flagged, isoKV, isoIV)
        (fun y hy => hy) hx
    · exact ih (s, flagged, isoKV, isoIV)

theorem cleanupInbetween_fold_mono {s : Complex} (iv : Id) (F : List Id) :
    ∀ a : Complex × List Id × List Id, F ⊆ a.2.1 →
      F ⊆ ((s.boundaryOf iv).foldl
        (fun (acc : Complex × List Id × List Id) kv =>
          let (t, fl, kvs) := acc
          if kv ∈ fl then acc
          else if hasEmptyStar t fl kv then (t, fl ++ [kv], insertNew kvs kv)
          else (starEraseRaw t kv iv, fl, kvs)) a).2.1 := by
  intro a h3
  refine foldl_preserve
    (P := fun x : Complex × List Id × List Id => F ⊆ x.2.1) ?_ a h3
  intro x kv hkv hP
  obtain ⟨t, fl, kvs⟩ := x
  dsimp only
  split
  · exact hP
  · split
    · exact fun y hy => List.mem_append_left _ (hP hy)
    · exact hP

theorem cleanupInbetween_mono :
    ∀ (ivs : List Id) (acc : Complex × List Id × List Id),
      acc.2.1 ⊆ (cleanupInbetween ivs acc).2.1 := by
  intro ivs
  induction ivs with
  | nil => intro acc; rw [cleanupInbetween]; exact fun x hx => hx
  | cons iv rest ih =>
    intro acc
    obtain ⟨s, flagged, isoKV⟩ := acc
    rw [cleanupInbetween]
    dsimp only
    intro x hx
    refine ih _ ?_
    exact cleanupInbetween_fold_mono iv flagged (s, flagged, isoKV)
      (fun y hy => hy) hx

theorem destroyNodes_erases (t : Complex) (ids : List Id) (n : Id)
    (h : n ∈ ids) : (destroyNodes t ids).find? n = none := by
  unfold destroyNodes
  rw [Complex.find?_eraseNodes, if_pos h]

/-- Any cell passed to `deleteWithDependents_` other than the root group is
gone from the node map afterwards. -/
theorem deleteWithDependents_erases (o : GeomOracle) (s : Complex)
    (nodesArg : List Id) (div trsc : Bool) (n : Id) (hn : n ∈ nodesArg)
    (hnr : ¬ some n = s.root) :
    (deleteWithDependents o s nodesArg div trsc).find? n = none := by
  have key : ∀ DS : List Id, n ∈ DS →
      (deleteCore o s DS div trsc).find? n = none := by
    intro DS hmem
    unfold deleteCore
    dsimp only
    have h1 : n ∈ (collectStar s DS).1 := collectStar_mono s DS hmem
    have h2 := repairFaces_mono o trsc (collectStar s DS).2
      (s, (collectStar s DS).1) h1
    have h3 := cleanupBoundary_mono div
      (repairFaces o trsc (collectStar s DS).2 (s, (collectStar s DS).1)).2
      ((repairFaces o trsc (collectStar s DS).2 (s, (collectStar s DS).1)).1,
       (repairFaces o trsc (collectStar s DS).2 (s, (collectStar s DS).1)).2,
       [], []) h2
    cases div
    · rw [if_neg Bool.false_ne_true]
      dsimp only
      exact destroyNodes_erases _ _ _ h3
    · rw [if_pos rfl]
      dsimp only
      refine destroyNodes_erases _ _ _ ?_
      exact cleanupInbetween_mono _ (_, _, _) h3
  unfold deleteWithDependents
  dsimp only
  refine key _ ?_
  refine foldl_reach hn (fun a => ?_) (fun a b hPa => ?_) []
  · dsimp only
    rw [if_neg hnr]
    exact mem_insertNew.2 (Or.inr rfl)
  · dsimp only
    split
    · exact (mem_foldl_insertNew _ _ _).2 (Or.inl hPa)
    · exact mem_insertNew.2 (Or.inl ((mem_foldl_insertNew _ _ _).2 (Or.inl hPa)))

/-- `hardDelete` erases its (non-root) argument. -/
theorem hardDelete_erases (o : GeomOracle) (s : Complex) (n : Id) (div : Bool)
    (hnr : ¬ some n = s.root) : (hardDelete o s n div).find? n = none :=
  deleteWithDependents_erases o s [n] div false n (List.mem_cons_self _ _) hnr

/-- A node absent from the node map has an empty star array. -/
theorem starOf_eq_nil_of_find? {s : Complex} {i : Id}
    (h : s.find? i = none) : s.starOf i = [] := by
  unfold Complex.starOf
  rw [h]
  rfl

/-! ### Counting the face-cycle-component slots of an edge (claim C4) -/

/-- The number of uses of edge `ke` in one cycle (zero for Steiner cycles). -/
def walkUses (ke : Id) : KeyCycle → Nat
  | .steiner _ => 0
  | .walk hs => (hs.filter (fun h => h.edge = ke)).length

/-- The number of face-cycle-component slots of one face using `ke`. -/
def faceSlotCount (s : Complex) (ke sc : Id) : Nat :=
  match s.dataOf sc with
  | some (.keyFace cycles _) => (cycles.map (walkUses ke)).sum
  | _ => 0

/-- The spec's "used in exactly two face-cycle-component slots" count: the
total number of slots using `ke` across the faces of its star. -/
def edgeUseSlots (s : Complex) (ke : Id) : Nat :=
  ((s.starOf ke).map (faceSlotCount s ke)).sum

/-- How many of the two scan slots are filled. -/
def slotFill {α β : Type _} : Option α × Option β → Nat
  | (none, none) => 0
  | (some _, none) => 1
  | (none, some _) => 1
  | (some _, some _) => 2

theorem slotFill_le_two {α β : Type _} (a : Option α × Option β) :
    slotFill a ≤ 2 := by
  rcases a with ⟨_ | x1, _ | x2⟩ <;> simp [slotFill]

/-- Every filled slot names a face of `ke`'s star. -/
def slotsOkE (s : Complex) (ke : Id)
    (a : Option (Id × Nat × Nat) × Option (Id × Nat × Nat)) : Prop :=
  (∀ x : Id × Nat × Nat, a.1 = some x → x.1 ∈ s.starOf ke ∧
    ∃ cs fd, s.dataOf x.1 = some (.keyFace cs fd)) ∧
  (∀ x : Id × Nat × Nat, a.2 = some x → x.1 ∈ s.starOf ke ∧
    ∃ cs fd, s.dataOf x.1 = some (.keyFace cs fd))

/-- The halfedge fold of `prepareUncutAtKeyEdge_`'s scan: aborts exactly
when a third use would be registered, and otherwise fills one slot per
use. -/
theorem scanE_inner (s : Complex) (ke sc : Id) (ci : Nat)
    (hsc : sc ∈ s.starOf ke)
    (hdat : ∃ cs fd, s.dataOf sc = some (.keyFace cs fd)) :
    ∀ (hs : List KeyHalfedge)
      (a : Option (Id × Nat × Nat) × Option (Id × Nat × Nat)) (comp : Nat),
      slotsOkE s ke a →
      ∃ r, hs.foldl
          (fun (st2 : Option ((Option (Id × Nat × Nat) ×
              Option (Id × Nat × Nat)) × Nat)) h =>
            match st2 with
            | none => none
            | some (a2, comp) =>
              if h.edge = ke then
                match a2.1 with
                | none => some ((some (sc, ci, comp), a2.2), comp + 1)
                | some _ =>
                  match a2.2 with
                  | none => some ((a2.1, some (sc, ci, comp)), comp + 1)
                  | some _ => none
              else some (a2, comp + 1)) (some (a, comp)) = r ∧
        ((3 ≤ slotFill a + (hs.filter (fun h => h.edge = ke)).length ∧
          r = none) ∨
         (slotFill a + (hs.filter (fun h => h.edge = ke)).length < 3 ∧
          ∃ a' comp', r = some (a', comp') ∧
            slotFill a' = slotFill a +
              (hs.filter (fun h => h.edge = ke)).length ∧
            slotsOkE s ke a')) := by
  intro hs
  induction hs with
  | nil =>
    intro a comp hok
    refine ⟨some (a, comp), rfl, Or.inr ⟨?_, a, comp, rfl, ?_, hok⟩⟩
    · rw [List.filter_nil]
      have h2 := slotFill_le_two a
      simp only [List.length_nil]
      omega
    · rw [List.filter_nil]
      simp
  | cons h hs' ih =>
    intro a comp hok
    obtain ⟨a1, a2⟩ := a
    rw [List.foldl_cons]
    dsimp only
    by_cases he : h.edge = ke
    · rw [if_pos he]
      rw [List.filter_cons_of_pos (by simpa using he), List.length_cons]
      rcases a1 with _ | x1
      · dsimp only
        have hok' : slotsOkE s ke (some (sc, ci, comp), a2) := by
          refine ⟨fun x hx => ?_, hok.2⟩
          rw [Option.some.injEq] at hx
          subst hx
          exact ⟨hsc, hdat⟩
        obtain ⟨r, hr, hres⟩ := ih (some (sc, ci, comp), a2) (comp + 1) hok'
        refine ⟨r, hr, ?_⟩
        have hfe : slotFill ((some (sc, ci, comp) : Option (Id × Nat × Nat)), a2)
            = slotFill ((none : Option (Id × Nat × Nat)), a2) + 1 := by
          rcases a2 with _ | x2 <;> rfl
        rcases hres with ⟨hge, hnone⟩ | ⟨hlt, a', comp', heq, hfill, hok2⟩
        · exact Or.inl ⟨by omega, hnone⟩
        · exact Or.inr ⟨by omega, a', comp', heq, by omega, hok2⟩
      · rcases a2 with _ | x2
        · dsimp only
          have hok' : slotsOkE s ke (some x1, some (sc, ci, comp)) := by
            refine ⟨hok.1, fun x hx => ?_⟩
            rw [Option.some.injEq] at hx
            subst hx
            exact ⟨hsc, hdat⟩
          obtain ⟨r, hr, hres⟩ := ih (some x1, some (sc, ci, comp)) (comp + 1) hok'
          refine ⟨r, hr, ?_⟩
          rcases hres with ⟨hge, hnone⟩ | ⟨hlt, a', comp', heq, hfill, hok2⟩
          · exact Or.inl ⟨by
              simp only [slotFill] at hge ⊢
              omega, hnone⟩
          · exact Or.inr ⟨by
              simp only [slotFill] at hlt ⊢
              omega, a', comp', heq, by
              simp only [slotFill] at hfill ⊢
              omega, hok2⟩
        · dsimp only
          refine ⟨none, ?_, Or.inl ⟨?_, rfl⟩⟩
          · exact foldl_preserve (P := fun st => st = none)
              (fun st b hb hst => by subst hst; rfl) none rfl
          · simp only [slotFill, List.length_cons]
            omega
    · rw [if_neg he]
      rw [List.filter_cons_of_neg (by simpa using he)]
      exact ih (a1, a2) (comp + 1) hok

/-- The cycle fold of `prepareUncutAtKeyEdge_`'s scan over one face. -/
theorem scanE_face (s : Complex) (ke sc : Id)
    (hsc : sc ∈ s.starOf ke)
    (hdat : ∃ cs fd, s.dataOf sc = some (.keyFace cs fd)) :
    ∀ (cycles : List KeyCycle)
      (a : Option (Id × Nat × Nat) × Option (Id × Nat × Nat)) (ci : Nat),
      slotsOkE s ke a →
      ∃ r, cycles.foldl
          (fun (st : Option ((Option (Id × Nat × Nat) ×
              Option (Id × Nat × Nat)) × Nat)) c =>
            match st with
            | none => none
            | some (a, ci) =>
              match c with
              | .steiner _ => some (a, ci + 1)
              | .walk hs =>
                let inner := hs.foldl
                  (fun (st2 : Option ((Option (Id × Nat × Nat) ×
                      Option (Id × Nat × Nat)) × Nat)) h =>
                    match st2 with
                    | none => none
                    | some (a2, comp) =>
                      if h.edge = ke then
                        match a2.1 with
                        | none => some ((some (sc, ci, comp), a2.2), comp + 1)
                        | some _ =>
                          match a2.2 with
                          | none => some ((a2.1, some (sc, ci, comp)), comp + 1)
                          | some _ => none
                      else some (a2, comp + 1)) (some (a, 0))
                match inner with
                | none => none
                | some (a2, _) => some (a2, ci + 1)) (some (a, ci)) = r ∧
        ((3 ≤ slotFill a + (cycles.map (walkUses ke)).sum ∧ r = none) ∨
         (slotFill a + (cycles.map (walkUses ke)).sum < 3 ∧
          ∃ a' ci', r = some (a', ci') ∧
            slotFill a' = slotFill a + (cycles.map (walkUses ke)).sum ∧
            slotsOkE s ke a')) := by
  intro cycles
  induction cycles with
  | nil =>
    intro a ci hok
    refine ⟨some (a, ci), rfl, Or.inr ⟨?_, a, ci, rfl, ?_, hok⟩⟩
    · have h2 := slotFill_le_two a
      simp only [List.map_nil, List.sum_nil]
      omega
    · simp
  | cons c cs ih =>
    intro a ci hok
    rw [List.foldl_cons, List.map_cons, List.sum_cons]
    cases c with
    | steiner v =>
      dsimp only
      simp only [walkUses, Nat.zero_add]
      exact ih a (ci + 1) hok
    | walk hs =>
      dsimp only
      obtain ⟨rin, hrin, hinres⟩ := scanE_inner s ke sc ci hsc hdat hs a 0 hok
      rw [hrin]
      simp only [walkUses]
      rcases hinres with ⟨hge, rfl⟩ | ⟨hlt, a', comp', rfl, hfill, hok'⟩
      · dsimp only
        refine ⟨none, ?_, Or.inl ⟨?_, rfl⟩⟩
        · exact foldl_preserve (P := fun st => st = none)
            (fun st b hb hst => by subst hst; rfl) none rfl
        · omega
      · dsimp only
        obtain ⟨r, hr, hres⟩ := ih a' (ci + 1) hok'
        refine ⟨r, hr, ?_⟩
        rcases hres with ⟨hge2, hnone⟩ | ⟨hlt2, a'', ci'', heq, hfill2, hok2⟩
        · exact Or.inl ⟨by omega, hnone⟩
        · exact Or.inr ⟨by omega, a'', ci'', heq, by omega, hok2⟩

/-- The full star scan of `prepareUncutAtKeyEdge_`: aborts exactly when a
third slot shows up, and otherwise registers exactly one slot per use. -/
theorem scanE_chars (s : Complex) (ke : Id) :
    ∀ (L : List Id)
      (a : Option (Id × Nat × Nat) × Option (Id × Nat × Nat)),
      (∀ x ∈ L, x ∈ s.starOf ke) → slotsOkE s ke a →
      (3 ≤ slotFill a + (L.map (faceSlotCount s ke)).sum →
        scanUncutE s ke L a = none) ∧
      (slotFill a + (L.map (faceSlotCount s ke)).sum < 3 →
        ∃ a', scanUncutE s ke L a = some a' ∧
          slotFill a' = slotFill a + (L.map (faceSlotCount s ke)).sum ∧
          slotsOkE s ke a') := by
  intro L
  induction L with
  | nil =>
    intro a hL hok
    constructor
    · intro h3
      exfalso
      have h2 := slotFill_le_two a
      simp only [List.map_nil, List.sum_nil] at h3
      omega
    · intro _
      refine ⟨a, ?_, by simp, hok⟩
      rw [scanUncutE]
  | cons sc rest ih =>
    intro a hL hok
    have hsc : sc ∈ s.starOf ke := hL sc (List.mem_cons_self _ _)
    have hrest : ∀ x ∈ rest, x ∈ s.starOf ke :=
      fun x hx => hL x (List.mem_cons_of_mem _ hx)
    rw [scanUncutE, List.map_cons, List.sum_cons]
    rcases hdat : s.dataOf sc with _ | dsc
    · simp only [hdat]
      have hcnt : faceSlotCount s ke sc = 0 := by
        unfold faceSlotCount
        rw [hdat]
      rw [hcnt, Nat.zero_add]
      exact ih a hrest hok
    cases dsc
    case keyFace cycles fd =>
      simp only [hdat]
      have hcnt : faceSlotCount s ke sc = (cycles.map (walkUses ke)).sum := by
        unfold faceSlotCount
        rw [hdat]
      rw [hcnt]
      obtain ⟨r, hr, hres⟩ := scanE_face s ke sc hsc ⟨cycles, fd, hdat⟩
        cycles a 0 hok
      rw [hr]
      rcases hres with ⟨hge, rfl⟩ | ⟨hlt, a', ci', rfl, hfill, hok'⟩
      · dsimp only
        constructor
        · intro _
          rfl
        · intro hlt3
          exfalso
          omega
      · dsimp only
        obtain ⟨ih1, ih2⟩ := ih a' hrest hok'
        constructor
        · intro h3
          exact ih1 (by omega)
        · intro h3
          obtain ⟨a'', heq, hfill2, hok2⟩ := ih2 (by omega)
          exact ⟨a'', heq, by omega, hok2⟩
    all_goals {
      simp only [hdat]
      have hcnt : faceSlotCount s ke sc = 0 := by
        unfold faceSlotCount
        rw [hdat]
      rw [hcnt, Nat.zero_add]
      exact ih a hrest hok }

/-- `prepareUncutAtKeyEdge_` validates exactly the two-slot situation, and
then carries two slots naming faces of the edge's star. -/
theorem prepareUncutAtKeyEdge_chars (s : Complex) (ke : Id) :
    (edgeUseSlots s ke ≠ 2 → (prepareUncutAtKeyEdge s ke).isValid = false) ∧
    (edgeUseSlots s ke = 2 →
      ∃ kf1 ci1 co1 kf2 ci2 co2,
        prepareUncutAtKeyEdge s ke =
          { kf1 := some kf1, cycleIndex1 := ci1, componentIndex1 := co1,
            kf2 := some kf2, cycleIndex2 := ci2, componentIndex2 := co2,
            isValid := true } ∧
        (kf1 ∈ s.starOf ke ∧ ∃ cs fd, s.dataOf kf1 = some (.keyFace cs fd)) ∧
        (kf2 ∈ s.starOf ke ∧ ∃ cs fd, s.dataOf kf2 = some (.keyFace cs fd))) := by
  have hok0 : slotsOkE s ke (none, none) := by
    constructor <;> intro x hx <;> cases hx
  have hscan := scanE_chars s ke (s.starOf ke) (none, none)
    (fun x hx => hx) hok0
  have hcount : slotFill ((none, none) :
        Option (Id × Nat × Nat) × Option (Id × Nat × Nat)) +
      ((s.starOf ke).map (faceSlotCount s ke)).sum = edgeUseSlots s ke := by
    simp [slotFill, edgeUseSlots]
  constructor
  · intro hne
    unfold prepareUncutAtKeyEdge
    rcases Nat.lt_or_ge (edgeUseSlots s ke) 3 with hlt | hge
    · obtain ⟨a', heq, hfill, hok'⟩ := hscan.2 (by omega)
      rw [heq]
      have hfill2 : slotFill a' ≠ 2 := by omega
      rcases a' with ⟨_ | k1, _ | k2⟩
      · rfl
      · rfl
      · rfl
      · exact absurd rfl hfill2
    · have hnone := hscan.1 (by omega)
      rw [hnone]
  · intro h2
    obtain ⟨a', heq, hfill, hok'⟩ := hscan.2 (by omega)
    have hfill2 : slotFill a' = 2 := by omega
    rcases a' with ⟨_ | k1, _ | k2⟩
    · exact absurd hfill2 (by simp [slotFill])
    · exact absurd hfill2 (by simp [slotFill])
    · exact absurd hfill2 (by simp [slotFill])
    · obtain ⟨kf1, ci1, co1⟩ := k1
      obtain ⟨kf2, ci2, co2⟩ := k2
      refine ⟨kf1, ci1, co1, kf2, ci2, co2, ?_,
        hok'.1 (kf1, ci1, co1) rfl, hok'.2 (kf2, ci2, co2) rfl⟩
      unfold prepareUncutAtKeyEdge
      rw [heq]

theorem root_createKeyFace (s : Complex) (cycles : List KeyCycle)
    (fd : KeyFaceData) (pg : Id) (ns : Option Id) :
    (createKeyFace s cycles fd pg ns).1.root = s.root := by
  unfold createKeyFace
  dsimp only
  exact root_foldl (fun t c => root_addCycleToBoundary t _ c) _ _

theorem root_createKeyClosedEdge (s : Complex) (d : KeyEdgeData) (pg : Id)
    (ns : Option Id) : (createKeyClosedEdge s d pg ns).1.root = s.root := rfl

theorem root_createKeyOpenEdge (s : Complex) (sv ev : Id) (d : KeyEdgeData)
    (pg : Id) (ns : Option Id) :
    (createKeyOpenEdge s sv ev d pg ns).1.root = s.root := by
  unfold createKeyOpenEdge
  dsimp only
  rw [root_addToBoundary, root_addToBoundary]
  rfl

end Operations

/-- Witness for C10: a complex with one vertex, span `[0, 0]`. -/
theorem claim_C10_witness :
    (Operations.glueKeyVertices oracle0
        { nodes := [(0, { data := .keyVertex ⟨0, 0⟩ })], nextId := 1 }
        [0, 0] ⟨3, 4⟩).1.dataOf 0 = some (.keyVertex ⟨3, 4⟩) ∧
    (Operations.glueKeyVertices oracle0
        { nodes := [(0, { data := .keyVertex ⟨0, 0⟩ })], nextId := 1 }
        [0, 0] ⟨3, 4⟩).2 = some 0 := by
  have h := (claim_C10 oracle0
    { nodes := [(0, { data := .keyVertex ⟨0, 0⟩ })], nextId := 1 } ⟨3, 4⟩).2
    0 [0] (by intro kv hkv; simpa using hkv)
  refine ⟨h.2.2.2 ⟨0, 0⟩ rfl, ?_⟩
  rw [h.1]

/-- C9: hard delete applied to a node set containing the root group (with
the root in its usual state: a group node referenced by no cell and in no
child list) deletes every proper descendant of the root but preserves the
root group node and its payload; and `resetRoot()` recreates a root group
after clearing. -/
theorem claim_C9 (o : Operations.GeomOracle) (s : Complex) (r : Id)
    (nodes : List Id) (div : Bool)
    (hroot : s.root = some r)
    (hgrp : s.dataOf r = some .group)
    (hnoref : Operations.NoRefTo r s)
    (hnc : ∀ p ∈ s.nodes, r ∉ p.2.children)
    (hmem : r ∈ nodes) :
    (Operations.hardDeleteMany o s nodes div).dataOf r = some .group ∧
    (∀ d ∈ Operations.properDescendants s r,
      (Operations.hardDeleteMany o s nodes div).find? d = none) ∧
    (s.resetRoot.1.root = some s.resetRoot.2 ∧
      s.resetRoot.1.dataOf s.resetRoot.2 = some .group) := by
  have h := Operations.deleteWithDependents_root o s nodes div false hroot
    ⟨hnoref, hgrp⟩ hnc hmem
  refine ⟨h.1, h.2, rfl, ?_⟩
  simp [Complex.resetRoot, Complex.clear, Operations.createRootGroupNode,
    Complex.dataOf, Complex.find?]

/-- Witness state for C9: a root group (id 0) with one key-vertex child
(id 1). -/
def witnessNineState : Complex :=
  { nodes := [(0, { children := [1], data := .group }),
              (1, { parent := some 0, data := .keyVertex ⟨0, 0⟩ })],
    root := some 0, version := 0, nextId := 2 }

/-- Witness for C9: hard-deleting the root of `witnessNineState` keeps the
root group and erases its descendant vertex. -/
theorem claim_C9_witness :
    (Operations.hardDeleteMany oracle0 witnessNineState [0] true).dataOf 0
      = some .group ∧
    ∀ d ∈ Operations.properDescendants witnessNineState 0,
      (Operations.hardDeleteMany oracle0 witnessNineState [0] true).find? d
        = none := by
  have h := claim_C9 oracle0 witnessNineState 0 [0] true rfl rfl
    (by unfold Operations.NoRefTo; decide) (by decide) (by decide)
  exact ⟨h.1, h.2.1⟩

/-- C4: `uncutAtKeyEdge(ke)` succeeds exactly when `ke` is used in exactly
two face-cycle-component slots across the faces of its star; on failure it
returns `success = false` and the state unchanged; on success `ke` is
hard-deleted, hence no longer findable and with an empty star.
(`hparents` is tree-shape well-formedness for the faces of `ke`'s star:
each is listed among its parent group's children; `hker` says `ke` is not
the root node.) -/
theorem claim_C4 (o : Operations.GeomOracle) (s : Complex) (ke : Id)
    (hparents : ∀ kf ∈ s.starOf ke, ∃ p ∈ (s.parentOf kf).toList,
      kf ∈ s.childrenOf p)
    (hker : ¬ some ke = s.root) :
    ((Operations.uncutAtKeyEdge o s ke).2.success = true ↔
      Operations.edgeUseSlots s ke = 2) ∧
    ((Operations.uncutAtKeyEdge o s ke).2.success = false →
      (Operations.uncutAtKeyEdge o s ke).1 = s) ∧
    ((Operations.uncutAtKeyEdge o s ke).2.success = true →
      (Operations.uncutAtKeyEdge o s ke).1.find? ke = none ∧
      (Operations.uncutAtKeyEdge o s ke).1.starOf ke = []) := by
  by_cases h2 : Operations.edgeUseSlots s ke = 2
  · obtain ⟨kf1, ci1, co1, kf2, ci2, co2, hprep, ⟨hm1, cs1, fd1, hd1⟩,
      ⟨hm2, cs2, fd2, hd2⟩⟩ := (Operations.prepareUncutAtKeyEdge_chars s ke).2 h2
    obtain ⟨p1, hp1mem, hchild1⟩ := hparents kf1 hm1
    obtain ⟨p2, hp2mem, hchild2⟩ := hparents kf2 hm2
    have hpar1 : s.parentOf kf1 = some p1 := by
      rcases hps : s.parentOf kf1 with _ | q
      · rw [hps] at hp1mem; cases hp1mem
      · rw [hps] at hp1mem
        simp only [Option.toList_some, List.mem_singleton] at hp1mem
        rw [hp1mem]
    have hpar2 : s.parentOf kf2 = some p2 := by
      rcases hps : s.parentOf kf2 with _ | q
      · rw [hps] at hp2mem; cases hp2mem
      · rw [hps] at hp2mem
        simp only [Option.toList_some, List.mem_singleton] at hp2mem
        rw [hp2mem]
    have hfb0 : Operations.findBottomMost s [kf1, kf2] =
        (s.childrenOf p1).find? (fun c => [kf1, kf2].contains c) := by
      unfold Operations.findBottomMost
      dsimp only
      rw [hpar1]
    have hfb : ∃ bmf, Operations.findBottomMost s [kf1, kf2] = some bmf ∧
        ∃ pb, s.parentOf bmf = some pb := by
      rcases hfind : (s.childrenOf p1).find? (fun c => [kf1, kf2].contains c)
        with _ | bmf
      · exfalso
        have hnone := List.find?_eq_none.1 hfind kf1 hchild1
        simp at hnone
      · refine ⟨bmf, hfb0.trans hfind, ?_⟩
        have hbm : bmf ∈ [kf1, kf2] := by
          have hq := List.find?_some hfind
          simpa [List.elem_iff] using hq
        rcases List.mem_cons.1 hbm with rfl | hbm
        · exact ⟨p1, hpar1⟩
        · rw [List.mem_singleton] at hbm
          subst hbm
          exact ⟨p2, hpar2⟩
    obtain ⟨bmf, hbmf, pb, hparb⟩ := hfb
    have hmain : (Operations.uncutAtKeyEdge o s ke).2.success = true ∧
        (Operations.uncutAtKeyEdge o s ke).1.find? ke = none := by
      unfold Operations.uncutAtKeyEdge
      dsimp only
      rw [hprep]
      dsimp only
      simp only [Bool.not_true]
      rw [if_neg Bool.false_ne_true]
      split
      · -- closed edge
        split
        · -- same face
          refine ⟨rfl, ?_⟩
          exact Operations.hardDelete_erases o _ ke false
            (by rw [Operations.root_removeFromBoundary]; exact hker)
        · -- two faces: merge
          rw [hbmf]
          dsimp only
          rw [hparb, hd1, hd2]
          dsimp only
          refine ⟨rfl, ?_⟩
          refine Operations.hardDelete_erases o _ ke false ?_
          rw [Operations.root_hardDelete, Operations.root_hardDelete,
            Operations.root_createKeyFace]
          exact hker
      · -- open edge
        split
        · -- same face
          split
          · -- same cycle
            refine ⟨rfl, ?_⟩
            exact Operations.hardDelete_erases o _ ke false
              (by rw [Operations.root_removeFromBoundary]; exact hker)
          · -- two cycles of the same face
            refine ⟨rfl, ?_⟩
            exact Operations.hardDelete_erases o _ ke false
              (by rw [Operations.root_removeFromBoundary]; exact hker)
        · -- two faces: merge
          rw [hbmf]
          dsimp only
          rw [hparb, hd1, hd2]
          dsimp only
          refine ⟨rfl, ?_⟩
          refine Operations.hardDelete_erases o _ ke false ?_
          rw [Operations.root_hardDelete, Operations.root_hardDelete,
            Operations.root_createKeyFace]
          exact hker
    refine ⟨⟨fun _ => h2, fun _ => hmain.1⟩, fun hfalse => ?_,
      fun _ => ⟨hmain.2, Operations.starOf_eq_nil_of_find? hmain.2⟩⟩
    cases hmain.1.symm.trans hfalse
  · have hval := (Operations.prepareUncutAtKeyEdge_chars s ke).1 h2
    have hres : Operations.uncutAtKeyEdge o s ke = (s, {}) := by
      unfold Operations.uncutAtKeyEdge
      dsimp only
      rw [hval]
      simp only [Bool.not_false]
      rw [if_pos trivial]
    rw [hres]
    refine ⟨⟨fun hsucc => ?_, fun h2' => absurd h2' h2⟩, fun _ => rfl,
      fun hsucc => ?_⟩
    · exact absurd hsucc Bool.false_ne_true
    · exact absurd hsucc Bool.false_ne_true

/-- Witness state for C4: a closed edge (id 1) used twice by one face
(id 2), both children of the root group (id 0). -/
def witnessFourState : Complex :=
  { nodes := [(0, { children := [1, 2], data := .group }),
              (1, { parent := some 0, star := [2],
                    data := .keyEdge none none ⟨[⟨0, 0⟩]⟩ }),
              (2, { parent := some 0, boundary := [1],
                    data := .keyFace [.walk [⟨1, true⟩], .walk [⟨1, false⟩]]
                      ⟨[]⟩ })],
    root := some 0, version := 0, nextId := 3 }

/-- Witness for C4: the two-slot closed edge of `witnessFourState` is
uncuttable; the call succeeds and hard-deletes the edge. -/
theorem claim_C4_witness :
    (Operations.uncutAtKeyEdge oracle0 witnessFourState 1).2.success = true ∧
    (Operations.uncutAtKeyEdge oracle0 witnessFourState 1).1.find? 1 = none := by
  have h := claim_C4 oracle0 witnessFourState 1 (by decide) (by decide)
  have hsucc := h.1.2 (by decide)
  exact ⟨hsucc, (h.2.2 hsucc).1⟩

namespace Operations

open Complex

/-- The open-edge end slots at `kv` contributed by the cells of `L`, in the
scan order of `prepareUncutAtKeyVertex_` (lines 2989-3012): an edge whose
start vertex is `kv` contributes a `true` slot, one whose end vertex is `kv`
a `false` slot (a loop at `kv` contributes both). -/
def endSlotsIn (s : Complex) (kv : Id) (L : List Id) : List (Id × Bool) :=
  L.flatMap (fun sc =>
    match s.dataOf sc with
    | some (.keyEdge sv ev _) =>
      (if sv = some kv then [(sc, true)] else []) ++
      (if ev = some kv then [(sc, false)] else [])
    | _ => [])

/-- The number of Steiner-cycle usages of `kv` among the cells of `L`
(lines 3014-3031). -/
def steinerUsesIn (s : Complex) (kv : Id) (L : List Id) : Nat :=
  (L.map (fun sc =>
    match s.dataOf sc with
    | some (.keyFace cycles _) =>
      (cycles.filter (fun c => c.steinerVertex = some kv)).length
    | _ => 0)).sum

/-- Is an inbetween vertex among the cells of `L` (lines 3033-3036)? -/
def hasInbetweenIn (s : Complex) (kv : Id) (L : List Id) : Bool :=
  L.any (fun sc => s.dataOf sc == some .inbetweenVertex)

/-- The end slots over the full star of `kv`. -/
def endSlotsOf (s : Complex) (kv : Id) : List (Id × Bool) :=
  endSlotsIn s kv (s.starOf kv)

/-- The Steiner usages over the full star of `kv`. -/
def steinerUsesOf (s : Complex) (kv : Id) : Nat :=
  steinerUsesIn s kv (s.starOf kv)

/-- Is an inbetween vertex incident to `kv`? -/
def hasInbetweenAt (s : Complex) (kv : Id) : Bool :=
  hasInbetweenIn s kv (s.starOf kv)

/-- One for a filled Steiner slot of the scan accumulator. -/
def kfCount : Option (Id × Nat) → Nat
  | none => 0
  | some _ => 1

/-- The scan accumulator encoding a list of collected end slots (at most
two: the first stored as the halfedge pointing into `kv`, the second
pointing out of it) and the optional Steiner slot. -/
def accOfSlots : List (Id × Bool) → Option (Id × Nat) → UncutVScan
  | [], kfo => { kf := kfo }
  | [q1], kfo => { khe1 := some ⟨q1.1, !q1.2⟩, kf := kfo }
  | q1 :: q2 :: _, kfo =>
    { khe1 := some ⟨q1.1, !q1.2⟩, khe2 := some ⟨q2.1, q2.2⟩, kf := kfo }

/-- `KeyEdge::isStartVertex`/`isEndVertex` symmetry of the model: every edge
of the star is either closed or has both end vertices (tree-shape
well-formedness used by `uncutAtKeyVertex`'s concatenation branch). -/
def edgeEndsOk (s : Complex) (kv : Id) : Bool :=
  (s.starOf kv).all (fun c =>
    match s.dataOf c with
    | some (.keyEdge sv ev _) => sv.isSome == ev.isSome
    | _ => true)

/-- The exact validity test of `prepareUncutAtKeyVertex_`: no incident
inbetween vertex, and either exactly one Steiner usage and no end slot, or
exactly two end slots and no Steiner usage, subject to the u-turn test (for
two distinct edges) or the mixed-direction-loop test (for a loop edge). -/
def uncutVOkB (s : Complex) (kv : Id) : Bool :=
  !hasInbetweenAt s kv &&
    (match endSlotsOf s kv, steinerUsesOf s kv with
     | [], 1 => true
     | [q1, q2], 0 =>
       if q1.1 = q2.1 then !hasMixedDirectionLoop s kv q1.1
       else !hasUturnAt s kv
     | _, _ => false)

/-- Modelled from the claim's wording: pattern (a) — "exactly two open-edge
halfedge-ends meet at kv and no other usage". -/
def specUncutVPatternA (s : Complex) (kv : Id) : Bool :=
  (endSlotsOf s kv).length == 2 && steinerUsesOf s kv == 0 &&
    !hasInbetweenAt s kv

theorem kfCount_le_one (o : Option (Id × Nat)) : kfCount o ≤ 1 := by
  cases o <;> simp [kfCount]

theorem endSlotsIn_nil (s : Complex) (kv : Id) : endSlotsIn s kv [] = [] := rfl

theorem endSlotsIn_cons (s : Complex) (kv sc : Id) (L : List Id) :
    endSlotsIn s kv (sc :: L) =
      (match s.dataOf sc with
       | some (.keyEdge sv ev _) =>
         (if sv = some kv then [(sc, true)] else []) ++
         (if ev = some kv then [(sc, false)] else [])
       | _ => []) ++ endSlotsIn s kv L := by
  unfold endSlotsIn
  rfl

theorem steinerUsesIn_nil (s : Complex) (kv : Id) :
    steinerUsesIn s kv [] = 0 := rfl

theorem steinerUsesIn_cons (s : Complex) (kv sc : Id) (L : List Id) :
    steinerUsesIn s kv (sc :: L) =
      (match s.dataOf sc with
       | some (.keyFace cycles _) =>
         (cycles.filter (fun c => c.steinerVertex = some kv)).length
       | _ => 0) + steinerUsesIn s kv L := by
  unfold steinerUsesIn
  rw [List.map_cons, List.sum_cons]

theorem hasInbetweenIn_nil (s : Complex) (kv : Id) :
    hasInbetweenIn s kv [] = false := rfl

theorem hasInbetweenIn_cons (s : Complex) (kv sc : Id) (L : List Id) :
    hasInbetweenIn s kv (sc :: L) =
      ((s.dataOf sc == some .inbetweenVertex) || hasInbetweenIn s kv L) := by
  unfold hasInbetweenIn
  rw [List.any_cons]

/-- `registerEdgeEnd` on an encoded accumulator: appends the slot when fewer
than two are filled, aborts on the third. -/
theorem registerEdgeEnd_acc (pre : List (Id × Bool)) (kfo : Option (Id × Nat))
    (ke : Id) (isStart : Bool) :
    (pre.length ≤ 1 →
      registerEdgeEnd (accOfSlots pre kfo) ke isStart
        = some (accOfSlots (pre ++ [(ke, isStart)]) kfo)) ∧
    (2 ≤ pre.length →
      registerEdgeEnd (accOfSlots pre kfo) ke isStart = none) := by
  rcases pre with _ | ⟨q1, pre1⟩
  · exact ⟨fun _ => rfl, fun h => absurd h (by simp)⟩
  · rcases pre1 with _ | ⟨q2, pre2⟩
    · exact ⟨fun _ => rfl, fun h => absurd h (by simp)⟩
    · exact ⟨fun h => absurd h (by simp), fun _ => rfl⟩

/-- The Steiner fold of `scanUncutV` maps an aborted state to itself. -/
theorem scanV_face_none (kv sc : Id) :
    ∀ (cycles : List KeyCycle),
      cycles.foldl
        (fun (st : Option (UncutVScan × Nat)) c =>
          match st with
          | none => none
          | some (a, i) =>
            if c.steinerVertex = some kv then
              match a.kf with
              | some _ => none
              | none => some ({ a with kf := some (sc, i) }, i + 1)
            else some (a, i + 1)) none = none := by
  intro cycles
  induction cycles with
  | nil => rfl
  | cons c cs ih =>
    rw [List.foldl_cons]
    exact ih

/-- The Steiner fold of `scanUncutV` over one face's cycles: aborts exactly
when it would fill a second Steiner slot, otherwise fills the slot once per
Steiner usage of `kv` and leaves the halfedge slots unchanged. -/
theorem scanV_face (kv sc : Id) :
    ∀ (cycles : List KeyCycle) (acc0 : UncutVScan) (i0 : Nat),
      ∃ r, cycles.foldl
          (fun (st : Option (UncutVScan × Nat)) c =>
            match st with
            | none => none
            | some (a, i) =>
              if c.steinerVertex = some kv then
                match a.kf with
                | some _ => none
                | none => some ({ a with kf := some (sc, i) }, i + 1)
            else some (a, i + 1)) (some (acc0, i0)) = r ∧
        ((2 ≤ kfCount acc0.kf +
            (cycles.filter (fun c => c.steinerVertex = some kv)).length ∧
          r = none) ∨
         (kfCount acc0.kf +
            (cycles.filter (fun c => c.steinerVertex = some kv)).length ≤ 1 ∧
          ∃ kfo' i', r = some ({ acc0 with kf := kfo' }, i') ∧
            kfCount kfo' = kfCount acc0.kf +
              (cycles.filter (fun c => c.steinerVertex = some kv)).length)) := by
  intro cycles
  induction cycles with
  | nil =>
    intro acc0 i0
    refine ⟨some (acc0, i0), rfl, Or.inr ⟨?_, acc0.kf, i0, rfl, ?_⟩⟩
    · rw [List.filter_nil]
      have := kfCount_le_one acc0.kf
      simp only [List.length_nil]
      omega
    · rw [List.filter_nil]
      simp
  | cons c cs ih =>
    intro acc0 i0
    obtain ⟨k1, k2, kf0⟩ := acc0
    rw [List.foldl_cons]
    dsimp only
    by_cases hst : c.steinerVertex = some kv
    · rw [if_pos hst, List.filter_cons_of_pos (by simpa using hst),
        List.length_cons]
      rcases kf0 with _ | q
      · dsimp only
        obtain ⟨r, hr, hres⟩ := ih ⟨k1, k2, some (sc, i0)⟩ (i0 + 1)
        refine ⟨r, hr, ?_⟩
        dsimp only [kfCount] at hres ⊢
        rcases hres with ⟨hge, hnone⟩ | ⟨hle, kfo', i', heq, hcnt⟩
        · exact Or.inl ⟨by omega, hnone⟩
        · exact Or.inr ⟨by omega, kfo', i', heq, by omega⟩
      · dsimp only
        refine ⟨none, scanV_face_none kv sc cs, Or.inl ⟨?_, rfl⟩⟩
        dsimp only [kfCount]
        omega
    · rw [if_neg hst, List.filter_cons_of_neg (by simpa using hst)]
      exact ih ⟨k1, k2, kf0⟩ (i0 + 1)

theorem accOfSlots_kf (pre : List (Id × Bool)) (kfo : Option (Id × Nat)) :
    (accOfSlots pre kfo).kf = kfo := by
  rcases pre with _ | ⟨q1, _ | ⟨q2, r⟩⟩ <;> rfl

theorem accOfSlots_setKf (pre : List (Id × Bool))
    (kfo kfo' : Option (Id × Nat)) :
    ({ accOfSlots pre kfo with kf := kfo' } : UncutVScan)
      = accOfSlots pre kfo' := by
  rcases pre with _ | ⟨q1, _ | ⟨q2, r⟩⟩ <;> rfl

/-- Scanning one edge cell: registers the slots whose end vertex is `kv`,
aborting exactly when this would exceed two slots. -/
theorem scanV_edge (s : Complex) (kv sc : Id) (rest : List Id)
    (sv ev : Option Id) (dd : KeyEdgeData)
    (hdat : s.dataOf sc = some (.keyEdge sv ev dd))
    (pre : List (Id × Bool)) (kfo : Option (Id × Nat))
    (hlen : pre.length ≤ 2) :
    scanUncutV s kv (sc :: rest) (accOfSlots pre kfo) =
      if 2 < pre.length +
          ((if sv = some kv then [(sc, true)] else []) ++
           (if ev = some kv then [(sc, false)] else [])).length then none
      else scanUncutV s kv rest
        (accOfSlots (pre ++
          ((if sv = some kv then [(sc, true)] else []) ++
           (if ev = some kv then [(sc, false)] else []))) kfo) := by
  rw [scanUncutV]
  simp only [hdat]
  rcases pre with _ | ⟨p1, _ | ⟨p2, _ | ⟨p3, pre3⟩⟩⟩
  · by_cases hsv : sv = some kv
    · by_cases hev : ev = some kv
      · simp only [if_pos hsv, if_pos hev]; rfl
      · simp only [if_pos hsv, if_neg hev]; rfl
    · by_cases hev : ev = some kv
      · simp only [if_neg hsv, if_pos hev]; rfl
      · simp only [if_neg hsv, if_neg hev]; rfl
  · by_cases hsv : sv = some kv
    · by_cases hev : ev = some kv
      · simp only [if_pos hsv, if_pos hev]; rfl
      · simp only [if_pos hsv, if_neg hev]; rfl
    · by_cases hev : ev = some kv
      · simp only [if_neg hsv, if_pos hev]; rfl
      · simp only [if_neg hsv, if_neg hev]; rfl
  · by_cases hsv : sv = some kv
    · by_cases hev : ev = some kv
      · simp only [if_pos hsv, if_pos hev]; rfl
      · simp only [if_pos hsv, if_neg hev]; rfl
    · by_cases hev : ev = some kv
      · simp only [if_neg hsv, if_pos hev]; rfl
      · simp only [if_neg hsv, if_neg hev]; rfl
  · exact absurd hlen (by simp)

/-- The star scan of `prepareUncutAtKeyVertex_`, characterized: it aborts
exactly when a third end slot, a second Steiner slot, or an incident
inbetween vertex appears; otherwise it returns the accumulator extended by
the end slots and Steiner usages of the scanned cells. -/
theorem scanV_chars (s : Complex) (kv : Id) :
    ∀ (L : List Id) (pre : List (Id × Bool)) (kfo : Option (Id × Nat)),
      pre.length ≤ 2 →
      (3 ≤ pre.length + (endSlotsIn s kv L).length ∨
          2 ≤ kfCount kfo + steinerUsesIn s kv L ∨
          hasInbetweenIn s kv L = true →
        scanUncutV s kv L (accOfSlots pre kfo) = none) ∧
      (pre.length + (endSlotsIn s kv L).length ≤ 2 →
        kfCount kfo + steinerUsesIn s kv L ≤ 1 →
        hasInbetweenIn s kv L = false →
        ∃ kfo', scanUncutV s kv L (accOfSlots pre kfo)
            = some (accOfSlots (pre ++ endSlotsIn s kv L) kfo') ∧
          kfCount kfo' = kfCount kfo + steinerUsesIn s kv L) := by
  intro L
  induction L with
  | nil =>
    intro pre kfo hlen
    rw [endSlotsIn_nil, steinerUsesIn_nil, hasInbetweenIn_nil]
    constructor
    · intro habort
      have hk := kfCount_le_one kfo
      rcases habort with h3 | h2 | hib
      · simp only [List.length_nil] at h3
        omega
      · omega
      · cases hib
    · intro _ _ _
      exact ⟨kfo, by rw [List.append_nil]; rfl, by simp⟩
  | cons sc rest ih =>
    intro pre kfo hlen
    rw [endSlotsIn_cons, steinerUsesIn_cons, hasInbetweenIn_cons]
    rcases hdat : s.dataOf sc with _ | nd
    · have hbe : ((none : Option NodeData) == some NodeData.inbetweenVertex)
          = false := rfl
      rw [scanUncutV]
      simp only [hdat, hbe, Bool.false_or, List.nil_append, Nat.zero_add]
      exact ih pre kfo hlen
    · cases nd
      case keyEdge sv ev dd =>
        have hbe : (some (NodeData.keyEdge sv ev dd)
            == some NodeData.inbetweenVertex) = false := rfl
        simp only [hbe, Bool.false_or, Nat.zero_add]
        rw [scanV_edge s kv sc rest sv ev dd hdat pre kfo hlen]
        by_cases hov : 2 < pre.length +
            ((if sv = some kv then [(sc, true)] else []) ++
             (if ev = some kv then [(sc, false)] else [])).length
        · rw [if_pos hov]
          constructor
          · intro _
            rfl
          · intro h1 _ _
            exfalso
            rw [List.length_append] at h1
            omega
        · rw [if_neg hov]
          have hlen' : (pre ++
              ((if sv = some kv then [(sc, true)] else []) ++
               (if ev = some kv then [(sc, false)] else []))).length ≤ 2 := by
            rw [List.length_append]
            omega
          have hih := ih (pre ++
            ((if sv = some kv then [(sc, true)] else []) ++
             (if ev = some kv then [(sc, false)] else []))) kfo hlen'
          constructor
          · intro habort
            refine hih.1 ?_
            rcases habort with h3 | h | hib
            · refine Or.inl ?_
              simp only [List.length_append] at h3 ⊢
              omega
            · exact Or.inr (Or.inl h)
            · exact Or.inr (Or.inr hib)
          · intro h1 h2 h3
            obtain ⟨kfo', hs', hc'⟩ := hih.2
              (by simp only [List.length_append] at h1 ⊢; omega) h2 h3
            refine ⟨kfo', ?_, hc'⟩
            rw [List.append_assoc] at hs'
            exact hs'
      case keyFace cycles fd =>
        have hbe : (some (NodeData.keyFace cycles fd)
            == some NodeData.inbetweenVertex) = false := rfl
        rw [scanUncutV]
        simp only [hdat, hbe, Bool.false_or, List.nil_append]
        obtain ⟨r, hr, hres⟩ := scanV_face kv sc cycles (accOfSlots pre kfo) 0
        rw [accOfSlots_kf] at hres
        rw [hr]
        rcases hres with ⟨hge, rfl⟩ | ⟨hle, kfo', i', rfl, hcnt⟩
        · dsimp only
          constructor
          · intro _
            rfl
          · intro _ h2 _
            exfalso
            omega
        · rw [accOfSlots_setKf]
          dsimp only
          have hih := ih pre kfo' hlen
          constructor
          · intro habort
            refine hih.1 ?_
            rcases habort with h3 | h | hib
            · exact Or.inl h3
            · exact Or.inr (Or.inl (by omega))
            · exact Or.inr (Or.inr hib)
          · intro h1 h2 h3
            obtain ⟨kfo'', hs', hc''⟩ := hih.2 h1 (by omega) h3
            exact ⟨kfo'', hs', by omega⟩
      case inbetweenVertex =>
        have hbe : ((some NodeData.inbetweenVertex : Option NodeData)
            == some NodeData.inbetweenVertex) = true := rfl
        rw [scanUncutV]
        simp only [hdat, hbe]
        constructor
        · intro _
          trivial
        · intro _ _ h3
          exact absurd h3 (by simp)
      case group =>
        have hbe : ((some NodeData.group : Option NodeData)
            == some NodeData.inbetweenVertex) = false := rfl
        rw [scanUncutV]
        simp only [hdat, hbe, Bool.false_or, List.nil_append, Nat.zero_add]
        exact ih pre kfo hlen
      case keyVertex pos =>
        have hbe : (some (NodeData.keyVertex pos)
            == some NodeData.inbetweenVertex) = false := rfl
        rw [scanUncutV]
        simp only [hdat, hbe, Bool.false_or, List.nil_append, Nat.zero_add]
        exact ih pre kfo hlen
      case inbetweenEdge =>
        have hbe : ((some NodeData.inbetweenEdge : Option NodeData)
            == some NodeData.inbetweenVertex) = false := rfl
        rw [scanUncutV]
        simp only [hdat, hbe, Bool.false_or, List.nil_append, Nat.zero_add]
        exact ih pre kfo hlen
      case inbetweenFace =>
        have hbe : ((some NodeData.inbetweenFace : Option NodeData)
            == some NodeData.inbetweenVertex) = false := rfl
        rw [scanUncutV]
        simp only [hdat, hbe, Bool.false_or, List.nil_append, Nat.zero_add]
        exact ih pre kfo hlen

/-- Every end slot names an open edge of the scanned list with the matching
end vertex at `kv`. -/
theorem endSlotsIn_spec (s : Complex) (kv : Id) :
    ∀ (L : List Id) (q : Id × Bool), q ∈ endSlotsIn s kv L →
      q.1 ∈ L ∧ ∃ sv ev dd, s.dataOf q.1 = some (.keyEdge sv ev dd) ∧
        (q.2 = true → sv = some kv) ∧ (q.2 = false → ev = some kv) := by
  intro L
  induction L with
  | nil =>
    intro q hq
    rw [endSlotsIn_nil] at hq
    exact absurd hq (List.not_mem_nil q)
  | cons sc rest ih =>
    intro q hq
    rw [endSlotsIn_cons] at hq
    rcases List.mem_append.1 hq with hh | ht
    · rcases hdat : s.dataOf sc with _ | nd
      · simp only [hdat] at hh
        exact absurd hh (List.not_mem_nil q)
      · cases nd
        case keyEdge sv ev dd =>
          simp only [hdat] at hh
          rcases List.mem_append.1 hh with h1 | h2
          · by_cases hsv : sv = some kv
            · rw [if_pos hsv, List.mem_singleton] at h1
              subst h1
              exact ⟨List.mem_cons_self _ _, sv, ev, dd, hdat,
                fun _ => hsv, fun hf => absurd hf (by simp)⟩
            · rw [if_neg hsv] at h1
              exact absurd h1 (List.not_mem_nil _)
          · by_cases hev : ev = some kv
            · rw [if_pos hev, List.mem_singleton] at h2
              subst h2
              exact ⟨List.mem_cons_self _ _, sv, ev, dd, hdat,
                fun ht' => absurd ht' (by simp), fun _ => hev⟩
            · rw [if_neg hev] at h2
              exact absurd h2 (List.not_mem_nil _)
        all_goals {
          simp only [hdat] at hh
          exact absurd hh (List.not_mem_nil q) }
    · obtain ⟨hmem, hrest⟩ := ih q ht
      exact ⟨List.mem_cons_of_mem _ hmem, hrest⟩

/-- `prepareUncutAtKeyVertex_` validates exactly the `uncutVOkB` condition,
and on a valid configuration returns either the Steiner record or the
two-halfedge record built from the two collected end slots. -/
theorem prepareUncutAtKeyVertex_chars (s : Complex) (kv : Id) :
    ((prepareUncutAtKeyVertex s kv).isValid = true ↔ uncutVOkB s kv = true) ∧
    (uncutVOkB s kv = true →
      ((∃ kf ci, prepareUncutAtKeyVertex s kv
          = { kf := some kf, cycleIndex := ci, isValid := true }) ∨
       (∃ q1 q2, endSlotsOf s kv = [q1, q2] ∧
         prepareUncutAtKeyVertex s kv
           = { khe1 := some ⟨q1.1, !q1.2⟩, khe2 := some ⟨q2.1, q2.2⟩,
               isValid := true }))) := by
  have hacc : ({} : UncutVScan) = accOfSlots [] none := rfl
  have hchars := scanV_chars s kv (s.starOf kv) [] none (by simp)
  rw [show endSlotsIn s kv (s.starOf kv) = endSlotsOf s kv from rfl,
    show steinerUsesIn s kv (s.starOf kv) = steinerUsesOf s kv from rfl,
    show hasInbetweenIn s kv (s.starOf kv) = hasInbetweenAt s kv from rfl]
    at hchars
  simp only [List.length_nil, List.nil_append, Nat.zero_add, kfCount]
    at hchars
  cases hib : hasInbetweenAt s kv with
  | true =>
    have hnone := hchars.1 (Or.inr (Or.inr hib))
    have hprep : prepareUncutAtKeyVertex s kv = {} := by
      unfold prepareUncutAtKeyVertex
      rw [hacc, hnone]
    have hok : uncutVOkB s kv = false := by
      unfold uncutVOkB
      rw [hib]
      rfl
    rw [hprep, hok]
    simp
  | false =>
    rcases hE : endSlotsOf s kv with _ | ⟨q1, _ | ⟨q2, _ | ⟨q3, Erest⟩⟩⟩
    · rcases hS : steinerUsesOf s kv with _ | S1
      · obtain ⟨kfo', hscan, hcnt⟩ := hchars.2
          (by simp only [hE, List.length_nil]; omega)
          (by simp only [hS]; omega) hib
        rw [hS] at hcnt
        rcases kfo' with _ | ⟨kf, ci⟩
        · have hprep : prepareUncutAtKeyVertex s kv = {} := by
            unfold prepareUncutAtKeyVertex
            rw [hacc, hscan, hE]
            rfl
          have hok : uncutVOkB s kv = false := by
            unfold uncutVOkB
            rw [hib, hE, hS]
            rfl
          rw [hprep, hok]
          simp
        · simp at hcnt
      · rcases S1 with _ | S2
        · obtain ⟨kfo', hscan, hcnt⟩ := hchars.2
            (by simp only [hE, List.length_nil]; omega)
            (by simp only [hS]; omega) hib
          rw [hS] at hcnt
          rcases kfo' with _ | ⟨kf, ci⟩
          · simp at hcnt
          · have hprep : prepareUncutAtKeyVertex s kv
                = { kf := some kf, cycleIndex := ci, isValid := true } := by
              unfold prepareUncutAtKeyVertex
              rw [hacc, hscan, hE]
              rfl
            have hok : uncutVOkB s kv = true := by
              unfold uncutVOkB
              rw [hib, hE, hS]
              rfl
            rw [hprep, hok]
            exact ⟨by simp, fun _ => Or.inl ⟨kf, ci, rfl⟩⟩
        · have hnone := hchars.1 (Or.inr (Or.inl (by omega)))
          have hprep : prepareUncutAtKeyVertex s kv = {} := by
            unfold prepareUncutAtKeyVertex
            rw [hacc, hnone]
          have hok : uncutVOkB s kv = false := by
            unfold uncutVOkB
            rw [hib, hE, hS]
            rfl
          rw [hprep, hok]
          simp
    · rcases hS : steinerUsesOf s kv with _ | S1
      · obtain ⟨kfo', hscan, hcnt⟩ := hchars.2
          (by simp only [hE, List.length_cons, List.length_nil]; omega)
          (by simp only [hS]; omega) hib
        rw [hS] at hcnt
        rcases kfo' with _ | ⟨kf, ci⟩
        · have hprep : prepareUncutAtKeyVertex s kv
              = { khe1 := some ⟨q1.1, !q1.2⟩ } := by
            unfold prepareUncutAtKeyVertex
            rw [hacc, hscan, hE]
            rfl
          have hok : uncutVOkB s kv = false := by
            unfold uncutVOkB
            rw [hib, hE, hS]
            rfl
          rw [hprep, hok]
          simp
        · simp at hcnt
      · rcases S1 with _ | S2
        · obtain ⟨kfo', hscan, hcnt⟩ := hchars.2
            (by simp only [hE, List.length_cons, List.length_nil]; omega)
            (by simp only [hS]; omega) hib
          rw [hS] at hcnt
          rcases kfo' with _ | ⟨kf, ci⟩
          · simp at hcnt
          · have hprep : prepareUncutAtKeyVertex s kv
                = { khe1 := some ⟨q1.1, !q1.2⟩, kf := some kf } := by
              unfold prepareUncutAtKeyVertex
              rw [hacc, hscan, hE]
              rfl
            have hok : uncutVOkB s kv = false := by
              unfold uncutVOkB
              rw [hib, hE, hS]
              rfl
            rw [hprep, hok]
            simp
        · have hnone := hchars.1 (Or.inr (Or.inl (by omega)))
          have hprep : prepareUncutAtKeyVertex s kv = {} := by
            unfold prepareUncutAtKeyVertex
            rw [hacc, hnone]
          have hok : uncutVOkB s kv = false := by
            unfold uncutVOkB
            rw [hib, hE, hS]
            rfl
          rw [hprep, hok]
          simp
    · rcases hS : steinerUsesOf s kv with _ | S1
      · obtain ⟨kfo', hscan, hcnt⟩ := hchars.2
          (by simp only [hE, List.length_cons, List.length_nil]; omega)
          (by simp only [hS]; omega) hib
        rw [hS] at hcnt
        rcases kfo' with _ | ⟨kf, ci⟩
        swap
        · simp at hcnt
        by_cases hq : q1.1 = q2.1
        · cases hmix : hasMixedDirectionLoop s kv q1.1 with
          | false =>
            have hprep : prepareUncutAtKeyVertex s kv
                = { khe1 := some ⟨q1.1, !q1.2⟩, khe2 := some ⟨q2.1, q2.2⟩,
                    isValid := true } := by
              unfold prepareUncutAtKeyVertex
              rw [hacc, hscan, hE]
              dsimp only [accOfSlots]
              rw [if_neg (by simpa using hq), if_neg (by simp [hmix])]
            have hok : uncutVOkB s kv = true := by
              unfold uncutVOkB
              rw [hib, hE, hS]
              dsimp only
              rw [if_pos hq, hmix]
              rfl
            rw [hprep, hok]
            exact ⟨by simp, fun _ => Or.inr ⟨q1, q2, rfl, rfl⟩⟩
          | true =>
            have hprep : prepareUncutAtKeyVertex s kv
                = { khe1 := some ⟨q1.1, !q1.2⟩,
                    khe2 := some ⟨q2.1, q2.2⟩ } := by
              unfold prepareUncutAtKeyVertex
              rw [hacc, hscan, hE]
              dsimp only [accOfSlots]
              rw [if_neg (by simpa using hq), if_pos hmix]
            have hok : uncutVOkB s kv = false := by
              unfold uncutVOkB
              rw [hib, hE, hS]
              dsimp only
              rw [if_pos hq, hmix]
              rfl
            rw [hprep, hok]
            simp
        · cases huts : hasUturnAt s kv with
          | false =>
            have hprep : prepareUncutAtKeyVertex s kv
                = { khe1 := some ⟨q1.1, !q1.2⟩, khe2 := some ⟨q2.1, q2.2⟩,
                    isValid := true } := by
              unfold prepareUncutAtKeyVertex
              rw [hacc, hscan, hE]
              dsimp only [accOfSlots]
              rw [if_pos (by simpa using hq), if_neg (by simp [huts])]
            have hok : uncutVOkB s kv = true := by
              unfold uncutVOkB
              rw [hib, hE, hS]
              dsimp only
              rw [if_neg hq, huts]
              rfl
            rw [hprep, hok]
            exact ⟨by simp, fun _ => Or.inr ⟨q1, q2, rfl, rfl⟩⟩
          | true =>
            have hprep : prepareUncutAtKeyVertex s kv
                = { khe1 := some ⟨q1.1, !q1.2⟩,
                    khe2 := some ⟨q2.1, q2.2⟩ } := by
              unfold prepareUncutAtKeyVertex
              rw [hacc, hscan, hE]
              dsimp only [accOfSlots]
              rw [if_pos (by simpa using hq), if_pos huts]
            have hok : uncutVOkB s kv = false := by
              unfold uncutVOkB
              rw [hib, hE, hS]
              dsimp only
              rw [if_neg hq, huts]
              rfl
            rw [hprep, hok]
            simp
      · rcases S1 with _ | S2
        · obtain ⟨kfo', hscan, hcnt⟩ := hchars.2
            (by simp only [hE, List.length_cons, List.length_nil]; omega)
            (by simp only [hS]; omega) hib
          rw [hS] at hcnt
          rcases kfo' with _ | ⟨kf, ci⟩
          · simp at hcnt
          · have hprep : prepareUncutAtKeyVertex s kv
                = { khe1 := some ⟨q1.1, !q1.2⟩, khe2 := some ⟨q2.1, q2.2⟩,
                    kf := some kf } := by
              unfold prepareUncutAtKeyVertex
              rw [hacc, hscan, hE]
              rfl
            have hok : uncutVOkB s kv = false := by
              unfold uncutVOkB
              rw [hib, hE, hS]
              rfl
            rw [hprep, hok]
            simp
        · have hnone := hchars.1 (Or.inr (Or.inl (by omega)))
          have hprep : prepareUncutAtKeyVertex s kv = {} := by
            unfold prepareUncutAtKeyVertex
            rw [hacc, hnone]
          have hok : uncutVOkB s kv = false := by
            unfold uncutVOkB
            rw [hib, hE, hS]
            rfl
          rw [hprep, hok]
          simp
    · have hnone := hchars.1
        (Or.inl (by simp only [hE, List.length_cons]; omega))
      have hprep : prepareUncutAtKeyVertex s kv = {} := by
        unfold prepareUncutAtKeyVertex
        rw [hacc, hnone]
      have hok : uncutVOkB s kv = false := by
        unfold uncutVOkB
        rw [hib, hE]
        rfl
      rw [hprep, hok]
      simp

theorem root_substituteEdge (s : Complex) (ok nk : KeyHalfedge) :
    (substituteEdge s ok nk).root = s.root := by
  unfold substituteEdge
  split
  · rfl
  · refine root_foldl (fun t c => ?_) _ s
    dsimp only
    rw [root_addToBoundary, root_removeFromBoundary]
    rfl

/-- The face-rewrite fold of `uncutAtKeyVertex`'s concatenation branch
preserves the root. -/
theorem root_uncutVConcatFold (e1 : Id) (d1 : Bool) (e2 : Id)
    (newKe targetKv : Id) :
    ∀ (L : List Id) (t0 : Complex),
      (L.foldl (fun t starCell =>
        match t.dataOf starCell with
        | some (.keyFace cycles fd) =>
          let t1 := t.modifyData starCell (fun _ =>
            .keyFace (cycles.map (fun c =>
              match c with
              | .steiner v => .steiner v
              | .walk hs => .walk (hs.filterMap (fun h =>
                  if h.edge = e1 then
                    some ⟨newKe, h.direction = d1⟩
                  else if h.edge = e2 then none
                  else some h)))) fd)
          let t2 := removeFromBoundary t1 starCell e1
          let t3 := removeFromBoundary t2 starCell e2
          let t4 := removeFromBoundary t3 starCell targetKv
          addToBoundary t4 starCell newKe
        | _ => t) t0).root = t0.root := by
  intro L t0
  refine root_foldl (fun t starCell => ?_) L t0
  rcases hd : t.dataOf starCell with _ | nd
  · rfl
  · cases nd
    case keyFace cycles fd =>
      dsimp only
      rw [root_addToBoundary, root_removeFromBoundary,
        root_removeFromBoundary, root_removeFromBoundary]
      rfl
    all_goals rfl

end Operations

/-- Counterexample state for C3: a loop edge (id 3) at vertex 1, together
with a face (id 9) whose single cycle walks the loop once in each
direction. -/
def witnessThreeState : Complex :=
  { nodes := [(0, { children := [1, 3, 9], data := .group }),
              (1, { parent := some 0, star := [3, 9],
                    data := .keyVertex ⟨0, 0⟩ }),
              (3, { parent := some 0, boundary := [1], star := [9],
                    data := .keyEdge (some 1) (some 1)
                      ⟨[⟨0, 0⟩, ⟨1, 0⟩, ⟨0, 0⟩]⟩ }),
              (9, { parent := some 0, boundary := [3, 1],
                    data := .keyFace [.walk [⟨3, true⟩, ⟨3, false⟩]]
                      ⟨[]⟩ })],
    root := some 0, version := 0, nextId := 10 }

/-- Counterexample for C3: in `witnessThreeState` the vertex 1 satisfies the
claim's pattern (a) — exactly two open-edge halfedge-ends meet at it and it
has no other usage — yet `uncutAtKeyVertex` fails and leaves the state
unchanged, because the loop's face cycle mixes directions
(`hasMixedDirectionLoop`). -/
theorem claim_C3_counterexample :
    Operations.specUncutVPatternA witnessThreeState 1 = true ∧
    Operations.hasMixedDirectionLoop witnessThreeState 1 3 = true ∧
    (Operations.uncutAtKeyVertex oracle0 witnessThreeState 1 false).2.success
      = false ∧
    (Operations.uncutAtKeyVertex oracle0 witnessThreeState 1 false).1
      = witnessThreeState := by
  refine ⟨by decide, by decide, by decide, by decide⟩

/-- C3 (amended): `uncutAtKeyVertex(kv, smoothJoin)` succeeds exactly when
`uncutVOkB` holds: no incident inbetween vertex, and either (b) exactly one
Steiner usage of `kv` and no end slot, or (a') exactly two open-edge ends at
`kv` and no Steiner usage AND the cycles pass the u-turn test (two distinct
edges) or the mixed-direction-loop test (a loop edge) — the claim's pattern
(a) alone does not suffice.  On failure the state is returned unchanged (no
exception); on success `kv` is hard-deleted: no longer findable and with an
empty star.  (`hparents` and `hedges` are tree-shape/edge well-formedness
of the cells of `kv`'s star; `hkvr` says `kv` is not the root node.) -/
theorem claim_C3 (o : Operations.GeomOracle) (s : Complex) (kv : Id)
    (sj : Bool)
    (hparents : ∀ c ∈ s.starOf kv, ∃ p ∈ (s.parentOf c).toList,
      c ∈ s.childrenOf p)
    (hedges : Operations.edgeEndsOk s kv = true)
    (hkvr : ¬ some kv = s.root) :
    ((Operations.uncutAtKeyVertex o s kv sj).2.success = true ↔
      Operations.uncutVOkB s kv = true) ∧
    ((Operations.uncutAtKeyVertex o s kv sj).2.success = false →
      (Operations.uncutAtKeyVertex o s kv sj).1 = s) ∧
    ((Operations.uncutAtKeyVertex o s kv sj).2.success = true →
      (Operations.uncutAtKeyVertex o s kv sj).1.find? kv = none ∧
      (Operations.uncutAtKeyVertex o s kv sj).1.starOf kv = []) := by
  by_cases hok : Operations.uncutVOkB s kv = true
  · rcases (Operations.prepareUncutAtKeyVertex_chars s kv).2 hok with
      ⟨kf, ci, hprep⟩ | ⟨q1, q2, hE, hprep⟩
    · -- Steiner cycle removal
      have hmain : (Operations.uncutAtKeyVertex o s kv sj).2.success = true ∧
          (Operations.uncutAtKeyVertex o s kv sj).1.find? kv = none := by
        unfold Operations.uncutAtKeyVertex
        dsimp only
        rw [hprep]
        dsimp only
        simp only [Bool.not_true]
        rw [if_neg Bool.false_ne_true]
        refine ⟨rfl, ?_⟩
        refine Operations.hardDelete_erases o _ kv false ?_
        rw [Operations.root_removeFromBoundary]
        exact hkvr
      refine ⟨⟨fun _ => hok, fun _ => hmain.1⟩, fun hfalse => ?_,
        fun _ => ⟨hmain.2, Operations.starOf_eq_nil_of_find? hmain.2⟩⟩
      cases hmain.1.symm.trans hfalse
    · -- two collected end slots
      have hq1m : q1 ∈ Operations.endSlotsIn s kv (s.starOf kv) := by
        rw [show Operations.endSlotsIn s kv (s.starOf kv)
          = Operations.endSlotsOf s kv from rfl, hE]
        exact List.mem_cons_self _ _
      have hq2m : q2 ∈ Operations.endSlotsIn s kv (s.starOf kv) := by
        rw [show Operations.endSlotsIn s kv (s.starOf kv)
          = Operations.endSlotsOf s kv from rfl, hE]
        exact List.mem_cons_of_mem _ (List.mem_cons_self _ _)
      obtain ⟨hm1, sv1, ev1, dd1, hdat1, hq1t, hq1f⟩ :=
        Operations.endSlotsIn_spec s kv (s.starOf kv) q1 hq1m
      obtain ⟨hm2, sv2, ev2, dd2, hdat2, hq2t, hq2f⟩ :=
        Operations.endSlotsIn_spec s kv (s.starOf kv) q2 hq2m
      have hiso1 : sv1.isSome = ev1.isSome := by
        have h := List.all_eq_true.1 hedges q1.1 hm1
        simp only [hdat1] at h
        simpa using h
      have hiso2 : sv2.isSome = ev2.isSome := by
        have h := List.all_eq_true.1 hedges q2.1 hm2
        simp only [hdat2] at h
        simpa using h
      have hv1 : ∃ v1, KeyHalfedge.startVertexIn s ⟨q1.1, !q1.2⟩
          = some v1 := by
        unfold KeyHalfedge.startVertexIn
        cases hb1 : q1.2
        · have hev1 : ev1 = some kv := hq1f hb1
          have hsv1 : ∃ w, sv1 = some w := by
            rw [hev1] at hiso1
            exact Option.isSome_iff_exists.1 (by rw [hiso1]; rfl)
          obtain ⟨w, hw⟩ := hsv1
          refine ⟨w, ?_⟩
          dsimp only
          rw [if_pos (by decide : (!false) = true)]
          unfold Complex.startVertexOf
          rw [hdat1, hw]
        · have hsv1 : sv1 = some kv := hq1t hb1
          have hev1 : ∃ w, ev1 = some w := by
            rw [hsv1] at hiso1
            exact Option.isSome_iff_exists.1 (by rw [← hiso1]; rfl)
          obtain ⟨w, hw⟩ := hev1
          refine ⟨w, ?_⟩
          dsimp only
          rw [if_neg (by simp)]
          unfold Complex.endVertexOf
          rw [hdat1, hw]
      have hv2 : ∃ v2, KeyHalfedge.endVertexIn s ⟨q2.1, q2.2⟩ = some v2 := by
        unfold KeyHalfedge.endVertexIn
        cases hb2 : q2.2
        · have hev2 : ev2 = some kv := hq2f hb2
          have hsv2 : ∃ w, sv2 = some w := by
            rw [hev2] at hiso2
            exact Option.isSome_iff_exists.1 (by rw [hiso2]; rfl)
          obtain ⟨w, hw⟩ := hsv2
          refine ⟨w, ?_⟩
          dsimp only
          rw [if_neg (by simp)]
          unfold Complex.startVertexOf
          rw [hdat2, hw]
        · have hsv2 : sv2 = some kv := hq2t hb2
          have hev2 : ∃ w, ev2 = some w := by
            rw [hsv2] at hiso2
            exact Option.isSome_iff_exists.1 (by rw [← hiso2]; rfl)
          obtain ⟨w, hw⟩ := hev2
          refine ⟨w, ?_⟩
          dsimp only
          rw [if_pos rfl]
          unfold Complex.endVertexOf
          rw [hdat2, hw]
      obtain ⟨v1, hv1⟩ := hv1
      obtain ⟨v2, hv2⟩ := hv2
      have hed1 : s.edgeDataOf q1.1 = some dd1 := by
        unfold Complex.edgeDataOf
        rw [hdat1]
      have hed2 : s.edgeDataOf q2.1 = some dd2 := by
        unfold Complex.edgeDataOf
        rw [hdat2]
      obtain ⟨p1, hp1mem, hchild1⟩ := hparents q1.1 hm1
      obtain ⟨p2, hp2mem, hchild2⟩ := hparents q2.1 hm2
      have hpar1 : s.parentOf q1.1 = some p1 := by
        rcases hps : s.parentOf q1.1 with _ | q
        · rw [hps] at hp1mem; cases hp1mem
        · rw [hps] at hp1mem
          simp only [Option.toList_some, List.mem_singleton] at hp1mem
          rw [hp1mem]
      have hpar2 : s.parentOf q2.1 = some p2 := by
        rcases hps : s.parentOf q2.1 with _ | q
        · rw [hps] at hp2mem; cases hp2mem
        · rw [hps] at hp2mem
          simp only [Option.toList_some, List.mem_singleton] at hp2mem
          rw [hp2mem]
      by_cases hsame : q1.1 = q2.1
      · -- loop edge: closed into a closed edge
        have hmain : (Operations.uncutAtKeyVertex o s kv sj).2.success
              = true ∧
            (Operations.uncutAtKeyVertex o s kv sj).1.find? kv = none := by
          unfold Operations.uncutAtKeyVertex
          dsimp only
          rw [hprep]
          dsimp only
          simp only [Bool.not_true]
          rw [if_neg Bool.false_ne_true]
          rw [if_pos hsame]
          rw [hpar1, hed1]
          dsimp only
          refine ⟨rfl, ?_⟩
          refine Operations.hardDelete_erases o _ kv false ?_
          rw [Operations.root_hardDelete,
            Operations.root_foldl
              (fun t x => Operations.root_removeFromBoundary t x kv),
            Operations.root_substituteEdge,
            Operations.root_createKeyClosedEdge]
          exact hkvr
        refine ⟨⟨fun _ => hok, fun _ => hmain.1⟩, fun hfalse => ?_,
          fun _ => ⟨hmain.2, Operations.starOf_eq_nil_of_find? hmain.2⟩⟩
        cases hmain.1.symm.trans hfalse
      · -- two distinct edges: concatenation
        have hfb0 : Operations.findBottomMost s [q1.1, q2.1] =
            (s.childrenOf p1).find? (fun c => [q1.1, q2.1].contains c) := by
          unfold Operations.findBottomMost
          dsimp only
          rw [hpar1]
        have hfb : ∃ bmf, Operations.findBottomMost s [q1.1, q2.1]
            = some bmf ∧ ∃ pb, s.parentOf bmf = some pb := by
          rcases hfind : (s.childrenOf p1).find?
              (fun c => [q1.1, q2.1].contains c) with _ | bmf
          · exfalso
            have hnone := List.find?_eq_none.1 hfind q1.1 hchild1
            simp at hnone
          · refine ⟨bmf, hfb0.trans hfind, ?_⟩
            have hbm : bmf ∈ [q1.1, q2.1] := by
              have hq := List.find?_some hfind
              simpa [List.elem_iff] using hq
            rcases List.mem_cons.1 hbm with rfl | hbm
            · exact ⟨p1, hpar1⟩
            · rw [List.mem_singleton] at hbm
              subst hbm
              exact ⟨p2, hpar2⟩
        obtain ⟨bmf, hbmf, pb, hparb⟩ := hfb
        have hmain : (Operations.uncutAtKeyVertex o s kv sj).2.success
              = true ∧
            (Operations.uncutAtKeyVertex o s kv sj).1.find? kv = none := by
          unfold Operations.uncutAtKeyVertex
          dsimp only
          rw [hprep]
          dsimp only
          simp only [Bool.not_true]
          rw [if_neg Bool.false_ne_true]
          rw [if_neg hsame]
          rw [hv1, hv2, hed1, hed2]
          dsimp only
          rw [hbmf]
          dsimp only
          rw [hparb]
          dsimp only
          refine ⟨rfl, ?_⟩
          refine Operations.hardDelete_erases o _ kv false ?_
          rw [Operations.root_hardDelete, Operations.root_hardDelete,
            Operations.root_uncutVConcatFold,
            Operations.root_createKeyOpenEdge]
          exact hkvr
        refine ⟨⟨fun _ => hok, fun _ => hmain.1⟩, fun hfalse => ?_,
          fun _ => ⟨hmain.2, Operations.starOf_eq_nil_of_find? hmain.2⟩⟩
        cases hmain.1.symm.trans hfalse
  · have hval : (Operations.prepareUncutAtKeyVertex s kv).isValid
        = false := by
      rcases Bool.eq_false_or_eq_true
          (Operations.prepareUncutAtKeyVertex s kv).isValid with hv | hv
      · exact absurd
          ((Operations.prepareUncutAtKeyVertex_chars s kv).1.1 hv) hok
      · exact hv
    have hres : Operations.uncutAtKeyVertex o s kv sj = (s, {}) := by
      unfold Operations.uncutAtKeyVertex
      dsimp only
      rw [hval]
      simp only [Bool.not_false]
      rw [if_pos trivial]
    rw [hres]
    refine ⟨⟨fun hsucc => absurd hsucc Bool.false_ne_true,
      fun h2' => absurd h2' hok⟩, fun _ => rfl, fun hsucc => ?_⟩
    exact absurd hsucc Bool.false_ne_true

/-- Witness state for C3: two open edges (5 and 6) meeting at vertex 4. -/
def uncutThreeWitnessState : Complex :=
  { nodes := [(0, { children := [1, 2, 5, 6, 4], data := .group }),
              (1, { parent := some 0, star := [5], data := .keyVertex ⟨0, 0⟩ }),
              (2, { parent := some 0, star := [6], data := .keyVertex ⟨2, 0⟩ }),
              (4, { parent := some 0, star := [5, 6],
                    data := .keyVertex ⟨1, 0⟩ }),
              (5, { parent := some 0, boundary := [1, 4],
                    data := .keyEdge (some 1) (some 4) ⟨[⟨0, 0⟩, ⟨1, 0⟩]⟩ }),
              (6, { parent := some 0, boundary := [4, 2],
                    data := .keyEdge (some 4) (some 2) ⟨[⟨1, 0⟩, ⟨2, 0⟩]⟩ })],
    root := some 0, version := 0, nextId := 7 }

/-- Witness for C3: uncutting at the valid two-edge vertex 4 of
`uncutThreeWitnessState` succeeds and hard-deletes the vertex. -/
theorem claim_C3_witness :
    (Operations.uncutAtKeyVertex oracle0 uncutThreeWitnessState 4
      false).2.success = true ∧
    (Operations.uncutAtKeyVertex oracle0 uncutThreeWitnessState 4
      false).1.find? 4 = none := by
  have h := claim_C3 oracle0 uncutThreeWitnessState 4 false (by decide)
    (by decide) (by decide)
  have hs := h.1.2 (by decide)
  exact ⟨hs, (h.2.2 hs).1⟩

/-! ## Claim C1: the boundary/star symmetry invariant at every observable point

The invariant `Inv` (boundary/star symmetry plus the bookkeeping facts that
make it provable inductively) is shown to hold in a fresh complex and to be
preserved by every modelled public operation; `claim_C1` then states the
symmetry at every state reachable from `Complex.fresh` by a sequence of
public operations. -/

namespace Operations

/-- `Complex::clear()` leaves an empty node map, where the invariant is
vacuous. -/
theorem clear_inv (s : Complex) : s.clear.Inv :=
  ⟨fun _ hp => absurd hp (by simp [Complex.clear]),
   fun _ hp => absurd hp (by simp [Complex.clear]),
   fun _ hp => absurd hp (by simp [Complex.clear]),
   by simp [Complex.clear],
   fun _ hp => absurd hp (by simp [Complex.clear]),
   fun _ hp => absurd hp (by simp [Complex.clear])⟩

/-- Changing only the `root` field touches none of the invariant's data. -/
theorem invD_setRoot {D : List Id} {s : Complex} {r : Option Id}
    (h : s.InvD D) : (({ s with root := r } : Complex)).InvD D :=
  ⟨h.symm, h.bNodup, h.sNodup, h.keysNodup, h.keysLt, h.refsLt⟩

/-- `Complex::resetRoot()` re-establishes the invariant from scratch. -/
theorem resetRoot_inv (s : Complex) : (Complex.resetRoot s).1.Inv := by
  unfold Complex.resetRoot
  exact invD_setRoot (createRootGroupNode_invD (clear_inv s))

/-- A freshly constructed complex satisfies the invariant. -/
theorem fresh_inv : Complex.fresh.Inv := by
  unfold Complex.fresh
  exact resetRoot_inv {}

/-- `addToBoundary_` preserves the observable invariant (no deletion in
progress). -/
theorem addToBoundary_inv {s : Complex} (a b : Id) (h : s.Inv) :
    (addToBoundary s a b).Inv :=
  addToBoundary_invD a b (by simp) h

/-- `removeFromBoundary_` preserves the observable invariant. -/
theorem removeFromBoundary_inv {s : Complex} (a b : Id) (h : s.Inv) :
    (removeFromBoundary s a b).Inv :=
  removeFromBoundary_invD a b (by simp) h

/-- `addToBoundary_(FaceCell*, const KeyCycle&)` preserves the invariant. -/
theorem addCycleToBoundary_inv {s : Complex} {face : Id} {c : KeyCycle}
    (h : s.Inv) : (addCycleToBoundary s face c).Inv :=
  addCycleToBoundary_invD (by simp) h

/-- `Operations::setKeyVertexPosition` preserves the invariant (a pure
payload rewrite). -/
theorem setKeyVertexPosition_inv {s : Complex} (kv : Id) (pos : Vec2)
    (h : s.Inv) : (setKeyVertexPosition s kv pos).Inv := by
  unfold setKeyVertexPosition
  exact modifyData_invD h

/-- `Operations::substituteVertex_` preserves the invariant: each star cell
gets a payload rewrite plus one `removeFromBoundary_`/`addToBoundary_`
pair. -/
theorem substituteVertex_inv {s : Complex} (old new_ : Id) (h : s.Inv) :
    (substituteVertex s old new_).Inv := by
  unfold substituteVertex
  split
  · exact h
  · refine invD_foldl (fun t c _ ht => ?_) h
    dsimp only
    exact addToBoundary_inv _ _ (removeFromBoundary_inv _ _ (modifyData_invD ht))

/-- `Operations::substituteEdge_` preserves the invariant. -/
theorem substituteEdge_inv {s : Complex} (oldKhe newKhe : KeyHalfedge)
    (h : s.Inv) : (substituteEdge s oldKhe newKhe).Inv := by
  unfold substituteEdge
  split
  · exact h
  · refine invD_foldl (fun t c _ ht => ?_) h
    dsimp only
    exact addToBoundary_inv _ _ (removeFromBoundary_inv _ _ (modifyData_invD ht))

/-- `Operations::createKeyVertex` preserves the invariant. -/
theorem createKeyVertex_inv {s : Complex} (pos : Vec2) (pg : Id)
    (ns : Option Id) (h : s.Inv) : (createKeyVertex s pos pg ns).1.Inv := by
  unfold createKeyVertex
  exact createNodeAt_invD h

/-- `Operations::createKeyOpenEdge` preserves the invariant. -/
theorem createKeyOpenEdge_inv {s : Complex} (sv ev : Id) (d : KeyEdgeData)
    (pg : Id) (ns : Option Id) (h : s.Inv) :
    (createKeyOpenEdge s sv ev d pg ns).1.Inv := by
  unfold createKeyOpenEdge
  dsimp only
  exact addToBoundary_inv _ _ (addToBoundary_inv _ _ (createNodeAt_invD h))

/-- `Operations::createKeyClosedEdge` preserves the invariant. -/
theorem createKeyClosedEdge_inv {s : Complex} (d : KeyEdgeData) (pg : Id)
    (ns : Option Id) (h : s.Inv) :
    (createKeyClosedEdge s d pg ns).1.Inv := by
  unfold createKeyClosedEdge
  exact createNodeAt_invD h

/-- `Operations::createKeyFace` preserves the invariant. -/
theorem createKeyFace_inv {s : Complex} (cycles : List KeyCycle)
    (fd : KeyFaceData) (pg : Id) (ns : Option Id) (h : s.Inv) :
    (createKeyFace s cycles fd pg ns).1.Inv := by
  unfold createKeyFace
  dsimp only
  exact invD_foldl (fun t c _ ht => addCycleToBoundary_inv ht)
    (createNodeAt_invD h)

/-- `Operations::addCycleToFace` preserves the invariant. -/
theorem addCycleToFace_inv {s : Complex} (kf : Id) (c : KeyCycle)
    (h : s.Inv) : (addCycleToFace s kf c).Inv := by
  unfold addCycleToFace
  dsimp only
  exact addCycleToBoundary_inv (modifyData_invD h)

/-- `Operations::moveToGroup` preserves the invariant (pure tree-link
surgery). -/
theorem moveToGroup_inv {s : Complex} (node pg : Id) (ns : Option Id)
    (h : s.Inv) : (moveToGroup s node pg ns).Inv := by
  unfold moveToGroup
  dsimp only
  exact modifyNode_invD_of_preserve (fun _ => ⟨rfl, rfl⟩)
    (attachChild_invD (detachChild_invD h))

/-- `Operations::moveBelowBoundary` preserves the invariant. -/
theorem moveBelowBoundary_inv {s : Complex} (node : Id) (h : s.Inv) :
    (moveBelowBoundary s node).Inv := by
  unfold moveBelowBoundary
  split
  · exact h
  · dsimp only
    split
    · exact h
    · split
      · exact h
      · exact moveToGroup_inv _ _ _ h

end Operations
namespace Operations

/-- The face-repair phase of `delete_` preserves the invariant relative to
the doomed set, and only grows the doomed set. -/
theorem repairFaces_invD (o : GeomOracle) (trsc : Bool) (faces : List Id) :
    ∀ (s : Complex) (doomed : List Id), s.InvD doomed →
      ((repairFaces o trsc faces (s, doomed)).1.InvD
          (repairFaces o trsc faces (s, doomed)).2 ∧
        ∀ d ∈ doomed, d ∈ (repairFaces o trsc faces (s, doomed)).2) := by
  induction faces with
  | nil =>
    intro s doomed h
    rw [repairFaces]
    exact ⟨h, fun d hd => hd⟩
  | cons kf rest ih =>
    intro s doomed h
    rw [repairFaces]
    by_cases h1 : kf ∈ doomed
    · rw [if_pos h1]
      exact ih s doomed h
    · rw [if_neg h1]
      by_cases h2 : (!trsc) = true
      · rw [if_pos h2]
        obtain ⟨ha, hb⟩ := ih s (doomed ++ [kf])
          (h.mono (fun d hd => List.mem_append.2 (Or.inl hd)))
        exact ⟨ha, fun d hd => hb d (List.mem_append.2 (Or.inl hd))⟩
      · rw [if_neg h2]
        dsimp only
        split
        · obtain ⟨ha, hb⟩ := ih s (doomed ++ [kf])
            (h.mono (fun d hd => List.mem_append.2 (Or.inl hd)))
          exact ⟨ha, fun d hd => hb d (List.mem_append.2 (Or.inl hd))⟩
        · exact ih _ doomed
            (invD_foldl (fun t rc _ ht => addCycleToBoundary_invD h1 ht)
              (modifyData_invD
                (invD_foldl (fun t b _ ht => removeFromBoundary_invD kf b h1 ht)
                  h)))

/-- The boundary-cleanup phase of `delete_` preserves the invariant relative
to the (growing) flagged set; every doomed cell processed is already
flagged, and collected isolated inbetween vertices are flagged. -/
theorem cleanupBoundary_invD (div : Bool) (cells : List Id) :
    ∀ (s : Complex) (fl kvs ivs : List Id), s.InvD fl →
      (∀ c ∈ cells, c ∈ fl) → (∀ x ∈ ivs, x ∈ fl) →
      ((cleanupBoundary div cells (s, fl, kvs, ivs)).1.InvD
          (cleanupBoundary div cells (s, fl, kvs, ivs)).2.1 ∧
        (∀ d ∈ fl, d ∈ (cleanupBoundary div cells (s, fl, kvs, ivs)).2.1) ∧
        (∀ x ∈ (cleanupBoundary div cells (s, fl, kvs, ivs)).2.2.2,
          x ∈ (cleanupBoundary div cells (s, fl, kvs, ivs)).2.1)) := by
  induction cells with
  | nil =>
    intro s fl kvs ivs h _ hivs
    rw [cleanupBoundary]
    exact ⟨h, fun d hd => hd, hivs⟩
  | cons c rest ih =>
    intro s fl kvs ivs h hcells hivs
    rw [cleanupBoundary]
    dsimp only
    split
    · have main : ∀ (X : Complex × List Id × List Id × List Id),
          (X.1.InvD X.2.1 ∧ (∀ d ∈ fl, d ∈ X.2.1) ∧
            (∀ x ∈ X.2.2.2, x ∈ X.2.1)) →
          ((cleanupBoundary div rest
              (starClearRaw X.1 c, X.2.1, X.2.2.1, X.2.2.2)).1.InvD
            (cleanupBoundary div rest
              (starClearRaw X.1 c, X.2.1, X.2.2.1, X.2.2.2)).2.1 ∧
           (∀ d ∈ fl, d ∈ (cleanupBoundary div rest
              (starClearRaw X.1 c, X.2.1, X.2.2.1, X.2.2.2)).2.1) ∧
           (∀ x ∈ (cleanupBoundary div rest
              (starClearRaw X.1 c, X.2.1, X.2.2.1, X.2.2.2)).2.2.2,
            x ∈ (cleanupBoundary div rest
              (starClearRaw X.1 c, X.2.1, X.2.2.1, X.2.2.2)).2.1)) := by
        rintro X ⟨hX, hS, hI⟩
        have hc2 : c ∈ X.2.1 := hS c (hcells c (List.mem_cons_self _ _))
        obtain ⟨hA, hB, hC⟩ := ih (starClearRaw X.1 c) X.2.1 X.2.2.1 X.2.2.2
          (starClearRaw_invD hc2 hX)
          (fun c' hc' => hS c' (hcells c' (List.mem_cons_of_mem _ hc')))
          hI
        exact ⟨hA, fun d hd => hB d (hS d hd), hC⟩
      refine main _ ?_
      refine foldl_preserve
        (P := fun X : Complex × List Id × List Id × List Id =>
          X.1.InvD X.2.1 ∧ (∀ d ∈ fl, d ∈ X.2.1) ∧
            (∀ x ∈ X.2.2.2, x ∈ X.2.1))
        (fun X b _ hP => ?_) _ ⟨h, fun d hd => hd, hivs⟩
      obtain ⟨t, fl2, kvs2, ivs2⟩ := X
      obtain ⟨hT, hS, hI⟩ := hP
      dsimp only at hT hS hI ⊢
      split
      · exact ⟨hT, hS, hI⟩
      · split
        · split
          · exact ⟨hT.mono (fun d hd => List.mem_append.2 (Or.inl hd)),
              fun d hd => List.mem_append.2 (Or.inl (hS d hd)),
              fun x hx => List.mem_append.2 (Or.inl (hI x hx))⟩
          · refine ⟨hT.mono (fun d hd => List.mem_append.2 (Or.inl hd)),
              fun d hd => List.mem_append.2 (Or.inl (hS d hd)), ?_⟩
            intro x hx
            rcases mem_insertNew.1 hx with h1 | h1
            · exact List.mem_append.2 (Or.inl (hI x h1))
            · exact List.mem_append.2 (Or.inr (List.mem_singleton.2 h1))
          · exact ⟨hT.mono (fun d hd => List.mem_append.2 (Or.inl hd)),
              fun d hd => List.mem_append.2 (Or.inl (hS d hd)),
              fun x hx => List.mem_append.2 (Or.inl (hI x hx))⟩
        · exact ⟨starEraseRaw_invD (hS c (hcells c (List.mem_cons_self _ _))) hT,
            hS, hI⟩
    · exact ih s fl kvs ivs h
        (fun c' hc' => hcells c' (List.mem_cons_of_mem _ hc')) hivs

/-- The inbetween-vertex cleanup phase of `delete_` preserves the invariant
relative to the (growing) flagged set. -/
theorem cleanupInbetween_invD (ivsL : List Id) :
    ∀ (acc : Complex × List Id × List Id), acc.1.InvD acc.2.1 →
      (∀ x ∈ ivsL, x ∈ acc.2.1) →
      ((cleanupInbetween ivsL acc).1.InvD (cleanupInbetween ivsL acc).2.1 ∧
        ∀ d ∈ acc.2.1, d ∈ (cleanupInbetween ivsL acc).2.1) := by
  induction ivsL with
  | nil =>
    intro acc h _
    rw [cleanupInbetween]
    exact ⟨h, fun d hd => hd⟩
  | cons iv rest ih =>
    intro acc h hivs
    obtain ⟨s, fl, kvs⟩ := acc
    dsimp only at h hivs ⊢
    rw [cleanupInbetween]
    have hiv : iv ∈ fl := hivs iv (List.mem_cons_self _ _)
    have main : ∀ (X : Complex × List Id × List Id),
        (X.1.InvD X.2.1 ∧ ∀ d ∈ fl, d ∈ X.2.1) →
        ((cleanupInbetween rest X).1.InvD (cleanupInbetween rest X).2.1 ∧
          ∀ d ∈ fl, d ∈ (cleanupInbetween rest X).2.1) := by
      rintro X ⟨hX, hS⟩
      obtain ⟨hA, hB⟩ := ih X hX
        (fun x hx => hS x (hivs x (List.mem_cons_of_mem _ hx)))
      exact ⟨hA, fun d hd => hB d (hS d hd)⟩
    refine main _ ?_
    refine foldl_preserve
      (P := fun X : Complex × List Id × List Id =>
        X.1.InvD X.2.1 ∧ ∀ d ∈ fl, d ∈ X.2.1)
      (fun X kv _ hP => ?_) _ ⟨h, fun d hd => hd⟩
    obtain ⟨t, fl2, kvs2⟩ := X
    obtain ⟨hT, hS⟩ := hP
    dsimp only at hT hS ⊢
    split
    · exact ⟨hT, hS⟩
    · split
      · exact ⟨hT.mono (fun d hd => List.mem_append.2 (Or.inl hd)),
          fun d hd => List.mem_append.2 (Or.inl (hS d hd))⟩
      · exact ⟨starEraseRaw_invD (hS iv hiv) hT, hS⟩

/-- `destroyNodes_` restores the observable invariant when the erased id set
is exactly the deletion-relative set. -/
theorem destroyNodes_inv {s : Complex} {ids : List Id} (h : s.InvD ids) :
    (destroyNodes s ids).Inv := by
  unfold destroyNodes
  exact eraseNodes_inv (fun d hd => hd)
    (invD_foldl (fun t i _ ht => detachChild_invD ht) h)

/-- `Operations::delete_` preserves the observable invariant. -/
theorem deleteCore_inv (o : GeomOracle) {s : Complex} (descendants : List Id)
    (div trsc : Bool) (h : s.Inv) :
    (deleteCore o s descendants div trsc).Inv := by
  unfold deleteCore
  dsimp only
  split
  · refine destroyNodes_inv ?_
    dsimp only
    refine (cleanupInbetween_invD _ _ ?_ ?_).1
    · dsimp only
      exact (cleanupBoundary_invD div _ _ _ _ _
        ((repairFaces_invD o trsc _ s _ (h.toInvD _)).1)
        (fun x hx => hx) (by simp)).1
    · dsimp only
      exact (cleanupBoundary_invD div _ _ _ _ _
        ((repairFaces_invD o trsc _ s _ (h.toInvD _)).1)
        (fun x hx => hx) (by simp)).2.2
  · refine destroyNodes_inv ?_
    dsimp only
    exact (cleanupBoundary_invD div _ _ _ _ _
      ((repairFaces_invD o trsc _ s _ (h.toInvD _)).1)
      (fun x hx => hx) (by simp)).1

/-- `Operations::deleteWithDependents_` preserves the invariant. -/
theorem deleteWithDependents_inv (o : GeomOracle) {s : Complex}
    (nodes : List Id) (div trsc : Bool) (h : s.Inv) :
    (deleteWithDependents o s nodes div trsc).Inv := by
  unfold deleteWithDependents
  exact deleteCore_inv o _ div trsc h

/-- `Operations::hardDelete(Node*, bool)` preserves the invariant. -/
theorem hardDelete_inv (o : GeomOracle) {s : Complex} (node : Id) (div : Bool)
    (h : s.Inv) : (hardDelete o s node div).Inv := by
  unfold hardDelete
  exact deleteWithDependents_inv o _ div false h

/-- `Operations::hardDelete(core::ConstSpan<Node*>, bool)` preserves the
invariant. -/
theorem hardDeleteMany_inv (o : GeomOracle) {s : Complex} (nodes : List Id)
    (div : Bool) (h : s.Inv) : (hardDeleteMany o s nodes div).Inv := by
  unfold hardDeleteMany
  exact deleteWithDependents_inv o _ div false h

/-- `Operations::destroyChildlessNode_` preserves the invariant relative to
the erased node. -/
theorem destroyChildlessNode_inv {s : Complex} (n : Id) (h : s.Inv) :
    (destroyChildlessNode s n).Inv := by
  unfold destroyChildlessNode
  exact eraseNodes_inv_of_inv (detachChild_invD h)

end Operations
namespace Operations

/-- `Operations::glueKeyVertices` preserves the invariant. -/
theorem glueKeyVertices_inv (o : GeomOracle) {s : Complex} (kvs : List Id)
    (position : Vec2) (h : s.Inv) :
    (glueKeyVertices o s kvs position).1.Inv := by
  unfold glueKeyVertices
  split
  · exact h
  · dsimp only
    split
    · exact setKeyVertexPosition_inv _ _ h
    · split
      · exact h
      · split
        · exact h
        · dsimp only
          refine foldl_preserve
            (P := fun acc : Complex × List Id => acc.1.Inv)
            (fun acc kv _ hacc => ?_) _ (createKeyVertex_inv _ _ _ h)
          dsimp only
          split
          · exact hacc
          · exact hardDelete_inv o _ _ (substituteVertex_inv _ _ hacc)

/-- `Operations::glueKeyOpenEdges_` preserves the invariant. -/
theorem glueKeyOpenEdgesCore_inv (o : GeomOracle) {s : Complex}
    (khs : List KeyHalfedge) (h : s.Inv) :
    (glueKeyOpenEdgesCore o s khs).1.Inv := by
  unfold glueKeyOpenEdgesCore
  split
  · exact h
  · dsimp only
    split
    · exact glueKeyVertices_inv o _ _ h
    · split
      · exact glueKeyVertices_inv o _ _ (glueKeyVertices_inv o _ _ h)
      · split
        · exact glueKeyVertices_inv o _ _ (glueKeyVertices_inv o _ _ h)
        · split
          · exact glueKeyVertices_inv o _ _ (glueKeyVertices_inv o _ _ h)
          · dsimp only
            refine invD_foldl (fun t kh _ ht => ?_)
              (createKeyOpenEdge_inv _ _ _ _ _
                (glueKeyVertices_inv o _ _ (glueKeyVertices_inv o _ _ h)))
            dsimp only
            exact hardDelete_inv o _ _ (substituteEdge_inv _ _ ht)

/-- `Operations::glueKeyClosedEdges_` preserves the invariant. -/
theorem glueKeyClosedEdgesCore_inv (o : GeomOracle) {s : Complex}
    (khs : List KeyHalfedge) (uOffsets : List Rat) (h : s.Inv) :
    (glueKeyClosedEdgesCore o s khs uOffsets).1.Inv := by
  unfold glueKeyClosedEdgesCore
  split
  · exact h
  · dsimp only
    split
    · exact h
    · split
      · exact h
      · dsimp only
        refine invD_foldl (fun t kh _ ht => ?_)
          (createKeyClosedEdge_inv _ _ _ h)
        dsimp only
        exact hardDelete_inv o _ _ (substituteEdge_inv _ _ ht)

/-- The `duplicateTargetKe` helper of `unglueKeyEdges` preserves the
invariant. -/
theorem duplicateKeyEdge_inv {s : Complex} (targetKe : Id) (h : s.Inv) :
    (duplicateKeyEdge s targetKe).1.Inv := by
  unfold duplicateKeyEdge
  split
  · exact h
  · split
    · exact createKeyClosedEdge_inv _ _ _ h
    · exact createKeyOpenEdge_inv _ _ _ _ _ h
    · exact h

/-- The in-cycle substitution loop of `unglueKeyEdges` preserves the
invariant. -/
theorem unglueSubstOpen_inv (targetKe : Id) (hs : List KeyHalfedge) :
    ∀ (acc : Complex × List Id × Id) (revDone : List KeyHalfedge),
      acc.1.Inv → (unglueSubstOpen targetKe hs acc revDone).2.1.Inv := by
  induction hs with
  | nil =>
    intro acc revDone h
    rw [unglueSubstOpen]
    exact h
  | cons h0 rest ih =>
    intro acc revDone h
    obtain ⟨s, result, kf⟩ := acc
    rw [unglueSubstOpen]
    dsimp only
    split
    · exact ih _ _ (addToBoundary_inv _ _ (duplicateKeyEdge_inv _ h))
    · exact ih _ _ h

/-- `Operations::unglueKeyEdges` preserves the invariant (also on the
exception path, where the state mutated so far is kept). -/
theorem unglueKeyEdges_inv (o : GeomOracle) {s : Complex} (targetKe : Id)
    (h : s.Inv) : (unglueKeyEdges o s targetKe).1.Inv := by
  unfold unglueKeyEdges
  split
  · exact h
  · dsimp only
    have key : ∀ (X : Complex × List Id × Bool), X.1.Inv →
        (if X.2.2 = true then X
         else (hardDelete o X.1 targetKe, X.2.1, false)).1.Inv := by
      intro X hX
      split
      · exact hX
      · exact hardDelete_inv o _ _ hX
    refine key _ ?_
    refine foldl_preserve
      (P := fun acc : Complex × List Id × Bool => acc.1.Inv)
      (fun acc cell _ hacc => ?_) _ h
    obtain ⟨t, result, thrown⟩ := acc
    dsimp only at hacc ⊢
    split
    · exact hacc
    · split
      · dsimp only
        refine removeFromBoundary_inv _ _ (modifyData_invD ?_)
        refine foldl_preserve
          (P := fun acc2 : Complex × List Id × List KeyCycle => acc2.1.Inv)
          (fun acc2 c _ hacc2 => ?_) _ hacc
        obtain ⟨t2, res2, done⟩ := acc2
        dsimp only at hacc2 ⊢
        split
        · exact hacc2
        · exact hacc2
        · split
          · exact unglueSubstOpen_inv targetKe _ _ _ hacc2
          · split
            · exact addToBoundary_inv _ _ (duplicateKeyEdge_inv _ hacc2)
            · exact hacc2
      · exact hacc

/-- The `substituteTargetKvAtStartOrEndOfKhe` helper preserves the
invariant. -/
theorem substituteKvAtKheEnd_inv {s : Complex} (targetKv : Id)
    (khe : KeyHalfedge) (startVertex : Bool) (newKv : Id) (h : s.Inv) :
    (substituteKvAtKheEnd s targetKv khe startVertex newKv).Inv := by
  unfold substituteKvAtKheEnd
  dsimp only
  refine addToBoundary_inv _ _ ?_
  split
  · split
    · exact removeFromBoundary_inv _ _ (modifyData_invD h)
    · exact modifyData_invD h
  · split
    · exact removeFromBoundary_inv _ _ (modifyData_invD h)
    · exact modifyData_invD h

/-- The `duplicateTargetKv` helper preserves the invariant. -/
theorem duplicateKeyVertex_inv {s : Complex} (targetKv : Id) (h : s.Inv) :
    (duplicateKeyVertex s targetKv).1.Inv := by
  unfold duplicateKeyVertex
  split
  · exact createKeyVertex_inv _ _ _ h
  · exact h

/-- The face-corner substitution loop of `unglueKeyVertices` preserves the
invariant. -/
theorem unglueVertexCorners_inv (targetKv kf : Id) (hs : List KeyHalfedge)
    (idxs : List Nat) :
    ∀ (acc : Complex × List Id), acc.1.Inv →
      (unglueVertexCorners targetKv kf hs idxs acc).1.Inv := by
  induction idxs with
  | nil =>
    intro acc h
    rw [unglueVertexCorners]
    exact h
  | cons i rest ih =>
    intro acc h
    obtain ⟨s, result⟩ := acc
    rw [unglueVertexCorners]
    dsimp only
    split
    · exact ih _ (addToBoundary_inv _ _ (substituteKvAtKheEnd_inv _ _ _ _
        (substituteKvAtKheEnd_inv _ _ _ _ (duplicateKeyVertex_inv _ h))))
    · exact ih _ h

/-- The tail of `unglueKeyVertices` after the edge-unglue phase (phase 2 and
the final hard-delete) preserves the invariant, for any phase-1 outcome. -/
theorem unglueKVTail_inv (o : GeomOracle) (targetKv : Id)
    (X : Complex × List (Id × List Id) × Bool) (hX : X.1.Inv) :
    (if X.2.2 = true then (X.1, ([] : List Id), X.2.1, true)
     else
       let t0 := X.1
       let phase2 := (t0.starOf targetKv).foldl
         (fun (acc : Complex × List Id × Bool) cell =>
           let (t, result, thrown) := acc
           if thrown then acc
           else
             match t.dataOf cell with
             | some (.keyEdge sv ev _) =>
               let hasFaceInStar := (t.starOf cell).any (fun c =>
                 match t.dataOf c with
                 | some (.keyFace _ _) => true
                 | _ => false)
               if hasFaceInStar then (t, result, false)
               else
                 let step1 :=
                   if sv = some targetKv then
                     let r := duplicateKeyVertex t targetKv
                     let t1 := r.1.modifyData cell (fun d =>
                       match d with
                       | .keyEdge _ ev2 ed => .keyEdge (some r.2) ev2 ed
                       | d => d)
                     (addToBoundary t1 cell r.2, result ++ [r.2])
                   else (t, result)
                 let step2 :=
                   if ev = some targetKv then
                     let r := duplicateKeyVertex step1.1 targetKv
                     let t1 := r.1.modifyData cell (fun d =>
                       match d with
                       | .keyEdge sv2 _ ed => .keyEdge sv2 (some r.2) ed
                       | d => d)
                     (addToBoundary t1 cell r.2, step1.2 ++ [r.2])
                   else step1
                 (removeFromBoundary step2.1 cell targetKv, step2.2, false)
             | some (.keyFace cycles fd) =>
               let step := cycles.foldl
                 (fun (acc2 : Complex × List Id × List KeyCycle) c =>
                   let (t2, res2, done) := acc2
                   match c with
                   | .steiner v =>
                     if v = targetKv then
                       let r := duplicateKeyVertex t2 targetKv
                       let t3 := addToBoundary r.1 cell r.2
                       (t3, res2 ++ [r.2], done ++ [.steiner r.2])
                     else (t2, res2, done ++ [.steiner v])
                   | .walk hs =>
                     let r := unglueVertexCorners targetKv cell hs
                       (List.range hs.length) (t2, res2)
                     (r.1, r.2, done ++ [.walk hs])) (t, result, [])
               let t3 := step.1.modifyData cell (fun _ => .keyFace step.2.2 fd)
               let t4 := removeFromBoundary t3 cell targetKv
               (t4, step.2.1, false)
             | _ => (t, result, true)) (t0, [], false)
       if phase2.2.2 then (phase2.1, phase2.2.1, X.2.1, true)
       else (hardDelete o phase2.1 targetKv, phase2.2.1, X.2.1, false)).1.Inv := by
  split
  · exact hX
  · dsimp only
    have key2 : ∀ (Y : Complex × List Id × Bool), Y.1.Inv →
        (if Y.2.2 = true then (Y.1, Y.2.1, X.2.1, true)
         else (hardDelete o Y.1 targetKv, Y.2.1, X.2.1, false)).1.Inv := by
      intro Y hY
      split
      · exact hY
      · exact hardDelete_inv o _ _ hY
    refine key2 _ ?_
    refine foldl_preserve
      (P := fun acc : Complex × List Id × Bool => acc.1.Inv)
      (fun acc cell _ hacc => ?_) _ hX
    obtain ⟨t, result, thrown⟩ := acc
    dsimp only at hacc ⊢
    split
    · exact hacc
    · split
      · split
        · exact hacc
        · dsimp only
          refine removeFromBoundary_inv _ _ ?_
          split
          · dsimp only
            refine addToBoundary_inv _ _ (modifyData_invD
              (duplicateKeyVertex_inv _ ?_))
            split
            · exact addToBoundary_inv _ _ (modifyData_invD
                (duplicateKeyVertex_inv _ hacc))
            · exact hacc
          · split
            · exact addToBoundary_inv _ _ (modifyData_invD
                (duplicateKeyVertex_inv _ hacc))
            · exact hacc
      · dsimp only
        refine removeFromBoundary_inv _ _ (modifyData_invD ?_)
        refine foldl_preserve
          (P := fun acc2 : Complex × List Id × List KeyCycle => acc2.1.Inv)
          (fun acc2 c _ hacc2 => ?_) _ hacc
        obtain ⟨t2, res2, done⟩ := acc2
        dsimp only at hacc2 ⊢
        split
        · split
          · exact addToBoundary_inv _ _ (duplicateKeyVertex_inv _ hacc2)
          · exact hacc2
        · exact unglueVertexCorners_inv _ _ _ _ _ hacc2
      · exact hacc

/-- `Operations::unglueKeyVertices` preserves the invariant (also on the
exception path). -/
theorem unglueKeyVertices_inv (o : GeomOracle) {s : Complex} (targetKv : Id)
    (h : s.Inv) : (unglueKeyVertices o s targetKv).1.Inv := by
  unfold unglueKeyVertices
  split
  · exact h
  · dsimp only
    refine unglueKVTail_inv o targetKv _ ?_
    refine foldl_preserve
      (P := fun acc : Complex × List (Id × List Id) × Bool => acc.1.Inv)
      (fun acc cell _ hacc => ?_) _ h
    obtain ⟨t, pairs, thrown⟩ := acc
    dsimp only at hacc ⊢
    split
    · exact hacc
    · split
      · split
        · exact unglueKeyEdges_inv o _ hacc
        · split
          · exact unglueKeyEdges_inv o _ hacc
          · exact unglueKeyEdges_inv o _ hacc
      · exact hacc

end Operations
namespace Operations

/-- `Operations::cutEdge` preserves the invariant. -/
theorem cutEdge_inv (o : GeomOracle) {s : Complex} (ke : Id)
    (parameter : CurveParameter) (h : s.Inv) :
    (cutEdge o s ke parameter).1.Inv := by
  unfold cutEdge
  split
  · dsimp only
    refine hardDelete_inv o _ _ ?_
    refine invD_foldl (fun t cell _ ht => ?_)
      (substituteEdge_inv _ _
        (createKeyOpenEdge_inv _ _ _ _ _ (createKeyVertex_inv _ _ _ h)))
    exact addToBoundary_inv _ _ ht
  · dsimp only
    refine hardDelete_inv o _ _ ?_
    refine invD_foldl (fun t starCell _ ht => ?_)
      (createKeyOpenEdge_inv _ _ _ _ _
        (createKeyOpenEdge_inv _ _ _ _ _ (createKeyVertex_inv _ _ _ h)))
    dsimp only
    split
    · exact addToBoundary_inv _ _ (addToBoundary_inv _ _ (addToBoundary_inv _ _
        (removeFromBoundary_inv _ _ (modifyData_invD ht))))
    · exact ht
  · exact h

/-- `Operations::cutGlueFaceWithVertex` preserves the invariant. -/
theorem cutGlueFaceWithVertex_inv {s : Complex} (kf kv : Id) (h : s.Inv) :
    (cutGlueFaceWithVertex s kf kv).Inv := by
  unfold cutGlueFaceWithVertex
  dsimp only
  exact addToBoundary_inv _ _ (modifyData_invD h)

/-- `Operations::cutFaceWithVertex` preserves the invariant. -/
theorem cutFaceWithVertex_inv {s : Complex} (kf : Id) (position : Vec2)
    (h : s.Inv) : (cutFaceWithVertex s kf position).1.Inv := by
  unfold cutFaceWithVertex
  split
  · exact h
  · exact cutGlueFaceWithVertex_inv _ _ (createKeyVertex_inv _ _ _ h)

/-- `Operations::cutGlueFace` (halfedge version) preserves the invariant. -/
theorem cutGlueFace_inv (o : GeomOracle) {s : Complex} (kf : Id)
    (khe : KeyHalfedge) (startIndex endIndex : Nat × Nat) (ocp : OneCycleCut)
    (tcp : TwoCycleCut) (h : s.Inv) :
    (cutGlueFace o s kf khe startIndex endIndex ocp tcp).1.Inv := by
  unfold cutGlueFace
  dsimp only
  split
  · split
    · split
      · exact hardDelete_inv o _ _ (createKeyFace_inv _ _ _ _
          (createKeyFace_inv _ _ _ _ h))
      · exact h
    · exact addToBoundary_inv _ _ (modifyData_invD h)
    · exact addToBoundary_inv _ _ (modifyData_invD h)
  · exact addToBoundary_inv _ _ (modifyData_invD h)

/-- `Operations::cutGlueFace` (closed-edge version) preserves the
invariant. -/
theorem cutGlueFaceWithClosedEdge_inv (o : GeomOracle) {s : Complex}
    (kf ke : Id) (ocp : OneCycleCut) (h : s.Inv) :
    (cutGlueFaceWithClosedEdge o s kf ke ocp).1.Inv := by
  unfold cutGlueFaceWithClosedEdge
  split
  · dsimp only
    split
    · exact hardDelete_inv o _ _ (createKeyFace_inv _ _ _ _
        (createKeyFace_inv _ _ _ _ h))
    · exact h
  · exact addCycleToFace_inv _ _ h
  · exact addCycleToFace_inv _ _ (addCycleToFace_inv _ _ h)

/-- `Operations::uncutAtKeyVertex` preserves the invariant. -/
theorem uncutAtKeyVertex_inv (o : GeomOracle) {s : Complex} (targetKv : Id)
    (smoothJoin : Bool) (h : s.Inv) :
    (uncutAtKeyVertex o s targetKv smoothJoin).1.Inv := by
  unfold uncutAtKeyVertex
  dsimp only
  split
  · exact h
  · split
    · exact hardDelete_inv o _ _ (removeFromBoundary_inv _ _ (modifyData_invD h))
    · split
      · split
        · split
          · dsimp only
            refine hardDelete_inv o _ _ (hardDelete_inv o _ _ ?_)
            exact invD_foldl (fun t cell _ ht => removeFromBoundary_inv _ _ ht)
              (substituteEdge_inv _ _ (createKeyClosedEdge_inv _ _ _ h))
          · exact h
        · split
          · split
            · exact h
            · split
              · exact h
              · dsimp only
                refine hardDelete_inv o _ _ (hardDelete_inv o _ _
                  (hardDelete_inv o _ _ ?_))
                refine invD_foldl (fun t starCell _ ht => ?_)
                  (createKeyOpenEdge_inv _ _ _ _ _ h)
                dsimp only
                split
                · exact addToBoundary_inv _ _ (removeFromBoundary_inv _ _
                    (removeFromBoundary_inv _ _ (removeFromBoundary_inv _ _
                      (modifyData_invD ht))))
                · exact ht
          · exact h
      · exact h

/-- `Operations::uncutAtKeyEdge` preserves the invariant. -/
theorem uncutAtKeyEdge_inv (o : GeomOracle) {s : Complex} (targetKe : Id)
    (h : s.Inv) : (uncutAtKeyEdge o s targetKe).1.Inv := by
  unfold uncutAtKeyEdge
  dsimp only
  split
  · exact h
  · split
    · split
      · split
        · exact hardDelete_inv o _ _ (removeFromBoundary_inv _ _
            (modifyData_invD h))
        · split
          · exact h
          · split
            · exact hardDelete_inv o _ _ (hardDelete_inv o _ _
                (hardDelete_inv o _ _ (createKeyFace_inv _ _ _ _ h)))
            · exact h
      · split
        · split
          · exact hardDelete_inv o _ _ (removeFromBoundary_inv _ _
              (modifyData_invD h))
          · exact hardDelete_inv o _ _ (removeFromBoundary_inv _ _
              (modifyData_invD h))
        · split
          · exact h
          · split
            · exact hardDelete_inv o _ _ (hardDelete_inv o _ _
                (hardDelete_inv o _ _ (createKeyFace_inv _ _ _ _ h)))
            · exact h
    · exact h

end Operations
namespace Operations

/-- `Operations::createGroup` (operationsimpl.cpp lines 119-122). -/
def createGroup (s : Complex) (parentGroup : Id) (nextSibling : Option Id) :
    Complex × Id :=
  createNodeAt s parentGroup nextSibling .group

/-- `Operations::createGroup` preserves the invariant. -/
theorem createGroup_inv {s : Complex} (pg : Id) (ns : Option Id) (h : s.Inv) :
    (createGroup s pg ns).1.Inv := by
  unfold createGroup
  exact createNodeAt_invD h

/-- The key edges among the stars of the given cells, as collected by the
`classifyStar` helper of `softDelete` (lines 450-456); `ClassifiedCells`
deduplicates on insertion. -/
def starKeyEdgesOf (s : Complex) (cells : List Id) : List Id :=
  cells.foldl (fun acc c =>
    (s.starOf c).foldl (fun acc2 sc =>
      match s.dataOf sc with
      | some (.keyEdge _ _ _) => insertNew acc2 sc
      | _ => acc2) acc) []

/-- One `uncutCells` pass over key edges (lines 462-480): try uncutting each
edge in order, keeping the survivors (the cells that could not be uncut). -/
def uncutEdgesPass (o : GeomOracle) (l : List Id) (s : Complex) :
    Complex × List Id :=
  l.foldl (fun (acc : Complex × List Id) ke =>
    let r := uncutAtKeyEdge o acc.1 ke
    if r.2.success then (r.1, acc.2) else (r.1, acc.2 ++ [ke])) (s, [])

/-- One `uncutCells` pass over key vertices, with the constant
`smoothJoins = false` of `softDelete` (line 453). -/
def uncutVerticesPass (o : GeomOracle) (l : List Id) (s : Complex) :
    Complex × List Id :=
  l.foldl (fun (acc : Complex × List Id) kv =>
    let r := uncutAtKeyVertex o acc.1 kv false
    if r.2.success then (r.1, acc.2) else (r.1, acc.2 ++ [kv])) (s, [])

/-- `Operations::softDelete` (lines 444-555).  The resolved selection — the
classified cells of `ResolvedSelection` and the closure of its opening,
whose traversal helpers are not part of the state model — enters as the
parameter lists `kfs`, `kes`, `kvs`, `topGroups` and `residual`;
`deleteIsolatedVertices` is ignored by the C++ (`VGC_UNUSED`, line 446).
An `uncutCells` pass over faces is the identity (the `constexpr` dispatch
at lines 469-474 handles only vertices and edges), so the face phase and
the star-face passes reduce to their delete/no-op parts. -/
def softDelete (o : GeomOracle) (s : Complex)
    (kfs kes kvs topGroups residual : List Id) : Complex :=
  -- Faces: delete with dependents, repairing star cells.
  let s1 := deleteWithDependents o s kfs false true
  -- Edges: an uncut pass, a second pass for survivors, then delete.
  let e1 := uncutEdgesPass o kes s1
  let e2 := if e1.2.isEmpty then e1 else uncutEdgesPass o e1.2 e1.1
  let s2 := deleteWithDependents o e2.1 e2.2 false true
  -- Vertices: up to three uncut passes, interleaved with star-edge uncut
  -- passes, then delete.
  let v1 := uncutVerticesPass o kvs s2
  let v2 :=
    if v1.2.isEmpty then v1
    else
      let t1 := (starKeyEdgesOf v1.1 v1.2).foldl
        (fun t ke => (uncutAtKeyEdge o t ke).1) v1.1
      uncutVerticesPass o v1.2 t1
  let v3 :=
    if v2.2.isEmpty then v2
    else
      let t2 := (starKeyEdgesOf v2.1 v2.2).foldl
        (fun t ke => (uncutAtKeyEdge o t ke).1) v2.1
      uncutVerticesPass o v2.2 t2
  let s3 := deleteWithDependents o v3.1 v3.2 false true
  -- Groups: destroy the selection's top groups.
  let s4 := topGroups.foldl (fun t g => destroyChildlessNode t g) s3
  -- Residual isolated key vertices of the selection closure.
  residual.foldl (fun t kv =>
    if (t.starOf kv).isEmpty then destroyChildlessNode t kv else t) s4

/-- An edge uncut pass preserves the invariant. -/
theorem uncutEdgesPass_inv (o : GeomOracle) (l : List Id) {s : Complex}
    (h : s.Inv) : (uncutEdgesPass o l s).1.Inv := by
  unfold uncutEdgesPass
  refine foldl_preserve (P := fun acc : Complex × List Id => acc.1.Inv)
    (fun acc ke _ hacc => ?_) _ h
  dsimp only
  split
  · exact uncutAtKeyEdge_inv o _ hacc
  · exact uncutAtKeyEdge_inv o _ hacc

/-- A vertex uncut pass preserves the invariant. -/
theorem uncutVerticesPass_inv (o : GeomOracle) (l : List Id) {s : Complex}
    (h : s.Inv) : (uncutVerticesPass o l s).1.Inv := by
  unfold uncutVerticesPass
  refine foldl_preserve (P := fun acc : Complex × List Id => acc.1.Inv)
    (fun acc kv _ hacc => ?_) _ h
  dsimp only
  split
  · exact uncutAtKeyVertex_inv o _ _ hacc
  · exact uncutAtKeyVertex_inv o _ _ hacc

/-- The second-chance edge uncut pass of `softDelete` preserves the
invariant. -/
theorem softDeleteEdges2_inv (o : GeomOracle) (X : Complex × List Id)
    (hX : X.1.Inv) :
    (if X.2.isEmpty then X else uncutEdgesPass o X.2 X.1).1.Inv := by
  split
  · exact hX
  · exact uncutEdgesPass_inv o _ hX

/-- A star-edge-then-vertices uncut round of `softDelete` preserves the
invariant. -/
theorem softDeleteVRound_inv (o : GeomOracle) (X : Complex × List Id)
    (hX : X.1.Inv) :
    (if X.2.isEmpty then X
     else
       let t1 := (starKeyEdgesOf X.1 X.2).foldl
         (fun t ke => (uncutAtKeyEdge o t ke).1) X.1
       uncutVerticesPass o X.2 t1).1.Inv := by
  split
  · exact hX
  · dsimp only
    refine uncutVerticesPass_inv o _ ?_
    exact foldl_preserve (P := fun t : Complex => t.Inv)
      (fun t ke _ ht => uncutAtKeyEdge_inv o _ ht) _ hX

/-- `Operations::softDelete` preserves the invariant. -/
theorem softDelete_inv (o : GeomOracle) {s : Complex}
    (kfs kes kvs topGroups residual : List Id) (h : s.Inv) :
    (softDelete o s kfs kes kvs topGroups residual).Inv := by
  unfold softDelete
  dsimp only
  refine foldl_preserve (P := fun t : Complex => t.Inv)
    (fun t kv _ ht => ?_) _ ?_
  · dsimp only
    split
    · exact destroyChildlessNode_inv _ ht
    · exact ht
  · refine foldl_preserve (P := fun t : Complex => t.Inv)
      (fun t g _ ht => destroyChildlessNode_inv _ ht) _ ?_
    refine deleteWithDependents_inv o _ false true ?_
    refine softDeleteVRound_inv o _ ?_
    refine softDeleteVRound_inv o _ ?_
    refine uncutVerticesPass_inv o _ ?_
    refine deleteWithDependents_inv o _ false true ?_
    refine softDeleteEdges2_inv o _ ?_
    refine uncutEdgesPass_inv o _ ?_
    exact deleteWithDependents_inv o _ false true h

/-- `Operations::simplify` (lines 556-629): the state mutations are one
`uncutAtKeyEdge` per given edge, then one `uncutAtKeyVertex` per given
vertex; the returned-cell bookkeeping is pure. -/
def simplify (o : GeomOracle) (s : Complex) (kvs kes : List Id)
    (smoothJoins : Bool) : Complex :=
  let s1 := kes.foldl (fun t ke => (uncutAtKeyEdge o t ke).1) s
  kvs.foldl (fun t kv => (uncutAtKeyVertex o t kv smoothJoins).1) s1

/-- `Operations::simplify` preserves the invariant. -/
theorem simplify_inv (o : GeomOracle) {s : Complex} (kvs kes : List Id)
    (smoothJoins : Bool) (h : s.Inv) :
    (simplify o s kvs kes smoothJoins).Inv := by
  unfold simplify
  dsimp only
  refine foldl_preserve (P := fun t : Complex => t.Inv)
    (fun t kv _ ht => uncutAtKeyVertex_inv o _ _ ht) _ ?_
  exact foldl_preserve (P := fun t : Complex => t.Inv)
    (fun t ke _ ht => uncutAtKeyEdge_inv o _ ht) _ h

end Operations

/-- One public mutating operation of the modelled `vacomplex` API: each
constructor applies one operation, with arbitrary parameters, to the source
state, relating it to the resulting state (for pair-returning operations,
the state component).  Heuristically resolved arguments — `softDelete`'s
resolved selection, the `Auto` cut policies, the glue/containment
measurements of the geometry oracle — are universally quantified, so every
concrete resolution is covered. -/
inductive Step : Complex → Complex → Prop where
  | createKeyVertex (s : Complex) (pos : Vec2) (pg : Id) (ns : Option Id) :
      Step s (Operations.createKeyVertex s pos pg ns).1
  | createKeyOpenEdge (s : Complex) (sv ev : Id) (d : KeyEdgeData) (pg : Id)
      (ns : Option Id) : Step s (Operations.createKeyOpenEdge s sv ev d pg ns).1
  | createKeyClosedEdge (s : Complex) (d : KeyEdgeData) (pg : Id)
      (ns : Option Id) : Step s (Operations.createKeyClosedEdge s d pg ns).1
  | createKeyFace (s : Complex) (cycles : List KeyCycle) (fd : KeyFaceData)
      (pg : Id) (ns : Option Id) :
      Step s (Operations.createKeyFace s cycles fd pg ns).1
  | addCycleToFace (s : Complex) (kf : Id) (c : KeyCycle) :
      Step s (Operations.addCycleToFace s kf c)
  | setKeyVertexPosition (s : Complex) (kv : Id) (pos : Vec2) :
      Step s (Operations.setKeyVertexPosition s kv pos)
  | moveToGroup (s : Complex) (node pg : Id) (ns : Option Id) :
      Step s (Operations.moveToGroup s node pg ns)
  | moveBelowBoundary (s : Complex) (node : Id) :
      Step s (Operations.moveBelowBoundary s node)
  | hardDelete (o : Operations.GeomOracle) (s : Complex) (node : Id)
      (div : Bool) : Step s (Operations.hardDelete o s node div)
  | hardDeleteMany (o : Operations.GeomOracle) (s : Complex) (nodes : List Id)
      (div : Bool) : Step s (Operations.hardDeleteMany o s nodes div)
  | glueKeyVertices (o : Operations.GeomOracle) (s : Complex) (kvs : List Id)
      (pos : Vec2) : Step s (Operations.glueKeyVertices o s kvs pos).1
  | glueKeyOpenEdges (o : Operations.GeomOracle) (s : Complex)
      (khs : List KeyHalfedge) :
      Step s (Operations.glueKeyOpenEdgesCore o s khs).1
  | glueKeyClosedEdges (o : Operations.GeomOracle) (s : Complex)
      (khs : List KeyHalfedge) (uOffsets : List Rat) :
      Step s (Operations.glueKeyClosedEdgesCore o s khs uOffsets).1
  | unglueKeyEdges (o : Operations.GeomOracle) (s : Complex) (ke : Id) :
      Step s (Operations.unglueKeyEdges o s ke).1
  | unglueKeyVertices (o : Operations.GeomOracle) (s : Complex) (kv : Id) :
      Step s (Operations.unglueKeyVertices o s kv).1
  | cutEdge (o : Operations.GeomOracle) (s : Complex) (ke : Id)
      (p : CurveParameter) : Step s (Operations.cutEdge o s ke p).1
  | cutFaceWithVertex (s : Complex) (kf : Id) (pos : Vec2) :
      Step s (Operations.cutFaceWithVertex s kf pos).1
  | cutGlueFaceWithVertex (s : Complex) (kf kv : Id) :
      Step s (Operations.cutGlueFaceWithVertex s kf kv)
  | cutGlueFace (o : Operations.GeomOracle) (s : Complex) (kf : Id)
      (khe : KeyHalfedge) (si ei : Nat × Nat) (ocp : Operations.OneCycleCut)
      (tcp : Operations.TwoCycleCut) :
      Step s (Operations.cutGlueFace o s kf khe si ei ocp tcp).1
  | cutGlueFaceWithClosedEdge (o : Operations.GeomOracle) (s : Complex)
      (kf ke : Id) (ocp : Operations.OneCycleCut) :
      Step s (Operations.cutGlueFaceWithClosedEdge o s kf ke ocp).1
  | uncutAtKeyVertex (o : Operations.GeomOracle) (s : Complex) (kv : Id)
      (sj : Bool) : Step s (Operations.uncutAtKeyVertex o s kv sj).1
  | uncutAtKeyEdge (o : Operations.GeomOracle) (s : Complex) (ke : Id) :
      Step s (Operations.uncutAtKeyEdge o s ke).1
  | createGroup (s : Complex) (pg : Id) (ns : Option Id) :
      Step s (Operations.createGroup s pg ns).1
  | softDelete (o : Operations.GeomOracle) (s : Complex)
      (kfs kes kvs topGroups residual : List Id) :
      Step s (Operations.softDelete o s kfs kes kvs topGroups residual)
  | simplify (o : Operations.GeomOracle) (s : Complex) (kvs kes : List Id)
      (sj : Bool) : Step s (Operations.simplify o s kvs kes sj)
  | clear (s : Complex) : Step s s.clear
  | resetRoot (s : Complex) : Step s (Complex.resetRoot s).1

/-- A complex is at an observable point when some sequence of public
operations produces it from a freshly constructed complex. -/
def Reachable (s : Complex) : Prop :=
  Relation.ReflTransGen Step Complex.fresh s

/-- Every single public operation preserves the invariant. -/
theorem Step.preserves_inv {s t : Complex} (hst : Step s t) (h : s.Inv) :
    t.Inv := by
  cases hst
  · exact Operations.createKeyVertex_inv _ _ _ h
  · exact Operations.createKeyOpenEdge_inv _ _ _ _ _ h
  · exact Operations.createKeyClosedEdge_inv _ _ _ h
  · exact Operations.createKeyFace_inv _ _ _ _ h
  · exact Operations.addCycleToFace_inv _ _ h
  · exact Operations.setKeyVertexPosition_inv _ _ h
  · exact Operations.moveToGroup_inv _ _ _ h
  · exact Operations.moveBelowBoundary_inv _ h
  · exact Operations.hardDelete_inv _ _ _ h
  · exact Operations.hardDeleteMany_inv _ _ _ h
  · exact Operations.glueKeyVertices_inv _ _ _ h
  · exact Operations.glueKeyOpenEdgesCore_inv _ _ h
  · exact Operations.glueKeyClosedEdgesCore_inv _ _ _ h
  · exact Operations.unglueKeyEdges_inv _ _ h
  · exact Operations.unglueKeyVertices_inv _ _ h
  · exact Operations.cutEdge_inv _ _ _ h
  · exact Operations.cutFaceWithVertex_inv _ _ h
  · exact Operations.cutGlueFaceWithVertex_inv _ _ h
  · exact Operations.cutGlueFace_inv _ _ _ _ _ _ _ h
  · exact Operations.cutGlueFaceWithClosedEdge_inv _ _ _ _ h
  · exact Operations.uncutAtKeyVertex_inv _ _ _ h
  · exact Operations.uncutAtKeyEdge_inv _ _ h
  · exact Operations.createGroup_inv _ _ h
  · exact Operations.softDelete_inv _ _ _ _ _ _ h
  · exact Operations.simplify_inv _ _ _ _ h
  · exact Operations.clear_inv _
  · exact Operations.resetRoot_inv _

/-- C1: at every observable point — any state obtained from a fresh complex
by a completed sequence of public operations — boundary/star symmetry holds:
for all cells `A` and `B` present in the complex, `A ∈ B.boundary()` if and
only if `B ∈ A.star()`. -/
theorem claim_C1 (s : Complex) (h : Reachable s) :
    ∀ p ∈ s.nodes, ∀ q ∈ s.nodes, (p.1 ∈ q.2.boundary ↔ q.1 ∈ p.2.star) := by
  have hinv : s.InvD [] := by
    induction h with
    | refl => exact Operations.fresh_inv
    | tail _ hstep ih => exact hstep.preserves_inv ih
  intro p hp q hq
  exact hinv.symm p hp q hq (by simp) (by simp)

/-- Witness for C1: the reachability hypothesis is discharged at the
concrete state obtained by one `createKeyVertex` on a fresh complex. -/
theorem claim_C1_witness :
    Reachable (Operations.createKeyVertex Complex.fresh ⟨0, 0⟩ 0 none).1 ∧
    ∀ p ∈ (Operations.createKeyVertex Complex.fresh ⟨0, 0⟩ 0 none).1.nodes,
      ∀ q ∈ (Operations.createKeyVertex Complex.fresh ⟨0, 0⟩ 0 none).1.nodes,
        (p.1 ∈ q.2.boundary ↔ q.1 ∈ p.2.star) :=
  ⟨Relation.ReflTransGen.single
      (Step.createKeyVertex Complex.fresh ⟨0, 0⟩ 0 none),
   claim_C1 _ (Relation.ReflTransGen.single
      (Step.createKeyVertex Complex.fresh ⟨0, 0⟩ 0 none))⟩

end VGC
